import Mathlib

/-!
Verification development for the binox repository (a binary Latin-square
style puzzle engine).  The Rust sources `src/binox/row.rs` and
`src/binox.rs` are shallowly embedded below: `u16`/`u8` machine integers
become `Nat` with explicit `% 65536` wherever a Rust operation can
overflow the 16-bit word, in-place mutation becomes explicit state
passing, and fallible operations return `Except`.
-/

set_option maxRecDepth 10000

/-- Population count of the low 16 bits of a natural number (the live
popcount of a `u16`). -/
def popc16 (n : Nat) : Nat :=
  ((Finset.range 16).filter (fun i => n.testBit i)).card

/-- Embedding of `BinRow` (src/binox/row.rs): a bit-packed line.
`data : u16`, `size : u8`, `count : u8`; field order matters because the
derived Rust `Ord` compares fields in declaration order. -/
structure BinRow where
  data : Nat
  size : Nat
  count : Nat
deriving DecidableEq, Repr

/-- `BinRow::new`: size must be in [4,16] and even. -/
def BinRow.new (size : Nat) : Except String BinRow :=
  if size > 16 then .error "size must be at most 16"
  else if size < 4 then .error "size must be at least 4"
  else if size % 2 == 1 then .error "size must be even"
  else .ok { size := size, data := 0, count := 0 }

/-- Happy path of `BinRow::set_one` (the body after the range check):
sets bit `position`, incrementing `count` only if the bit was clear. -/
def BinRow.set_oneCore (r : BinRow) (position : Nat) : BinRow :=
  { r with
    data := r.data ||| (1 <<< position),
    count := if r.data &&& (1 <<< position) == 0 then r.count + 1 else r.count }

/-- Happy path of `BinRow::set_zero`: clears bit `position` (`data &= !(1 << position)`
on `u16`), decrementing `count` only if the bit was set. -/
def BinRow.set_zeroCore (r : BinRow) (position : Nat) : BinRow :=
  { r with
    data := r.data &&& (65535 ^^^ (1 <<< position)),
    count := if r.data &&& (1 <<< position) != 0 then r.count - 1 else r.count }

/-- `BinRow::set_one` with its range check. -/
def BinRow.set_one (r : BinRow) (position : Nat) : Except String BinRow :=
  if position ≥ r.size then .error "attempted to set one out of range"
  else .ok (r.set_oneCore position)

/-- `BinRow::set_zero` with its range check. -/
def BinRow.set_zero (r : BinRow) (position : Nat) : Except String BinRow :=
  if position ≥ r.size then .error "attempted to set zero out of range"
  else .ok (r.set_zeroCore position)

/-- `BinRow::set_bool`. -/
def BinRow.set_bool (r : BinRow) (position : Nat) (value : Bool) : Except String BinRow :=
  if value then r.set_one position else r.set_zero position

/-- Happy path of `BinRow::get`: `(data & 1 << position) > 0`. -/
def BinRow.getCore (r : BinRow) (position : Nat) : Bool :=
  r.data &&& (1 <<< position) != 0

/-- `BinRow::get` with its range check. -/
def BinRow.get (r : BinRow) (position : Nat) : Except String Bool :=
  if position ≥ r.size then .error "attempted to get out of range"
  else .ok (r.getCore position)

/-- `BinRow::is_valid_simple`: `data & data << 1 & data >> 1 == 0 && count <= size / 2`.
The `u16` left shift truncates at 16 bits, hence the `% 65536`. -/
def BinRow.is_valid_simple (r : BinRow) : Bool :=
  (r.data &&& ((r.data <<< 1) % 65536) &&& (r.data >>> 1) == 0)
  && decide (r.count ≤ r.size / 2)

/-- `BinRow::is_valid`.  The full mask is `(1u16 << size) - 1`; on `u16` a
shift by 16 overflows (release semantics wrap the shift amount modulo the
bit width, hence `size % 16`; debug builds panic, see claim C10). -/
def BinRow.is_valid (r : BinRow) : Bool :=
  let comp := r.data ^^^ ((1 <<< (r.size % 16)) - 1)
  (r.data &&& ((r.data <<< 1) % 65536) &&& (r.data >>> 1) == 0)
  && decide (r.count ≤ r.size / 2)
  && !(decide (r.count = r.size / 2)
       && (comp &&& ((comp <<< 1) % 65536) &&& (comp >>> 1) != 0))

/-- The derived Rust `Ord` on `BinRow` (lexicographic in field order:
`data`, then `size`, then `count`), as a `Bool`-valued `≤` for sorting. -/
def BinRow.le (a b : BinRow) : Bool :=
  a.data < b.data
  || (a.data == b.data && (a.size < b.size || (a.size == b.size && a.count ≤ b.count)))

/-- Replace the element at index `i` by `f` of itself (Rust `v[i] = f(v[i])`);
out-of-range indices leave the list unchanged. -/
def modifyAt (l : List BinRow) (i : Nat) (f : BinRow → BinRow) : List BinRow :=
  match l, i with
  | [], _ => []
  | a :: l, 0 => f a :: l
  | a :: l, n + 1 => a :: modifyAt l n f

/-- Read the element at index `i` (Rust `v[i]`); a junk row out of range. -/
def getRow (l : List BinRow) (i : Nat) : BinRow :=
  l.getD i ⟨0, 0, 0⟩

/-- Embedding of `Binox` (src/binox.rs): a square board as four parallel
line collections plus the given-overlay. -/
structure Binox where
  size : Nat
  x_rows : List BinRow
  o_rows : List BinRow
  x_cols : List BinRow
  o_cols : List BinRow
  default_rows : List BinRow
deriving DecidableEq, Repr

/-- `BinoxCell`. -/
inductive BinoxCell where
  | X
  | O
  | EMPTY
deriving DecidableEq, Repr

/-- `PresolveResult`. -/
inductive PresolveResult where
  | Good
  | Bad
deriving DecidableEq, Repr

/-- `BinoxSolution`. -/
inductive BinoxSolution where
  | Zero
  | One (a : Binox)
  | Multiple (a b : Binox)
deriving DecidableEq, Repr

/-- `impl Add for BinoxSolution` (src/binox.rs lines 41-55). -/
def BinoxSolution.add (s rhs : BinoxSolution) : BinoxSolution :=
  match s with
  | .Multiple a b => .Multiple a b
  | .One a =>
    match rhs with
    | .Zero => .One a
    | .One b => .Multiple a b
    | .Multiple c d => .Multiple c d
  | .Zero => rhs

/-- `Binox::new`. -/
def Binox.new (size : Nat) : Except String Binox :=
  if size > 16 then .error "size must be at most 16"
  else if size < 4 then .error "size must be at least 4"
  else if size % 2 == 1 then .error "size must be even"
  else .ok
    { size := size,
      x_rows := List.replicate size ⟨0, size, 0⟩,
      o_rows := List.replicate size ⟨0, size, 0⟩,
      x_cols := List.replicate size ⟨0, size, 0⟩,
      o_cols := List.replicate size ⟨0, size, 0⟩,
      default_rows := List.replicate size ⟨0, size, 0⟩ }

/-- Happy path of `Binox::set_x` (after the range check): set the x bit
and clear the o bit of cell (row, col) in both the row and column views. -/
def Binox.set_xCore (b : Binox) (row col : Nat) : Binox :=
  { b with
    x_rows := modifyAt b.x_rows row (fun r => r.set_oneCore col),
    o_rows := modifyAt b.o_rows row (fun r => r.set_zeroCore col),
    x_cols := modifyAt b.x_cols col (fun r => r.set_oneCore row),
    o_cols := modifyAt b.o_cols col (fun r => r.set_zeroCore row) }

/-- Happy path of `Binox::set_o`. -/
def Binox.set_oCore (b : Binox) (row col : Nat) : Binox :=
  { b with
    x_rows := modifyAt b.x_rows row (fun r => r.set_zeroCore col),
    o_rows := modifyAt b.o_rows row (fun r => r.set_oneCore col),
    x_cols := modifyAt b.x_cols col (fun r => r.set_zeroCore row),
    o_cols := modifyAt b.o_cols col (fun r => r.set_oneCore row) }

/-- Happy path of `Binox::set_empty`. -/
def Binox.set_emptyCore (b : Binox) (row col : Nat) : Binox :=
  { b with
    x_rows := modifyAt b.x_rows row (fun r => r.set_zeroCore col),
    o_rows := modifyAt b.o_rows row (fun r => r.set_zeroCore col),
    x_cols := modifyAt b.x_cols col (fun r => r.set_zeroCore row),
    o_cols := modifyAt b.o_cols col (fun r => r.set_zeroCore row) }

/-- `Binox::set_x` with its range check. -/
def Binox.set_x (b : Binox) (row col : Nat) : Except String Binox :=
  if row ≥ b.size ∨ col ≥ b.size then .error "attempted to set x out of range"
  else .ok (b.set_xCore row col)

/-- `Binox::set_o` with its range check. -/
def Binox.set_o (b : Binox) (row col : Nat) : Except String Binox :=
  if row ≥ b.size ∨ col ≥ b.size then .error "attempted to set o out of range"
  else .ok (b.set_oCore row col)

/-- `Binox::set_empty` with its range check. -/
def Binox.set_empty (b : Binox) (row col : Nat) : Except String Binox :=
  if row ≥ b.size ∨ col ≥ b.size then .error "attempted to set empty out of range"
  else .ok (b.set_emptyCore row col)

/-- Happy path of `Binox::set_default`. -/
def Binox.set_defaultCore (b : Binox) (row col : Nat) (value : Bool) : Binox :=
  { b with default_rows := modifyAt b.default_rows row (fun r =>
      if value then r.set_oneCore col else r.set_zeroCore col) }

/-- Happy path of `Binox::get_cell`: the logical cell value derived from
the x and o row-view bits. -/
def Binox.get_cellCore (b : Binox) (row col : Nat) : BinoxCell :=
  match (getRow b.x_rows row).getCore col, (getRow b.o_rows row).getCore col with
  | true, false => .X
  | false, true => .O
  | _, _ => .EMPTY

/-- `Binox::get_cell` with its range check. -/
def Binox.get_cell (b : Binox) (row col : Nat) : Except String BinoxCell :=
  if row ≥ b.size ∨ col ≥ b.size then .error "attempted to get cell out of range"
  else .ok (b.get_cellCore row col)

/-- Happy path of `Binox::is_default`. -/
def Binox.is_defaultCore (b : Binox) (row col : Nat) : Bool :=
  (getRow b.default_rows row).getCore col

/-- `Binox::is_default` with its range check. -/
def Binox.is_default (b : Binox) (row col : Nat) : Except String Bool :=
  if row ≥ b.size ∨ col ≥ b.size then .error "attempted to get default out of range"
  else .ok (b.is_defaultCore row col)

/-- `Binox::set_cell` (refuses to modify a given cell). -/
def Binox.set_cell (b : Binox) (row col : Nat) (cell : BinoxCell) : Except String Binox :=
  if row ≥ b.size ∨ col ≥ b.size then .error "attempted to set cell out of range"
  else if b.is_defaultCore row col then .error "this cell cannot be modified."
  else match cell with
    | .X => b.set_x row col
    | .O => b.set_o row col
    | .EMPTY => b.set_empty row col

/-- `Binox::is_valid_simple` (src/binox.rs lines 219-224).  NOTE: the
source iterates over `[&self.x_rows, &self.o_cols, &self.x_cols,
&self.o_cols]` — `o_cols` twice, `o_rows` never; the embedding keeps that
list verbatim. -/
def Binox.is_valid_simple (b : Binox) : Bool :=
  (b.x_rows ++ b.o_cols ++ b.x_cols ++ b.o_cols).all BinRow.is_valid_simple

/-- Insert into a `BinRow.le`-sorted list, keeping earlier-inserted equal
elements in front (stability). -/
def insertSorted (a : BinRow) : List BinRow → List BinRow
  | [] => [a]
  | b :: l => if BinRow.le a b then a :: b :: l else b :: insertSorted a l

/-- `Vec::sort` on a `Vec<BinRow>` with the derived `Ord`.  `Vec::sort` is
a stable sort and the output of a stable sort under a total preorder is
unique, so this insertion sort produces exactly the vector the source
produces. -/
def sortRows (l : List BinRow) : List BinRow :=
  l.foldr insertSorted []

/-- The adjacent-duplicate scan of `Binox::is_valid`: some `i < size - 1`
has `sorted[i].data == sorted[i+1].data && sorted[i].count == size / 2`. -/
def dupHalf (l : List BinRow) (size : Nat) : Bool :=
  (List.range (size - 1)).any fun i =>
    (getRow l i).data == (getRow l (i + 1)).data && (getRow l i).count == size / 2

/-- `Binox::is_valid` (src/binox.rs lines 226-265): the per-line check over
`[x_rows, o_cols, x_cols, o_cols]` (same collection list as
`is_valid_simple`, with the `o_rows`/`o_cols` slip), then the four sorted
collections are scanned for adjacent duplicates that are exactly half full. -/
def Binox.is_valid (b : Binox) : Bool :=
  if !((b.x_rows ++ b.o_cols ++ b.x_cols ++ b.o_cols).all BinRow.is_valid) then false
  else
    !(dupHalf (sortRows b.x_rows) b.size
      || dupHalf (sortRows b.o_rows) b.size
      || dupHalf (sortRows b.x_cols) b.size
      || dupHalf (sortRows b.o_cols) b.size)

/-- `Binox::is_full`: every row has `x count + o count == size`. -/
def Binox.is_full (b : Binox) : Bool :=
  (List.range b.size).all fun i =>
    (getRow b.x_rows i).count + (getRow b.o_rows i).count == b.size

/-- `Binox::is_solved`. -/
def Binox.is_solved (b : Binox) : Bool :=
  b.is_full && b.is_valid

/-- The character emitted by `Binox::as_string` for cell (row, col):
`char::from(get_cell)` gives `'X'`/`'O'`/`' '`, then editable symbols are
lowercased and a space becomes `'.'`. -/
def Binox.cellChar (b : Binox) (row col : Nat) : Char :=
  let c : Char := match b.get_cellCore row col with
    | .X => 'X'
    | .O => 'O'
    | .EMPTY => ' '
  match c, b.is_defaultCore row col with
  | 'X', false => 'x'
  | 'O', false => 'o'
  | ' ', _ => '.'
  | _, _ => c

/-- `Binox::as_string`: row-major emission of `cellChar`. -/
def Binox.as_string (b : Binox) : List Char :=
  (List.range b.size).foldr
    (fun row acc => ((List.range b.size).map fun col => b.cellChar row col) ++ acc) []

/-- The character loop of `Binox::new_from_string`: `i` is the current
column, `j` the current row; after each character `i` advances, wrapping to
the next row, and the loop breaks once `j ≥ size`. -/
def fromStringAux (b : Binox) (size : Nat) : List Char → Nat → Nat → Binox
  | [], _, _ => b
  | c :: rest, i, j =>
    let b' := match c with
      | 'x' => b.set_xCore j i
      | 'X' => (b.set_xCore j i).set_defaultCore j i true
      | 'o' => b.set_oCore j i
      | 'O' => (b.set_oCore j i).set_defaultCore j i true
      | _ => b
    let i' := i + 1
    let ij : Nat × Nat := if i' ≥ size then (0, j + 1) else (i', j)
    if ij.2 ≥ size then b' else fromStringAux b' size rest ij.1 ij.2

/-- Placeholder for the unreachable `Binox::new(size).unwrap()` panic in
`new_from_string` (the clamped size is always accepted by `Binox::new`). -/
def Binox.new_from_stringJunk : Binox :=
  ⟨0, [], [], [], [], []⟩

/-- `Binox::new_from_string`: the size is `floor(sqrt(len))` (exact for the
perfect-square lengths produced by `as_string`; the `as u8` truncation is
the `% 256`), clamped into [4,16] and bumped to even; then the character
loop fills the board row-major. -/
def Binox.new_from_string (s : List Char) : Binox :=
  let size0 := (Nat.sqrt s.length) % 256
  let size1 := if size0 < 4 then 4 else size0
  let size2 := if size1 > 16 then 16 else size1
  let size := if size2 % 2 == 1 then size2 + 1 else size2
  match Binox.new size with
  | .error _ => Binox.new_from_stringJunk
  | .ok b => fromStringAux b size s 0 0

/-- The row-major sweep order of `presolve` and `reset`. -/
def sweepOrder (n : Nat) : List (Nat × Nat) :=
  (List.range n).foldr
    (fun r acc => ((List.range n).map fun c => (r, c)) ++ acc) []

/-- `Binox::reset`: set every non-given cell to Empty. -/
def Binox.reset (b : Binox) : Binox :=
  (sweepOrder b.size).foldl
    (fun b rc => if b.is_defaultCore rc.1 rc.2 then b else b.set_emptyCore rc.1 rc.2) b

/-- The sweep of `Binox::presolve` over a list of cells: each Empty cell is
tentatively set to x, validity recorded, then set to o, validity recorded;
exactly one valid symbol is committed, neither valid aborts with `Bad`
after reverting the cell, both valid reverts and moves on. -/
def Binox.presolveAux : Binox → List (Nat × Nat) → PresolveResult × Binox
  | b, [] => (.Good, b)
  | b, (r, c) :: rest =>
    if b.get_cellCore r c == .EMPTY then
      let bx := b.set_xCore r c
      let x_valid := bx.is_valid
      let bo := bx.set_oCore r c
      let o_valid := bo.is_valid
      match x_valid, o_valid with
      | true, false => Binox.presolveAux (bo.set_xCore r c) rest
      | false, true => Binox.presolveAux (bo.set_oCore r c) rest
      | false, false => (.Bad, bo.set_emptyCore r c)
      | true, true => Binox.presolveAux (bo.set_emptyCore r c) rest
    else Binox.presolveAux b rest

/-- `Binox::presolve` (src/binox.rs lines 303-324): the strict sweep in
row-major order. -/
def Binox.presolve (b : Binox) : PresolveResult × Binox :=
  Binox.presolveAux b (sweepOrder b.size)

/-- `alternated_range` (src/binox.rs lines 513-526): even indices first,
then odd indices. -/
def alternated_range (n : Nat) : List Nat :=
  ((List.range n).filter fun i => i % 2 == 0) ++ ((List.range n).filter fun i => i % 2 == 1)

/-- The cell order of the empty-cell scan in `Binox::solve`: rows in
alternated order, columns in alternated order within each row. -/
def cellsAlt (n : Nat) : List (Nat × Nat) :=
  (alternated_range n).foldr
    (fun r acc => ((alternated_range n).map fun c => (r, c)) ++ acc) []

/-- The empty-cell scan of `Binox::solve`: the first Empty cell in
alternated order, defaulting to (0, 0) when none exists. -/
def Binox.firstEmptyAlt (b : Binox) : Nat × Nat :=
  ((cellsAlt b.size).find? fun rc => b.get_cellCore rc.1 rc.2 == .EMPTY).getD (0, 0)

/-- Number of Empty cells of the board (the measure bounding the search
depth of `solve`). -/
def Binox.emptyCount (b : Binox) : Nat :=
  ((sweepOrder b.size).filter fun rc => b.get_cellCore rc.1 rc.2 == .EMPTY).length

/-- `Binox::solve` (src/binox.rs lines 349-381), embedded with explicit
fuel: `none` means the fuel ran out (the Rust recursion can only fail to
terminate on boards violating the `Binox` invariants, which are
unreachable through the API; see claim C9). -/
def Binox.solveFuel : Nat → Binox → Bool → Option BinoxSolution
  | 0, _, _ => none
  | fuel + 1, b, multiple =>
    match b.is_full, b.is_valid with
    | _, false => some .Zero
    | true, true => some (.One b)
    | false, true =>
      match b.presolve with
      | (.Bad, _) => some .Zero
      | (.Good, p) =>
        let rc := p.firstEmptyAlt
        let x_clone := p.set_xCore rc.1 rc.2
        let o_clone := p.set_oCore rc.1 rc.2
        match Binox.solveFuel fuel x_clone multiple with
        | none => none
        | some x_solved =>
          match x_solved, multiple with
          | .Zero, true => Binox.solveFuel fuel o_clone true
          | .Zero, false => Binox.solveFuel fuel o_clone false
          | .One a, true =>
            match Binox.solveFuel fuel o_clone false with
            | none => none
            | some os => some ((BinoxSolution.One a).add os)
          | .One a, false => some (.One a)
          | .Multiple a b', true => some (.Multiple a b')
          | .Multiple a _, false => some (.One a)

/-- `Binox::solve`: the fuel `emptyCount + 1` suffices on every board
satisfying the `Binox` invariants (claim C9). -/
def Binox.solve (b : Binox) (multiple : Bool) : Option BinoxSolution :=
  Binox.solveFuel (b.emptyCount + 1) b multiple

/-- The variant tag of a solution outcome (0 = Zero, 1 = One, 2 = Multiple),
forgetting the carried boards. -/
def BinoxSolution.kind : BinoxSolution → Nat
  | .Zero => 0
  | .One _ => 1
  | .Multiple _ _ => 2

/-- Modelled from the spec words of claim C1, for comparison with the
source `Binox::is_valid_simple`: every line in all FOUR view collections
(A-by-row, B-by-row, A-by-col, B-by-col) satisfies `BinRow::is_valid_simple`.
The source instead iterates `[x_rows, o_cols, x_cols, o_cols]`. -/
def Binox.specIsValidSimple (b : Binox) : Bool :=
  (b.x_rows ++ b.o_rows ++ b.x_cols ++ b.o_cols).all BinRow.is_valid_simple

/-- Modelled from the spec words of claim C1, for comparison with the
source `Binox::is_valid`: the per-line check runs over all four view
collections (the duplicate scan is the same as the source). -/
def Binox.specIsValid (b : Binox) : Bool :=
  if !((b.x_rows ++ b.o_rows ++ b.x_cols ++ b.o_cols).all BinRow.is_valid) then false
  else
    !(dupHalf (sortRows b.x_rows) b.size
      || dupHalf (sortRows b.o_rows) b.size
      || dupHalf (sortRows b.x_cols) b.size
      || dupHalf (sortRows b.o_cols) b.size)

/-- Invariant I1 of the spec: no cell carries both symbols at once (in the
row views). -/
def I1 (b : Binox) : Prop :=
  ∀ r c, r < b.size → c < b.size →
    ¬((getRow b.x_rows r).getCore c = true ∧ (getRow b.o_rows r).getCore c = true)

/-- Invariant I2 of the spec: the row views and the column views are
mirror-consistent for both symbols. -/
def I2 (b : Binox) : Prop :=
  ∀ r c, r < b.size → c < b.size →
    (getRow b.x_rows r).getCore c = (getRow b.x_cols c).getCore r
    ∧ (getRow b.o_rows r).getCore c = (getRow b.o_cols c).getCore r

/-- Structural invariant of one line collection: correct length, and every
line has the board size, data within the board width, and a live count. -/
def RowsInv (l : List BinRow) (n : Nat) : Prop :=
  l.length = n ∧ ∀ i, i < n →
    (getRow l i).size = n ∧ (getRow l i).data < 2 ^ n
    ∧ (getRow l i).count = popc16 (getRow l i).data

/-- The `Binox` data-structure invariants: a legal size, five structurally
sound line collections, and the spec invariants I1/I2.  Every board
reachable through the Rust API satisfies `Inv` (the fields are private). -/
structure Binox.Inv (b : Binox) : Prop where
  lb : 4 ≤ b.size
  ub : b.size ≤ 16
  even : b.size % 2 = 0
  xr : RowsInv b.x_rows b.size
  orr : RowsInv b.o_rows b.size
  xc : RowsInv b.x_cols b.size
  oc : RowsInv b.o_cols b.size
  dr : RowsInv b.default_rows b.size
  i1 : I1 b
  i2 : I2 b

/-- Every given (default) cell holds a symbol; ordinary play and the
generator only mark non-Empty cells as given. -/
def DefaultsNonEmpty (b : Binox) : Prop :=
  ∀ r c, r < b.size → c < b.size →
    b.is_defaultCore r c = true → b.get_cellCore r c ≠ .EMPTY

/-- Boards reachable through the public construction and mutation API:
`new`, `new_from_string`, `set_cell`, `reset` and `presolve`. -/
inductive Binox.Reachable : Binox → Prop where
  | new : ∀ {s : Nat} {b : Binox}, Binox.new s = .ok b → Binox.Reachable b
  | ofString : ∀ (s : List Char), Binox.Reachable (Binox.new_from_string s)
  | set_cell : ∀ {b b' : Binox} {r c : Nat} {v : BinoxCell},
      Binox.Reachable b → b.set_cell r c v = .ok b' → Binox.Reachable b'
  | reset : ∀ {b : Binox}, Binox.Reachable b → Binox.Reachable b.reset
  | presolve : ∀ {b : Binox}, Binox.Reachable b → Binox.Reachable (b.presolve).2

/-- `BoardExt b c`: board `c` extends board `b` (same size, every non-Empty
cell of `b` keeps its symbol in `c`). -/
def BoardExt (b c : Binox) : Prop :=
  b.size = c.size ∧ ∀ r c', r < b.size → c' < b.size →
    b.get_cellCore r c' ≠ .EMPTY → c.get_cellCore r c' = b.get_cellCore r c'

/-- `IsCompletion b c`: `c` is a full, valid board (satisfying the board
invariants, with `b`-matching given overlay) extending the non-Empty cells
of `b`. -/
def IsCompletion (b c : Binox) : Prop :=
  c.Inv ∧ c.size = b.size
  ∧ (∀ r c', r < b.size → c' < b.size → c.is_defaultCore r c' = b.is_defaultCore r c')
  ∧ BoardExt b c ∧ c.is_full = true ∧ c.is_valid = true

/-- The contradiction condition of the presolve sweep at a cell: the cell
is Empty and neither tentative symbol leaves the board valid (the o test
runs on the board that already went through the tentative x, exactly as
the source does). -/
def Binox.contraAt (b : Binox) (r c : Nat) : Prop :=
  b.get_cellCore r c = .EMPTY ∧ (b.set_xCore r c).is_valid = false
  ∧ ((b.set_xCore r c).set_oCore r c).is_valid = false

/-- Line states reachable through the `BinRow` API. -/
inductive BinRow.Reachable : BinRow → Prop where
  | new : ∀ {s : Nat} {r : BinRow}, BinRow.new s = .ok r → BinRow.Reachable r
  | set_one : ∀ {r r' : BinRow} {p : Nat},
      BinRow.Reachable r → r.set_one p = .ok r' → BinRow.Reachable r'
  | set_zero : ∀ {r r' : BinRow} {p : Nat},
      BinRow.Reachable r → r.set_zero p = .ok r' → BinRow.Reachable r'
  | set_bool : ∀ {r r' : BinRow} {p : Nat} {v : Bool},
      BinRow.Reachable r → r.set_bool p v = .ok r' → BinRow.Reachable r'

/-- The bitset has no run of three consecutive set bits within the first
`s` positions. -/
def noTriple (d s : Nat) : Prop :=
  ∀ i, i + 2 < s →
    ¬(d.testBit i = true ∧ d.testBit (i + 1) = true ∧ d.testBit (i + 2) = true)

/-- Structural invariant of a single reachable line. -/
def RowInvP (r : BinRow) : Prop :=
  4 ≤ r.size ∧ r.size ≤ 16 ∧ r.size % 2 = 0
  ∧ r.data < 2 ^ r.size ∧ r.count = popc16 r.data

/-- The row-major sweep starting at cell (j, i): used to relate the
character loop of `new_from_string` to the row-major cell order. -/
def sweepFrom (n j i : Nat) : List (Nat × Nat) :=
  if j < n then
    if i < n then
      (j, i) :: (if i + 1 < n then sweepFrom n j (i + 1) else sweepFrom n (j + 1) 0)
    else []
  else []
termination_by (n - j, n - i)
decreasing_by
  · apply Prod.Lex.right
    omega
  · apply Prod.Lex.left
    omega

/-- The per-character action of the `new_from_string` loop body at row `j`,
column `i` (the `match c` of the source). -/
def decodeChar (bw : Binox) (c : Char) (j i : Nat) : Binox :=
  match c with
  | 'x' => bw.set_xCore j i
  | 'X' => (bw.set_xCore j i).set_defaultCore j i true
  | 'o' => bw.set_oCore j i
  | 'O' => (bw.set_oCore j i).set_defaultCore j i true
  | _ => bw

/-- Cell (r, c) lies at or after cell (j, i) in row-major order. -/
def cellAfter (j i r c : Nat) : Prop :=
  j < r ∨ (j = r ∧ i ≤ c)

/-- The row-major cells of rows `j` and later. -/
def rowsFoldFrom (n j : Nat) : List (Nat × Nat) :=
  ((List.range n).drop j).foldr
    (fun r acc => ((List.range n).map fun c => (r, c)) ++ acc) []

/-- The freshly constructed 4×4 board (the value of `Binox::new(4)`). -/
def base4 : Binox :=
  ⟨4, List.replicate 4 ⟨0, 4, 0⟩, List.replicate 4 ⟨0, 4, 0⟩, List.replicate 4 ⟨0, 4, 0⟩,
    List.replicate 4 ⟨0, 4, 0⟩, List.replicate 4 ⟨0, 4, 0⟩⟩

/-- 4×4 board with three consecutive O symbols in row 0 (decoded from
".ooo............"), exercising the missing `o_rows` line check. -/
def C1board : Binox :=
  Binox.new_from_string ['.', 'o', 'o', 'o', '.', '.', '.', '.', '.', '.', '.', '.', '.', '.', '.', '.']

/-- 4×4 board with a single editable X at (0, 0). -/
def C4boardA : Binox := Binox.new_from_string ['x']

/-- 4×4 board with a single editable O at (0, 0). -/
def C4boardB : Binox := Binox.new_from_string ['o']

/-- 4×4 board ".....xx...xx...." on which one presolve sweep leaves cell
(0, 0) open but a second sweep fills it. -/
def C5board : Binox :=
  Binox.new_from_string ['.', '.', '.', '.', '.', 'x', 'x', '.', '.', '.', 'x', 'x', '.', '.', '.', '.']

/-- A fresh (empty) 4×4 board. -/
def board4 : Binox := Binox.new_from_string []

/-- The classification contract of `Binox::solve` (claim C2).  With
`multiple = true`: `Zero` means no completion exists, `One a` that `a` is
the unique completion, `Multiple a a'` that `a` and `a'` are two distinct
completions.  With `multiple = false` the search stops at the first
completion: `One a` only asserts that `a` is a completion, and `Multiple`
is never returned. -/
def Classify (b : Binox) : Bool → BinoxSolution → Prop
  | true, .Zero => ¬ ∃ cc, IsCompletion b cc
  | true, .One a => IsCompletion b a ∧ ∀ cc, IsCompletion b cc → cc = a
  | true, .Multiple a a' => a ≠ a' ∧ IsCompletion b a ∧ IsCompletion b a'
  | false, .Zero => ¬ ∃ cc, IsCompletion b cc
  | false, .One a => IsCompletion b a
  | false, .Multiple _ _ => False

/-- Index form of the adjacent-duplicate scan: two distinct lines of the
collection carry the same bit pattern while one (hence, when the count is
determined by the data, both) is exactly half full. -/
def dupHalfProp (l : List BinRow) (n : Nat) : Prop :=
  ∃ j k, j < n ∧ k < n ∧ j ≠ k
    ∧ (getRow l j).data = (getRow l k).data ∧ (getRow l j).count = n / 2

/-- The freshly constructed 16×16 board (the value of `Binox::new(16)`). -/
def base16 : Binox :=
  ⟨16, List.replicate 16 ⟨0, 16, 0⟩, List.replicate 16 ⟨0, 16, 0⟩,
    List.replicate 16 ⟨0, 16, 0⟩, List.replicate 16 ⟨0, 16, 0⟩,
    List.replicate 16 ⟨0, 16, 0⟩⟩

/-- Row-major encoding of a full 16×16 board whose second-symbol row 0
(data 51516) has four consecutive O's: every checked collection of
`Binox::is_valid` passes, the spec's all-four-collections reading fails. -/
def C2string : List Char :=
  ['x', 'x', 'o', 'o', 'o', 'o', 'x', 'x', 'o', 'x', 'x', 'o', 'x', 'x', 'o', 'o', 'x', 'x', 'o',
   'o', 'x', 'o', 'x', 'o', 'o', 'o', 'o', 'x', 'x', 'o', 'x', 'x', 'o', 'o', 'x', 'x', 'o', 'x',
   'o', 'o', 'x', 'o', 'x', 'x', 'o', 'o', 'x', 'x', 'o', 'o', 'x', 'x', 'o', 'o', 'x', 'x', 'o',
   'x', 'x', 'o', 'x', 'x', 'o', 'o', 'x', 'x', 'o', 'o', 'x', 'o', 'x', 'o', 'x', 'x', 'o', 'o',
   'o', 'x', 'x', 'o', 'x', 'o', 'x', 'o', 'o', 'x', 'o', 'x', 'o', 'o', 'x', 'x', 'o', 'o', 'x',
   'x', 'o', 'o', 'x', 'x', 'o', 'x', 'x', 'o', 'o', 'x', 'x', 'o', 'x', 'o', 'o', 'x', 'o', 'x',
   'o', 'x', 'x', 'o', 'o', 'o', 'x', 'x', 'o', 'x', 'o', 'x', 'x', 'o', 'x', 'o', 'x', 'o', 'x',
   'o', 'o', 'x', 'x', 'o', 'x', 'x', 'o', 'x', 'o', 'o', 'o', 'x', 'o', 'x', 'o', 'x', 'x', 'o',
   'o', 'x', 'o', 'o', 'x', 'o', 'x', 'x', 'o', 'x', 'o', 'o', 'x', 'x', 'o', 'x', 'x', 'o', 'x',
   'o', 'o', 'x', 'x', 'o', 'x', 'o', 'x', 'x', 'o', 'o', 'x', 'o', 'x', 'x', 'o', 'x', 'x', 'o',
   'o', 'o', 'o', 'x', 'x', 'o', 'x', 'x', 'o', 'x', 'o', 'o', 'o', 'x', 'x', 'o', 'o', 'x', 'x',
   'x', 'o', 'x', 'o', 'x', 'o', 'o', 'x', 'o', 'x', 'o', 'o', 'x', 'x', 'o', 'x', 'o', 'o', 'x',
   'x', 'o', 'x', 'x', 'o', 'x', 'o', 'o', 'o', 'x', 'o', 'x', 'o', 'o', 'x', 'o', 'x', 'x', 'o',
   'x', 'x', 'o', 'o', 'x', 'x', 'o', 'o', 'x']

/-- The board `C2string` decodes to, written out: all 32 lines are
exactly half full, the x rows and both column collections are
triple-free, but o row 0 (complement of x row 0) has a run of four. -/
def C2board : Binox :=
  ⟨16,
  [⟨14019, 16, 8⟩, ⟨55379, 16, 8⟩, ⟨52524, 16, 8⟩, ⟨14028, 16, 8⟩, ⟨25427, 16, 8⟩,
   ⟨52389, 16, 8⟩, ⟨38508, 16, 8⟩, ⟨27418, 16, 8⟩, ⟨11669, 16, 8⟩, ⟨53866, 16, 8⟩,
   ⟨26034, 16, 8⟩, ⟨6989, 16, 8⟩, ⟨39094, 16, 8⟩, ⟨25899, 16, 8⟩, ⟨41689, 16, 8⟩,
   ⟨39348, 16, 8⟩],
  [⟨51516, 16, 8⟩, ⟨10156, 16, 8⟩, ⟨13011, 16, 8⟩, ⟨51507, 16, 8⟩, ⟨40108, 16, 8⟩,
   ⟨13146, 16, 8⟩, ⟨27027, 16, 8⟩, ⟨38117, 16, 8⟩, ⟨53866, 16, 8⟩, ⟨11669, 16, 8⟩,
   ⟨39501, 16, 8⟩, ⟨58546, 16, 8⟩, ⟨26441, 16, 8⟩, ⟨39636, 16, 8⟩, ⟨23846, 16, 8⟩,
   ⟨26187, 16, 8⟩],
  [⟨26931, 16, 8⟩, ⟨13971, 16, 8⟩, ⟨39276, 16, 8⟩, ⟨27340, 16, 8⟩, ⟨54674, 16, 8⟩,
   ⟨46692, 16, 8⟩, ⟨19035, 16, 8⟩, ⟨54569, 16, 8⟩, ⟨44436, 16, 8⟩, ⟨19161, 16, 8⟩,
   ⟨9581, 16, 8⟩, ⟨39334, 16, 8⟩, ⟨39499, 16, 8⟩, ⟨26009, 16, 8⟩, ⟨9910, 16, 8⟩,
   ⟨53862, 16, 8⟩],
  [⟨38604, 16, 8⟩, ⟨51564, 16, 8⟩, ⟨26259, 16, 8⟩, ⟨38195, 16, 8⟩, ⟨10861, 16, 8⟩,
   ⟨18843, 16, 8⟩, ⟨46500, 16, 8⟩, ⟨10966, 16, 8⟩, ⟨21099, 16, 8⟩, ⟨46374, 16, 8⟩,
   ⟨55954, 16, 8⟩, ⟨26201, 16, 8⟩, ⟨26036, 16, 8⟩, ⟨39526, 16, 8⟩, ⟨55625, 16, 8⟩,
   ⟨11673, 16, 8⟩],
  List.replicate 16 ⟨0, 16, 0⟩⟩

/-- Spec-side completion (modelled from the spec's words, for comparison
with the code-side `IsCompletion`): identical except that validity is the
spec's all-four-collections `specIsValid`. -/
def IsSpecCompletion (b c : Binox) : Prop :=
  c.Inv ∧ c.size = b.size
  ∧ (∀ r c', r < b.size → c' < b.size → c.is_defaultCore r c' = b.is_defaultCore r c')
  ∧ BoardExt b c ∧ c.is_full = true ∧ c.specIsValid = true

/-- The classification contract of `Binox::solve` against spec-side
completions (the claim's reading of 'full valid completion'). -/
def SpecClassify (b : Binox) : Bool → BinoxSolution → Prop
  | true, .Zero => ¬ ∃ cc, IsSpecCompletion b cc
  | true, .One a => IsSpecCompletion b a ∧ ∀ cc, IsSpecCompletion b cc → cc = a
  | true, .Multiple a a2 => a ≠ a2 ∧ IsSpecCompletion b a ∧ IsSpecCompletion b a2
  | false, .Zero => ¬ ∃ cc, IsSpecCompletion b cc
  | false, .One a => IsSpecCompletion b a
  | false, .Multiple _ _ => False

/-! ### Bit-level toolkit -/

theorem nat_eq_zero_iff_testBit (x : Nat) : x = 0 ↔ ∀ i, x.testBit i = false := by
  constructor
  · rintro rfl i; exact Nat.zero_testBit i
  · intro h; exact Nat.eq_of_testBit_eq (fun i => by simp [h i])

theorem one_shiftLeft_eq (p : Nat) : ((1 : Nat) <<< p) = 2 ^ p := by
  simp [Nat.shiftLeft_eq]

theorem testBit_one_shiftLeft (p i : Nat) : ((1 : Nat) <<< p).testBit i = decide (i = p) := by
  rw [one_shiftLeft_eq, Nat.testBit_two_pow]
  by_cases h : p = i <;> simp [h, Ne.symm, eq_comm]

theorem and_shift_ne_zero (d p : Nat) : (d &&& (1 <<< p) != 0) = d.testBit p := by
  cases h : d.testBit p
  · have hz : d &&& (1 <<< p) = 0 := by
      rw [nat_eq_zero_iff_testBit]
      intro i
      rw [Nat.testBit_land, testBit_one_shiftLeft]
      by_cases hi : i = p <;> simp [hi, h]
    simp [hz]
  · have hnz : (d &&& (1 <<< p)).testBit p = true := by
      rw [Nat.testBit_land, testBit_one_shiftLeft]; simp [h]
    have : d &&& (1 <<< p) ≠ 0 := by
      intro hc; rw [hc] at hnz; simp [Nat.zero_testBit] at hnz
    simp [this]

theorem BinRow.getCore_eq (r : BinRow) (p : Nat) : r.getCore p = r.data.testBit p :=
  and_shift_ne_zero r.data p

theorem testBit_65535 (i : Nat) : (65535 : Nat).testBit i = decide (i < 16) := by
  have h : (65535 : Nat) = 2 ^ 16 - 1 := by norm_num
  rw [h, Nat.testBit_two_pow_sub_one]

theorem set_oneCore_testBit (r : BinRow) (p i : Nat) :
    (r.set_oneCore p).data.testBit i = (r.data.testBit i || decide (i = p)) := by
  simp only [BinRow.set_oneCore, Nat.testBit_or, testBit_one_shiftLeft]

theorem set_zeroCore_testBit (r : BinRow) (p i : Nat) :
    (r.set_zeroCore p).data.testBit i
      = (r.data.testBit i && (decide (i < 16) ^^ decide (i = p))) := by
  simp only [BinRow.set_zeroCore, Nat.testBit_land, Nat.testBit_xor,
    testBit_65535, testBit_one_shiftLeft]

theorem set_oneCore_count (r : BinRow) (p : Nat) :
    (r.set_oneCore p).count = if r.data.testBit p then r.count else r.count + 1 := by
  simp only [BinRow.set_oneCore]
  cases h : r.data.testBit p
  · have : (r.data &&& 1 <<< p != 0) = false := by rw [and_shift_ne_zero, h]
    simp_all
  · have : (r.data &&& 1 <<< p != 0) = true := by rw [and_shift_ne_zero, h]
    simp_all

theorem set_zeroCore_count (r : BinRow) (p : Nat) :
    (r.set_zeroCore p).count = if r.data.testBit p then r.count - 1 else r.count := by
  simp only [BinRow.set_zeroCore]
  cases h : r.data.testBit p
  · have : (r.data &&& 1 <<< p != 0) = false := by rw [and_shift_ne_zero, h]
    simp_all
  · have : (r.data &&& 1 <<< p != 0) = true := by rw [and_shift_ne_zero, h]
    simp_all

theorem set_oneCore_size (r : BinRow) (p : Nat) : (r.set_oneCore p).size = r.size := rfl

theorem set_zeroCore_size (r : BinRow) (p : Nat) : (r.set_zeroCore p).size = r.size := rfl

theorem set_oneCore_noop (r : BinRow) (p : Nat) (h : r.data.testBit p = true) :
    r.set_oneCore p = r := by
  have hd : r.data ||| (1 <<< p) = r.data := by
    apply Nat.eq_of_testBit_eq
    intro i
    rw [Nat.testBit_or, testBit_one_shiftLeft]
    by_cases hi : i = p <;> simp [hi, h]
  have hb : (r.data &&& 1 <<< p).testBit p = true := by
    rw [Nat.testBit_land, testBit_one_shiftLeft]; simp [h]
  have hc0 : r.data &&& 1 <<< p ≠ 0 := fun hz => by
    rw [hz] at hb; simp [Nat.zero_testBit] at hb
  simp [BinRow.set_oneCore, hd, hc0]

theorem set_zeroCore_noop (r : BinRow) (p : Nat) (h16 : r.data < 65536)
    (h : r.data.testBit p = false) : r.set_zeroCore p = r := by
  have hd : r.data &&& (65535 ^^^ (1 <<< p)) = r.data := by
    apply Nat.eq_of_testBit_eq
    intro i
    rw [Nat.testBit_land, Nat.testBit_xor, testBit_65535, testBit_one_shiftLeft]
    by_cases hi : i = p
    · subst hi; simp [h]
    · by_cases hlt : i < 16
      · simp [hi, hlt]
      · have : r.data.testBit i = false := by
          apply Nat.testBit_eq_false_of_lt
          calc r.data < 65536 := h16
          _ = 2 ^ 16 := by norm_num
          _ ≤ 2 ^ i := Nat.pow_le_pow_right (by norm_num) (by omega)
        simp [this]
  have hc : (r.data &&& 1 <<< p != 0) = false := by rw [and_shift_ne_zero, h]
  simp [BinRow.set_zeroCore, hd, hc]

/-! ### popcount lemmas -/

theorem popc16_zero : popc16 0 = 0 := by decide

theorem testBit_false_of_lt_two_pow {d s i : Nat} (h : d < 2 ^ s) (hi : s ≤ i) :
    d.testBit i = false := by
  apply Nat.testBit_eq_false_of_lt
  exact lt_of_lt_of_le h (Nat.pow_le_pow_right (by norm_num) hi)

theorem popc16_set (d p : Nat) (hp : p < 16) (h : d.testBit p = false) :
    popc16 (d ||| (1 <<< p)) = popc16 d + 1 := by
  unfold popc16
  have hfilter : (Finset.range 16).filter (fun i => (d ||| (1 <<< p)).testBit i)
      = insert p ((Finset.range 16).filter (fun i => d.testBit i)) := by
    ext i
    simp only [Finset.mem_filter, Finset.mem_insert, Finset.mem_range,
      Nat.testBit_or, testBit_one_shiftLeft]
    constructor
    · rintro ⟨hi, hb⟩
      rcases Bool.or_eq_true_iff.mp hb with hb | hb
      · exact Or.inr ⟨hi, hb⟩
      · exact Or.inl (of_decide_eq_true hb)
    · rintro (rfl | ⟨hi, hb⟩)
      · exact ⟨hp, by simp⟩
      · exact ⟨hi, by simp [hb]⟩
  rw [hfilter, Finset.card_insert_of_not_mem (by simp [h])]

theorem popc16_clear (d p : Nat) (h16 : d < 65536) (h : d.testBit p = true) :
    popc16 (d &&& (65535 ^^^ (1 <<< p))) = popc16 d - 1 := by
  unfold popc16
  have hfilter : (Finset.range 16).filter (fun i => (d &&& (65535 ^^^ (1 <<< p))).testBit i)
      = ((Finset.range 16).filter (fun i => d.testBit i)).erase p := by
    ext i
    simp only [Finset.mem_filter, Finset.mem_erase, Finset.mem_range,
      Nat.testBit_land, Nat.testBit_xor, testBit_65535, testBit_one_shiftLeft]
    constructor
    · rintro ⟨hi, hb⟩
      rcases Bool.and_eq_true_iff.mp hb with ⟨hb1, hb2⟩
      refine ⟨?_, hi, hb1⟩
      intro hip
      subst hip
      simp [hi] at hb2
    · rintro ⟨hip, hi, hb⟩
      exact ⟨hi, by simp [hb, hi, hip]⟩
  rw [hfilter]
  have hp16 : p < 16 := by
    by_contra hc
    have hfalse : d.testBit p = false := by
      apply Nat.testBit_eq_false_of_lt
      calc d < 65536 := h16
      _ = 2 ^ 16 := by norm_num
      _ ≤ 2 ^ p := Nat.pow_le_pow_right (by norm_num) (by omega)
    simp [hfalse] at h
  exact Finset.card_erase_of_mem (by simp [h, hp16])

/-! ### List update lemmas -/

theorem modifyAt_length (l : List BinRow) (i : Nat) (f : BinRow → BinRow) :
    (modifyAt l i f).length = l.length := by
  induction l generalizing i with
  | nil => rfl
  | cons a l ih =>
    cases i with
    | zero => rfl
    | succ n => simp [modifyAt, ih]

theorem getRow_modifyAt_ne (l : List BinRow) (i : Nat) (f : BinRow → BinRow) (j : Nat)
    (h : j ≠ i) : getRow (modifyAt l i f) j = getRow l j := by
  induction l generalizing i j with
  | nil => rfl
  | cons a l ih =>
    cases i with
    | zero =>
      cases j with
      | zero => exact absurd rfl h
      | succ m => rfl
    | succ n =>
      cases j with
      | zero => rfl
      | succ m =>
        simp only [modifyAt, getRow, List.getD]
        exact ih n m (by omega)

theorem getRow_modifyAt_self (l : List BinRow) (i : Nat) (f : BinRow → BinRow)
    (h : i < l.length) : getRow (modifyAt l i f) i = f (getRow l i) := by
  induction l generalizing i with
  | nil => simp at h
  | cons a l ih =>
    cases i with
    | zero => rfl
    | succ n =>
      simp only [modifyAt, getRow, List.getD]
      exact ih n (by simpa using h)

theorem modifyAt_oob (l : List BinRow) (i : Nat) (f : BinRow → BinRow)
    (h : ¬ i < l.length) : modifyAt l i f = l := by
  induction l generalizing i with
  | nil => rfl
  | cons a l ih =>
    cases i with
    | zero => simp at h
    | succ n =>
      simp only [modifyAt]
      rw [ih n (by simp at h; omega)]

/-! ### Cell-level lemmas for the core mutators -/

theorem is_defaultCore_set_xCore (b : Binox) (row col r c : Nat) :
    (b.set_xCore row col).is_defaultCore r c = b.is_defaultCore r c := rfl

theorem is_defaultCore_set_oCore (b : Binox) (row col r c : Nat) :
    (b.set_oCore row col).is_defaultCore r c = b.is_defaultCore r c := rfl

theorem is_defaultCore_set_emptyCore (b : Binox) (row col r c : Nat) :
    (b.set_emptyCore row col).is_defaultCore r c = b.is_defaultCore r c := rfl

theorem get_cellCore_set_defaultCore (b : Binox) (row col : Nat) (v : Bool) (r c : Nat) :
    (b.set_defaultCore row col v).get_cellCore r c = b.get_cellCore r c := rfl

theorem size_set_xCore (b : Binox) (row col : Nat) : (b.set_xCore row col).size = b.size := rfl

theorem size_set_oCore (b : Binox) (row col : Nat) : (b.set_oCore row col).size = b.size := rfl

theorem size_set_emptyCore (b : Binox) (row col : Nat) :
    (b.set_emptyCore row col).size = b.size := rfl

theorem size_set_defaultCore (b : Binox) (row col : Nat) (v : Bool) :
    (b.set_defaultCore row col v).size = b.size := rfl

theorem default_rows_set_xCore (b : Binox) (row col : Nat) :
    (b.set_xCore row col).default_rows = b.default_rows := rfl

theorem default_rows_set_oCore (b : Binox) (row col : Nat) :
    (b.set_oCore row col).default_rows = b.default_rows := rfl

theorem default_rows_set_emptyCore (b : Binox) (row col : Nat) :
    (b.set_emptyCore row col).default_rows = b.default_rows := rfl

/-- The x bit of the row view after `set_xCore`. -/
theorem xbit_set_xCore (b : Binox) (row col r c : Nat) (hr : r < b.x_rows.length) :
    (getRow (b.set_xCore row col).x_rows r).getCore c
      = ((getRow b.x_rows r).getCore c || decide (r = row ∧ c = col)) := by
  simp only [Binox.set_xCore]
  by_cases hrr : r = row
  · subst hrr
    rw [getRow_modifyAt_self _ _ _ hr, BinRow.getCore_eq, BinRow.getCore_eq,
      set_oneCore_testBit]
    by_cases hcc : c = col <;> simp [hcc]
  · rw [getRow_modifyAt_ne _ _ _ _ hrr]
    simp [hrr]

/-- The o bit of the row view after `set_xCore`. -/
theorem obit_set_xCore (b : Binox) (row col r c : Nat) (hc16 : c < 16) :
    (getRow (b.set_xCore row col).o_rows r).getCore c
      = ((getRow b.o_rows r).getCore c && !decide (r = row ∧ c = col)) := by
  simp only [Binox.set_xCore]
  by_cases hrr : r = row
  · subst hrr
    by_cases hr : r < b.o_rows.length
    · rw [getRow_modifyAt_self _ _ _ hr, BinRow.getCore_eq, BinRow.getCore_eq,
        set_zeroCore_testBit]
      by_cases hcc : c = col
      · have hcol : col < 16 := hcc ▸ hc16
        simp [hcc, hcol]
      · simp [hcc, hc16]
    · rw [modifyAt_oob _ _ _ hr]
      have : getRow b.o_rows r = ⟨0, 0, 0⟩ := by
        simp [getRow, List.getD_eq_getElem?_getD, List.getElem?_eq_none (by omega : b.o_rows.length ≤ r)]
      simp [this, BinRow.getCore_eq]
  · rw [getRow_modifyAt_ne _ _ _ _ hrr]
    simp [hrr]

/-- The o bit of the row view after `set_oCore`. -/
theorem obit_set_oCore (b : Binox) (row col r c : Nat) (hr : r < b.o_rows.length) :
    (getRow (b.set_oCore row col).o_rows r).getCore c
      = ((getRow b.o_rows r).getCore c || decide (r = row ∧ c = col)) := by
  simp only [Binox.set_oCore]
  by_cases hrr : r = row
  · subst hrr
    rw [getRow_modifyAt_self _ _ _ hr, BinRow.getCore_eq, BinRow.getCore_eq,
      set_oneCore_testBit]
    by_cases hcc : c = col <;> simp [hcc]
  · rw [getRow_modifyAt_ne _ _ _ _ hrr]
    simp [hrr]

/-- The x bit of the row view after `set_oCore`. -/
theorem xbit_set_oCore (b : Binox) (row col r c : Nat) (hc16 : c < 16) :
    (getRow (b.set_oCore row col).x_rows r).getCore c
      = ((getRow b.x_rows r).getCore c && !decide (r = row ∧ c = col)) := by
  simp only [Binox.set_oCore]
  by_cases hrr : r = row
  · subst hrr
    by_cases hr : r < b.x_rows.length
    · rw [getRow_modifyAt_self _ _ _ hr, BinRow.getCore_eq, BinRow.getCore_eq,
        set_zeroCore_testBit]
      by_cases hcc : c = col
      · have hcol : col < 16 := hcc ▸ hc16
        simp [hcc, hcol]
      · simp [hcc, hc16]
    · rw [modifyAt_oob _ _ _ hr]
      have : getRow b.x_rows r = ⟨0, 0, 0⟩ := by
        simp [getRow, List.getD_eq_getElem?_getD,
          List.getElem?_eq_none (by omega : b.x_rows.length ≤ r)]
      simp [this, BinRow.getCore_eq]
  · rw [getRow_modifyAt_ne _ _ _ _ hrr]
    simp [hrr]

/-- The x bit of the row view after `set_emptyCore`. -/
theorem xbit_set_emptyCore (b : Binox) (row col r c : Nat) (hc16 : c < 16) :
    (getRow (b.set_emptyCore row col).x_rows r).getCore c
      = ((getRow b.x_rows r).getCore c && !decide (r = row ∧ c = col)) := by
  simp only [Binox.set_emptyCore]
  by_cases hrr : r = row
  · subst hrr
    by_cases hr : r < b.x_rows.length
    · rw [getRow_modifyAt_self _ _ _ hr, BinRow.getCore_eq, BinRow.getCore_eq,
        set_zeroCore_testBit]
      by_cases hcc : c = col
      · have hcol : col < 16 := hcc ▸ hc16
        simp [hcc, hcol]
      · simp [hcc, hc16]
    · rw [modifyAt_oob _ _ _ hr]
      have : getRow b.x_rows r = ⟨0, 0, 0⟩ := by
        simp [getRow, List.getD_eq_getElem?_getD,
          List.getElem?_eq_none (by omega : b.x_rows.length ≤ r)]
      simp [this, BinRow.getCore_eq]
  · rw [getRow_modifyAt_ne _ _ _ _ hrr]
    simp [hrr]

/-- The o bit of the row view after `set_emptyCore`. -/
theorem obit_set_emptyCore (b : Binox) (row col r c : Nat) (hc16 : c < 16) :
    (getRow (b.set_emptyCore row col).o_rows r).getCore c
      = ((getRow b.o_rows r).getCore c && !decide (r = row ∧ c = col)) := by
  simp only [Binox.set_emptyCore]
  by_cases hrr : r = row
  · subst hrr
    by_cases hr : r < b.o_rows.length
    · rw [getRow_modifyAt_self _ _ _ hr, BinRow.getCore_eq, BinRow.getCore_eq,
        set_zeroCore_testBit]
      by_cases hcc : c = col
      · have hcol : col < 16 := hcc ▸ hc16
        simp [hcc, hcol]
      · simp [hcc, hc16]
    · rw [modifyAt_oob _ _ _ hr]
      have : getRow b.o_rows r = ⟨0, 0, 0⟩ := by
        simp [getRow, List.getD_eq_getElem?_getD,
          List.getElem?_eq_none (by omega : b.o_rows.length ≤ r)]
      simp [this, BinRow.getCore_eq]
  · rw [getRow_modifyAt_ne _ _ _ _ hrr]
    simp [hrr]

/-- `get_cellCore` unfolded through the two row-view bits. -/
theorem get_cellCore_eq (b : Binox) (r c : Nat) :
    b.get_cellCore r c
      = match (getRow b.x_rows r).getCore c, (getRow b.o_rows r).getCore c with
        | true, false => BinoxCell.X
        | false, true => BinoxCell.O
        | _, _ => BinoxCell.EMPTY := rfl

/-- `set_xCore` sets the target cell to X and touches no other cell (among
columns below 16, the full `u16` word). -/
theorem get_cellCore_set_xCore (b : Binox) (row col r c : Nat)
    (hrx : row < b.x_rows.length) (hc16 : c < 16) :
    (b.set_xCore row col).get_cellCore r c
      = if r = row ∧ c = col then .X else b.get_cellCore r c := by
  by_cases h : r = row ∧ c = col
  · obtain ⟨hr, hc⟩ := h
    subst hr; subst hc
    rw [get_cellCore_eq, xbit_set_xCore _ _ _ _ _ hrx, obit_set_xCore _ _ _ _ _ hc16]
    simp [get_cellCore_eq]
  · rw [get_cellCore_eq, get_cellCore_eq b]
    by_cases hrr : r = row
    · have hcc : ¬ c = col := fun hc => h ⟨hrr, hc⟩
      have hx : (getRow (b.set_xCore row col).x_rows r).getCore c
          = (getRow b.x_rows r).getCore c := by
        rw [xbit_set_xCore _ _ _ _ _ (hrr ▸ hrx)]
        simp [hcc]
      have ho : (getRow (b.set_xCore row col).o_rows r).getCore c
          = (getRow b.o_rows r).getCore c := by
        rw [obit_set_xCore _ _ _ _ _ hc16]
        simp [hcc]
      rw [hx, ho]
      simp [h]
    · have hx : (getRow (b.set_xCore row col).x_rows r).getCore c
          = (getRow b.x_rows r).getCore c := by
        simp only [Binox.set_xCore]; rw [getRow_modifyAt_ne _ _ _ _ hrr]
      have ho : (getRow (b.set_xCore row col).o_rows r).getCore c
          = (getRow b.o_rows r).getCore c := by
        simp only [Binox.set_xCore]; rw [getRow_modifyAt_ne _ _ _ _ hrr]
      rw [hx, ho]
      simp [h]

/-- `set_oCore` sets the target cell to O and touches no other cell. -/
theorem get_cellCore_set_oCore (b : Binox) (row col r c : Nat)
    (hro : row < b.o_rows.length) (hc16 : c < 16) :
    (b.set_oCore row col).get_cellCore r c
      = if r = row ∧ c = col then .O else b.get_cellCore r c := by
  by_cases h : r = row ∧ c = col
  · obtain ⟨hr, hc⟩ := h
    subst hr; subst hc
    rw [get_cellCore_eq, obit_set_oCore _ _ _ _ _ hro, xbit_set_oCore _ _ _ _ _ hc16]
    simp [get_cellCore_eq]
  · rw [get_cellCore_eq, get_cellCore_eq b]
    by_cases hrr : r = row
    · have hcc : ¬ c = col := fun hc => h ⟨hrr, hc⟩
      have hx : (getRow (b.set_oCore row col).x_rows r).getCore c
          = (getRow b.x_rows r).getCore c := by
        rw [xbit_set_oCore _ _ _ _ _ hc16]
        simp [hcc]
      have ho : (getRow (b.set_oCore row col).o_rows r).getCore c
          = (getRow b.o_rows r).getCore c := by
        rw [obit_set_oCore _ _ _ _ _ (hrr ▸ hro)]
        simp [hcc]
      rw [hx, ho]
      simp [h]
    · have hx : (getRow (b.set_oCore row col).x_rows r).getCore c
          = (getRow b.x_rows r).getCore c := by
        simp only [Binox.set_oCore]; rw [getRow_modifyAt_ne _ _ _ _ hrr]
      have ho : (getRow (b.set_oCore row col).o_rows r).getCore c
          = (getRow b.o_rows r).getCore c := by
        simp only [Binox.set_oCore]; rw [getRow_modifyAt_ne _ _ _ _ hrr]
      rw [hx, ho]
      simp [h]

/-- `set_emptyCore` empties the target cell and touches no other cell. -/
theorem get_cellCore_set_emptyCore (b : Binox) (row col r c : Nat) (hc16 : c < 16)
    (hcol16 : col < 16) :
    (b.set_emptyCore row col).get_cellCore r c
      = if r = row ∧ c = col then .EMPTY else b.get_cellCore r c := by
  by_cases h : r = row ∧ c = col
  · obtain ⟨hr, hc⟩ := h
    subst hr; subst hc
    rw [get_cellCore_eq, xbit_set_emptyCore _ _ _ _ _ hcol16,
      obit_set_emptyCore _ _ _ _ _ hcol16]
    simp [get_cellCore_eq]
  · rw [get_cellCore_eq, get_cellCore_eq b]
    have hx : (getRow (b.set_emptyCore row col).x_rows r).getCore c
        = (getRow b.x_rows r).getCore c := by
      rw [xbit_set_emptyCore _ _ _ _ _ hc16]
      simp [h]
    have ho : (getRow (b.set_emptyCore row col).o_rows r).getCore c
        = (getRow b.o_rows r).getCore c := by
      rw [obit_set_emptyCore _ _ _ _ _ hc16]
      simp [h]
    rw [hx, ho]
    simp [h]

/-- `set_xCore` leaves every cell other than the target unchanged (no
length hypotheses needed). -/
theorem get_cellCore_set_xCore_ne (b : Binox) (row col r c : Nat)
    (h : ¬(r = row ∧ c = col)) (hc16 : c < 16) :
    (b.set_xCore row col).get_cellCore r c = b.get_cellCore r c := by
  rw [get_cellCore_eq, get_cellCore_eq b]
  by_cases hrr : r = row
  · have hcc : ¬ c = col := fun hc => h ⟨hrr, hc⟩
    have hx : (getRow (b.set_xCore row col).x_rows r).getCore c
        = (getRow b.x_rows r).getCore c := by
      subst hrr
      simp only [Binox.set_xCore]
      by_cases hr : r < b.x_rows.length
      · rw [getRow_modifyAt_self _ _ _ hr, BinRow.getCore_eq, BinRow.getCore_eq,
          set_oneCore_testBit]
        simp [hcc]
      · rw [modifyAt_oob _ _ _ hr]
    have ho : (getRow (b.set_xCore row col).o_rows r).getCore c
        = (getRow b.o_rows r).getCore c := by
      rw [obit_set_xCore _ _ _ _ _ hc16]
      simp [hcc]
    rw [hx, ho]
  · have hx : (getRow (b.set_xCore row col).x_rows r).getCore c
        = (getRow b.x_rows r).getCore c := by
      simp only [Binox.set_xCore]; rw [getRow_modifyAt_ne _ _ _ _ hrr]
    have ho : (getRow (b.set_xCore row col).o_rows r).getCore c
        = (getRow b.o_rows r).getCore c := by
      simp only [Binox.set_xCore]; rw [getRow_modifyAt_ne _ _ _ _ hrr]
    rw [hx, ho]

/-- `set_oCore` leaves every cell other than the target unchanged. -/
theorem get_cellCore_set_oCore_ne (b : Binox) (row col r c : Nat)
    (h : ¬(r = row ∧ c = col)) (hc16 : c < 16) :
    (b.set_oCore row col).get_cellCore r c = b.get_cellCore r c := by
  rw [get_cellCore_eq, get_cellCore_eq b]
  by_cases hrr : r = row
  · have hcc : ¬ c = col := fun hc => h ⟨hrr, hc⟩
    have ho : (getRow (b.set_oCore row col).o_rows r).getCore c
        = (getRow b.o_rows r).getCore c := by
      subst hrr
      simp only [Binox.set_oCore]
      by_cases hr : r < b.o_rows.length
      · rw [getRow_modifyAt_self _ _ _ hr, BinRow.getCore_eq, BinRow.getCore_eq,
          set_oneCore_testBit]
        simp [hcc]
      · rw [modifyAt_oob _ _ _ hr]
    have hx : (getRow (b.set_oCore row col).x_rows r).getCore c
        = (getRow b.x_rows r).getCore c := by
      rw [xbit_set_oCore _ _ _ _ _ hc16]
      simp [hcc]
    rw [hx, ho]
  · have hx : (getRow (b.set_oCore row col).x_rows r).getCore c
        = (getRow b.x_rows r).getCore c := by
      simp only [Binox.set_oCore]; rw [getRow_modifyAt_ne _ _ _ _ hrr]
    have ho : (getRow (b.set_oCore row col).o_rows r).getCore c
        = (getRow b.o_rows r).getCore c := by
      simp only [Binox.set_oCore]; rw [getRow_modifyAt_ne _ _ _ _ hrr]
    rw [hx, ho]

/-- `set_emptyCore` leaves every cell other than the target unchanged. -/
theorem get_cellCore_set_emptyCore_ne (b : Binox) (row col r c : Nat)
    (h : ¬(r = row ∧ c = col)) (hc16 : c < 16) :
    (b.set_emptyCore row col).get_cellCore r c = b.get_cellCore r c := by
  rw [get_cellCore_eq, get_cellCore_eq b]
  have hx : (getRow (b.set_emptyCore row col).x_rows r).getCore c
      = (getRow b.x_rows r).getCore c := by
    rw [xbit_set_emptyCore _ _ _ _ _ hc16]
    simp [h]
  have ho : (getRow (b.set_emptyCore row col).o_rows r).getCore c
      = (getRow b.o_rows r).getCore c := by
    rw [obit_set_emptyCore _ _ _ _ _ hc16]
    simp [h]
  rw [hx, ho]

/-- Unfolding equation for one step of the presolve sweep. -/
theorem presolveAux_cons (b : Binox) (r0 c0 : Nat) (rest : List (Nat × Nat)) :
    Binox.presolveAux b ((r0, c0) :: rest)
      = if b.get_cellCore r0 c0 == .EMPTY then
          match (b.set_xCore r0 c0).is_valid, ((b.set_xCore r0 c0).set_oCore r0 c0).is_valid with
          | true, false =>
            Binox.presolveAux (((b.set_xCore r0 c0).set_oCore r0 c0).set_xCore r0 c0) rest
          | false, true =>
            Binox.presolveAux (((b.set_xCore r0 c0).set_oCore r0 c0).set_oCore r0 c0) rest
          | false, false => (.Bad, ((b.set_xCore r0 c0).set_oCore r0 c0).set_emptyCore r0 c0)
          | true, true =>
            Binox.presolveAux (((b.set_xCore r0 c0).set_oCore r0 c0).set_emptyCore r0 c0) rest
        else Binox.presolveAux b rest := rfl

/-- A presolve sweep never alters a cell that is currently non-Empty: each
step touches only the Empty cell it is visiting. -/
theorem presolveAux_preserves_nonempty (cells : List (Nat × Nat)) (b : Binox)
    (r c : Nat) (hc : c < 16) (h : b.get_cellCore r c ≠ .EMPTY) :
    (Binox.presolveAux b cells).2.get_cellCore r c = b.get_cellCore r c := by
  induction cells generalizing b with
  | nil => rfl
  | cons rc rest ih =>
    obtain ⟨r0, c0⟩ := rc
    rw [presolveAux_cons]
    by_cases hemp : b.get_cellCore r0 c0 = .EMPTY
    · have hne : ¬(r = r0 ∧ c = c0) := by
        rintro ⟨rfl, rfl⟩
        exact h hemp
      have hbx : ((b.set_xCore r0 c0).set_oCore r0 c0).get_cellCore r c
          = b.get_cellCore r c := by
        rw [get_cellCore_set_oCore_ne _ _ _ _ _ hne hc,
          get_cellCore_set_xCore_ne _ _ _ _ _ hne hc]
      have hx2 : (((b.set_xCore r0 c0).set_oCore r0 c0).set_xCore r0 c0).get_cellCore r c
          = b.get_cellCore r c := by
        rw [get_cellCore_set_xCore_ne _ _ _ _ _ hne hc, hbx]
      have ho2 : (((b.set_xCore r0 c0).set_oCore r0 c0).set_oCore r0 c0).get_cellCore r c
          = b.get_cellCore r c := by
        rw [get_cellCore_set_oCore_ne _ _ _ _ _ hne hc, hbx]
      have he2 : (((b.set_xCore r0 c0).set_oCore r0 c0).set_emptyCore r0 c0).get_cellCore r c
          = b.get_cellCore r c := by
        rw [get_cellCore_set_emptyCore_ne _ _ _ _ _ hne hc, hbx]
      have hcond : (b.get_cellCore r0 c0 == BinoxCell.EMPTY) = true := by
        rw [hemp]; rfl
      rw [if_pos hcond]
      cases hxv : (b.set_xCore r0 c0).is_valid <;>
        cases hov : ((b.set_xCore r0 c0).set_oCore r0 c0).is_valid
      · exact he2
      · have hno : (((b.set_xCore r0 c0).set_oCore r0 c0).set_oCore r0 c0).get_cellCore r c
            ≠ BinoxCell.EMPTY := by rw [ho2]; exact h
        show (Binox.presolveAux _ rest).2.get_cellCore r c = _
        rw [ih _ hno, ho2]
      · have hno : (((b.set_xCore r0 c0).set_oCore r0 c0).set_xCore r0 c0).get_cellCore r c
            ≠ BinoxCell.EMPTY := by rw [hx2]; exact h
        show (Binox.presolveAux _ rest).2.get_cellCore r c = _
        rw [ih _ hno, hx2]
      · have hno : (((b.set_xCore r0 c0).set_oCore r0 c0).set_emptyCore r0 c0).get_cellCore r c
            ≠ BinoxCell.EMPTY := by rw [he2]; exact h
        show (Binox.presolveAux _ rest).2.get_cellCore r c = _
        rw [ih _ hno, he2]
    · have hcond : ¬((b.get_cellCore r0 c0 == BinoxCell.EMPTY) = true) := by
        simp [hemp]
      rw [if_neg hcond]
      exact ih b h

/-! ### Concrete-board evaluation helpers

`Nat.sqrt` is defined by well-founded recursion and does not reduce inside
the kernel, so the concrete boards are first rewritten into their
`fromStringAux` form. -/

theorem sqrt_sixteen : Nat.sqrt 16 = 4 := by
  rw [show (16 : Nat) = 4 * 4 by norm_num, Nat.sqrt_eq]

theorem sqrt_one : Nat.sqrt 1 = 1 := by
  rw [show (1 : Nat) = 1 * 1 by norm_num, Nat.sqrt_eq]

theorem sqrt_zero : Nat.sqrt 0 = 0 := by
  rw [show (0 : Nat) = 0 * 0 by norm_num, Nat.sqrt_eq]

theorem new_from_string_small (s : List Char) (h : Nat.sqrt s.length % 256 ≤ 4) :
    Binox.new_from_string s = fromStringAux base4 4 s 0 0 := by
  have hnew : Binox.new 4 = .ok base4 := by rfl
  simp only [Binox.new_from_string]
  rcases Nat.lt_or_ge (Nat.sqrt s.length % 256) 4 with h4 | h4
  · simp [h4, hnew]
  · have he : Nat.sqrt s.length % 256 = 4 := by omega
    simp [he, hnew]

theorem C1board_eq :
    C1board = fromStringAux base4 4
      ['.', 'o', 'o', 'o', '.', '.', '.', '.', '.', '.', '.', '.', '.', '.', '.', '.'] 0 0 := by
  unfold C1board
  apply new_from_string_small
  simp [sqrt_sixteen]

theorem C4boardA_eq : C4boardA = fromStringAux base4 4 ['x'] 0 0 := by
  unfold C4boardA
  apply new_from_string_small
  simp [sqrt_one]

theorem C4boardB_eq : C4boardB = fromStringAux base4 4 ['o'] 0 0 := by
  unfold C4boardB
  apply new_from_string_small
  simp [sqrt_one]

theorem C5board_eq :
    C5board = fromStringAux base4 4
      ['.', '.', '.', '.', '.', 'x', 'x', '.', '.', '.', 'x', 'x', '.', '.', '.', '.'] 0 0 := by
  unfold C5board
  apply new_from_string_small
  simp [sqrt_sixteen]

theorem board4_eq : board4 = fromStringAux base4 4 [] 0 0 := by
  unfold board4
  apply new_from_string_small
  simp [sqrt_zero]

/-! ### Claim C4 -/

/-- C4 counterexample: the solution combination is NOT commutative once
the carried board witnesses are taken into account — combining
`One(a)` with `One(b)` yields `Multiple(a, b)`, in the other order
`Multiple(b, a)`, and these differ for the two concrete distinct boards
below. -/
theorem C4_counterexample :
    (BinoxSolution.One C4boardA).add (BinoxSolution.One C4boardB)
      ≠ (BinoxSolution.One C4boardB).add (BinoxSolution.One C4boardA) := by
  rw [C4boardA_eq, C4boardB_eq]
  decide

/-- C4 (amended): the combination is commutative and associative at the
level of the outcome variant (the carried witnesses may differ);
`Multiple` absorbs on the left exactly and forces a `Multiple` variant on
the right; `One(a) + Zero = One(a)`, `Zero + One(a) = One(a)` and
`One(a) + One(b) = Multiple(a, b)` hold exactly. -/
theorem C4_amended_add_properties (x y z : BinoxSolution) (a b : Binox) :
    (x.add y).kind = (y.add x).kind
    ∧ ((x.add y).add z).kind = (x.add (y.add z)).kind
    ∧ (BinoxSolution.Multiple a b).add x = .Multiple a b
    ∧ (x.add (.Multiple a b)).kind = 2
    ∧ (BinoxSolution.One a).add .Zero = .One a
    ∧ BinoxSolution.Zero.add (.One a) = .One a
    ∧ (BinoxSolution.One a).add (.One b) = .Multiple a b := by
  refine ⟨?_, ?_, ?_, ?_, rfl, rfl, rfl⟩
  · cases x <;> cases y <;> rfl
  · cases x <;> cases y <;> cases z <;> rfl
  · cases x <;> rfl
  · cases x <;> rfl

/-! ### Claim C10 -/

/-- C10 counterexample: size 16 is permitted by `BinRow::new`, yet the
full-mask shift `1u16 << 16` does not stay within the 16-bit word
(`1 <<< 16 = 2^16`), so `is_valid` is not total at size 16 under checked
shift semantics (a debug build panics; a release build wraps the shift
amount to 0, making the complement mask 0). -/
theorem C10_counterexample :
    BinRow.new 16 = .ok ⟨0, 16, 0⟩ ∧ ¬((1 : Nat) <<< 16 < 2 ^ 16) := by
  constructor
  · rfl
  · decide

/-- C10 (amended): for every size accepted by `BinRow::new` other than 16
the full-mask shift `1 << size` stays within the 16-bit word, so the
`is_valid` mask computation does not overflow for sizes 4..14. -/
theorem C10_amended_no_overflow_below_16 (size : Nat) (r : BinRow)
    (h : BinRow.new size = .ok r) (h16 : size ≠ 16) :
    (1 : Nat) <<< size < 2 ^ 16 := by
  have hle : size ≤ 16 := by
    by_contra hgt
    push_neg at hgt
    have : size > 16 := hgt
    simp [BinRow.new, this] at h
  have hlt : size < 16 := by omega
  rw [one_shiftLeft_eq]
  calc (2 : Nat) ^ size < 2 ^ (size + 1) := by
        exact Nat.pow_lt_pow_right (by norm_num) (by omega)
  _ ≤ 2 ^ 16 := Nat.pow_le_pow_right (by norm_num) (by omega)

/-- C10 witness: size 14 instantiates the amended theorem. -/
theorem C10_amended_no_overflow_below_16_witness :
    BinRow.new 14 = .ok ⟨0, 14, 0⟩ ∧ (1 : Nat) <<< 14 < 2 ^ 16 :=
  ⟨by rfl, C10_amended_no_overflow_below_16 14 ⟨0, 14, 0⟩ (by rfl) (by decide)⟩

/-! ### Claim C1 -/

/-- C1 (code bug): the board decoded from ".ooo............" has three
consecutive O symbols (and an O count of 3 > 4/2) in row 0, so under the
claim every-line-in-all-four-collections reading both `is_valid_simple`
and `is_valid` must be false; the source instead iterates over
`[x_rows, o_cols, x_cols, o_cols]` — `o_cols` twice and `o_rows` never —
and accepts the board. -/
theorem C1_code_bug_eval :
    C1board.is_valid_simple = true ∧ C1board.is_valid = true
    ∧ C1board.specIsValidSimple = false ∧ C1board.specIsValid = false := by
  rw [C1board_eq]
  refine ⟨by decide, by decide, by decide, by decide⟩

/-! ### Claim C5 -/

/-- C5 counterexample: on the board ".....xx...xx...." the first presolve
sweep returns Good and leaves cell (0, 0) Empty, but a second sweep
changes it (to X): presolve is not idempotent. -/
theorem C5_counterexample :
    (C5board.presolve).1 = .Good
    ∧ ((C5board.presolve).2.presolve).1 = .Good
    ∧ ((C5board.presolve).2.presolve).2.get_cellCore 0 0
        ≠ (C5board.presolve).2.get_cellCore 0 0 := by
  rw [C5board_eq]
  refine ⟨by decide, by decide, by decide⟩

/-- C5 (amended): a presolve call never changes a non-Empty cell; in
particular the second of two successive calls leaves every cell committed
by the first call intact — it can only fill cells still Empty after the
first call, and the counterexample shows such fills do occur. -/
theorem C5_amended_presolve_keeps_committed_cells (b : Binox) (r c : Nat)
    (hc : c < 16) (h : b.get_cellCore r c ≠ .EMPTY) :
    (b.presolve).2.get_cellCore r c = b.get_cellCore r c :=
  presolveAux_preserves_nonempty (sweepOrder b.size) b r c hc h

/-- C5 witness: the amended theorem applied to the committed cell (0, 0)
of a concrete board. -/
theorem C5_amended_presolve_keeps_committed_cells_witness :
    (0 : Nat) < 16 ∧ C4boardA.get_cellCore 0 0 ≠ .EMPTY
    ∧ (C4boardA.presolve).2.get_cellCore 0 0 = C4boardA.get_cellCore 0 0 :=
  ⟨by decide, by rw [C4boardA_eq]; decide,
    C5_amended_presolve_keeps_committed_cells C4boardA 0 0 (by decide)
      (by rw [C4boardA_eq]; decide)⟩

/-- The sweep over an appended cell list: the second part runs only if the
first part finished `Good`. -/
theorem Binox.presolveAux_append (l1 l2 : List (Nat × Nat)) (b : Binox) :
    Binox.presolveAux b (l1 ++ l2)
      = match Binox.presolveAux b l1 with
        | (.Good, b2) => Binox.presolveAux b2 l2
        | (.Bad, b2) => (.Bad, b2) := by
  induction l1 generalizing b with
  | nil => rfl
  | cons hd t ih =>
    obtain ⟨r0, c0⟩ := hd
    by_cases hemp : b.get_cellCore r0 c0 = .EMPTY
    · have hcond : (b.get_cellCore r0 c0 == BinoxCell.EMPTY) = true := by
        rw [hemp]; rfl
      rw [List.cons_append, presolveAux_cons, presolveAux_cons, if_pos hcond,
        if_pos hcond]
      cases hxv : (b.set_xCore r0 c0).is_valid <;>
        cases hov : ((b.set_xCore r0 c0).set_oCore r0 c0).is_valid
      · rfl
      · exact ih _
      · exact ih _
      · exact ih _
    · have hcond : ¬((b.get_cellCore r0 c0 == BinoxCell.EMPTY) = true) := by
        simp [hemp]
      rw [List.cons_append, presolveAux_cons, presolveAux_cons, if_neg hcond,
        if_neg hcond]
      exact ih b

/-! ### Claim C8 -/

/-- If the visited cell is not a contradiction point, the sweep step moves
to a unique successor board, uniformly in the remaining cell list. -/
theorem presolveAux_step_of_not_contra (b : Binox) (r0 c0 : Nat)
    (h : ¬ b.contraAt r0 c0) :
    ∃ b1 : Binox, ∀ l : List (Nat × Nat),
      Binox.presolveAux b ((r0, c0) :: l) = Binox.presolveAux b1 l := by
  by_cases hemp : b.get_cellCore r0 c0 = .EMPTY
  · have hcond : (b.get_cellCore r0 c0 == BinoxCell.EMPTY) = true := by
      rw [hemp]; rfl
    cases hxv : (b.set_xCore r0 c0).is_valid <;>
      cases hov : ((b.set_xCore r0 c0).set_oCore r0 c0).is_valid
    · exact absurd ⟨hemp, hxv, hov⟩ h
    · refine ⟨((b.set_xCore r0 c0).set_oCore r0 c0).set_oCore r0 c0, fun l => ?_⟩
      rw [presolveAux_cons, if_pos hcond, hxv, hov]
    · refine ⟨((b.set_xCore r0 c0).set_oCore r0 c0).set_xCore r0 c0, fun l => ?_⟩
      rw [presolveAux_cons, if_pos hcond, hxv, hov]
    · refine ⟨((b.set_xCore r0 c0).set_oCore r0 c0).set_emptyCore r0 c0, fun l => ?_⟩
      rw [presolveAux_cons, if_pos hcond, hxv, hov]
  · refine ⟨b, fun l => ?_⟩
    rw [presolveAux_cons, if_neg (by simp [hemp])]

/-- At a contradiction point the sweep aborts at once, uniformly in the
remaining cell list, reverting the visited cell. -/
theorem presolveAux_step_of_contra (b : Binox) (r0 c0 : Nat)
    (h : b.contraAt r0 c0) :
    ∀ l : List (Nat × Nat),
      Binox.presolveAux b ((r0, c0) :: l)
        = (.Bad, ((b.set_xCore r0 c0).set_oCore r0 c0).set_emptyCore r0 c0) := by
  obtain ⟨hemp, hxv, hov⟩ := h
  intro l
  rw [presolveAux_cons, if_pos (by rw [hemp]; rfl), hxv, hov]

/-- The sweep returns `Bad` exactly when some cell of the list, reached
with a `Good` prefix, is a contradiction point for the board state the
prefix produced. -/
theorem presolveAux_bad_iff (cells : List (Nat × Nat)) (b : Binox) :
    (Binox.presolveAux b cells).1 = .Bad
      ↔ ∃ pre rc post, cells = pre ++ rc :: post
          ∧ (Binox.presolveAux b pre).1 = .Good
          ∧ ((Binox.presolveAux b pre).2).contraAt rc.1 rc.2 := by
  induction cells generalizing b with
  | nil =>
    constructor
    · intro h
      exact absurd h (by simp [Binox.presolveAux])
    · rintro ⟨pre, rc, post, hsplit, -, -⟩
      exact absurd hsplit (by simp)
  | cons hd rest ih =>
    obtain ⟨r0, c0⟩ := hd
    by_cases hcontra : b.contraAt r0 c0
    · rw [presolveAux_step_of_contra b r0 c0 hcontra rest]
      constructor
      · intro _
        exact ⟨[], (r0, c0), rest, rfl, rfl, hcontra⟩
      · intro _
        rfl
    · obtain ⟨b1, hb1⟩ := presolveAux_step_of_not_contra b r0 c0 hcontra
      rw [hb1 rest, ih b1]
      constructor
      · rintro ⟨pre, rc, post, hsplit, hgood, hcon⟩
        refine ⟨(r0, c0) :: pre, rc, post, by simp [hsplit], ?_, ?_⟩
        · rw [hb1 pre]; exact hgood
        · rw [hb1 pre]; exact hcon
      · rintro ⟨pre, rc, post, hsplit, hgood, hcon⟩
        cases pre with
        | nil =>
          simp only [List.nil_append, List.cons.injEq] at hsplit
          obtain ⟨hrc, hpost⟩ := hsplit
          rw [← hrc] at hcon
          exact absurd hcon hcontra
        | cons hd2 pre2 =>
          simp only [List.cons_append, List.cons.injEq] at hsplit
          obtain ⟨hhd, hrest⟩ := hsplit
          subst hhd
          refine ⟨pre2, rc, post, hrest, ?_, ?_⟩
          · rw [hb1 pre2] at hgood; exact hgood
          · rw [hb1 pre2] at hcon; exact hcon

/-- Emptying a cell makes `get_cellCore` report Empty there. -/
theorem get_cellCore_set_emptyCore_self (b : Binox) (r c : Nat) (hc : c < 16) :
    (b.set_emptyCore r c).get_cellCore r c = .EMPTY := by
  rw [get_cellCore_eq, xbit_set_emptyCore _ _ _ _ _ hc, obit_set_emptyCore _ _ _ _ _ hc]
  simp

/-- Cells of the row-major sweep order are in range. -/
theorem mem_sweepOrder {rc : Nat × Nat} {n : Nat} (h : rc ∈ sweepOrder n) :
    rc.1 < n ∧ rc.2 < n := by
  have main : ∀ l : List Nat,
      rc ∈ l.foldr (fun r acc => ((List.range n).map fun c => (r, c)) ++ acc) []
      → rc.1 ∈ l ∧ rc.2 < n := by
    intro l
    induction l with
    | nil => intro h2; simp at h2
    | cons a t ih =>
      intro h2
      simp only [List.foldr_cons, List.mem_append, List.mem_map] at h2
      rcases h2 with ⟨c, hc, rfl⟩ | h2
      · exact ⟨by simp, by simpa using hc⟩
      · obtain ⟨h3, h4⟩ := ih h2
        exact ⟨by simp [h3], h4⟩
  obtain ⟨h1, h2⟩ := main (List.range n) h
  exact ⟨by simpa using h1, h2⟩

/-- C8: the presolve sweep returns `Bad` exactly when it reaches (with a
`Good` prefix) an Empty cell admitting neither symbol; at such a point the
whole sweep equals the sweep cut off right after that cell (no further
cells are processed), the cell is reverted to Empty, and every other cell
keeps the value the prefix gave it.  Otherwise the sweep returns `Good`. -/
theorem C8_presolve_contradiction (b : Binox) (hs : b.size ≤ 16) :
    ((b.presolve).1 = .Bad
       ↔ ∃ pre rc post, sweepOrder b.size = pre ++ rc :: post
           ∧ (Binox.presolveAux b pre).1 = .Good
           ∧ ((Binox.presolveAux b pre).2).contraAt rc.1 rc.2)
    ∧ (∀ pre rc post, sweepOrder b.size = pre ++ rc :: post →
         (Binox.presolveAux b pre).1 = .Good →
         ((Binox.presolveAux b pre).2).contraAt rc.1 rc.2 →
         b.presolve = Binox.presolveAux b (pre ++ [rc])
         ∧ (b.presolve).2.get_cellCore rc.1 rc.2 = .EMPTY
         ∧ ∀ r c, c < 16 → ¬(r = rc.1 ∧ c = rc.2) →
             (b.presolve).2.get_cellCore r c
               = ((Binox.presolveAux b pre).2).get_cellCore r c)
    ∧ ((b.presolve).1 = .Good
       ↔ ¬∃ pre rc post, sweepOrder b.size = pre ++ rc :: post
           ∧ (Binox.presolveAux b pre).1 = .Good
           ∧ ((Binox.presolveAux b pre).2).contraAt rc.1 rc.2) := by
  have hbad := presolveAux_bad_iff (sweepOrder b.size) b
  have hmid : ∀ pre rc post, sweepOrder b.size = pre ++ rc :: post →
      (Binox.presolveAux b pre).1 = .Good →
      ((Binox.presolveAux b pre).2).contraAt rc.1 rc.2 →
      b.presolve = Binox.presolveAux b (pre ++ [rc])
      ∧ (b.presolve).2.get_cellCore rc.1 rc.2 = .EMPTY
      ∧ ∀ r c, c < 16 → ¬(r = rc.1 ∧ c = rc.2) →
          (b.presolve).2.get_cellCore r c
            = ((Binox.presolveAux b pre).2).get_cellCore r c := by
    intro pre rc post hsplit hgood hcon
    obtain ⟨rc1, rc2⟩ := rc
    have hc16 : rc2 < 16 := by
      have hmem : (rc1, rc2) ∈ sweepOrder b.size := by
        rw [hsplit]; simp
      exact lt_of_lt_of_le (mem_sweepOrder hmem).2 hs
    set b0 := (Binox.presolveAux b pre).2 with hb0
    have hsweep : ∀ l : List (Nat × Nat),
        Binox.presolveAux b (pre ++ (rc1, rc2) :: l)
          = (.Bad, ((b0.set_xCore rc1 rc2).set_oCore rc1 rc2).set_emptyCore rc1 rc2) := by
      intro l
      rw [Binox.presolveAux_append pre ((rc1, rc2) :: l) b]
      cases hres : Binox.presolveAux b pre with
      | mk fst snd =>
        cases fst with
        | Good =>
          simp only
          have hsnd : snd = b0 := by rw [hb0, hres]
          rw [hsnd]
          exact presolveAux_step_of_contra b0 rc1 rc2 hcon l
        | Bad => rw [hres] at hgood; exact absurd hgood (by simp)
    have h1 : b.presolve = Binox.presolveAux b (pre ++ [(rc1, rc2)]) := by
      unfold Binox.presolve
      rw [hsplit, hsweep post, hsweep []]
    have hval : (b.presolve).2
        = ((b0.set_xCore rc1 rc2).set_oCore rc1 rc2).set_emptyCore rc1 rc2 := by
      unfold Binox.presolve
      rw [hsplit, hsweep post]
    refine ⟨h1, ?_, ?_⟩
    · rw [hval]
      exact get_cellCore_set_emptyCore_self _ rc1 rc2 hc16
    · intro r c hc hne
      rw [hval, get_cellCore_set_emptyCore_ne _ _ _ _ _ hne hc,
        get_cellCore_set_oCore_ne _ _ _ _ _ hne hc,
        get_cellCore_set_xCore_ne _ _ _ _ _ hne hc]
  refine ⟨hbad, hmid, ?_⟩
  cases hres : (b.presolve).1 with
  | Good =>
    simp only [true_iff]
    intro hex
    have : (b.presolve).1 = .Bad := hbad.mpr hex
    rw [hres] at this
    exact absurd this (by simp)
  | Bad =>
    have hex := hbad.mp hres
    constructor
    · intro h; exact absurd h (by simp [hres] at h ⊢)
    · intro hn; exact absurd hex hn

/-- C8 witness: the characterization instantiated on the fresh 4×4 board. -/
theorem C8_presolve_contradiction_witness :
    base4.size ≤ 16
    ∧ ((base4.presolve).1 = .Bad
       ↔ ∃ pre rc post, sweepOrder base4.size = pre ++ rc :: post
           ∧ (Binox.presolveAux base4 pre).1 = .Good
           ∧ ((Binox.presolveAux base4 pre).2).contraAt rc.1 rc.2) :=
  ⟨by decide, (C8_presolve_contradiction base4 (by decide)).1⟩

/-! ### Claim C3 -/

/-- `BinRow::set_one` on a legal line keeps the structural line invariant. -/
theorem rowInvP_set_one {r r' : BinRow} {p : Nat} (h : RowInvP r)
    (heq : r.set_one p = .ok r') : RowInvP r' := by
  obtain ⟨h4, h16, hev, hw, hc⟩ := h
  unfold BinRow.set_one at heq
  split at heq
  · exact absurd heq (by simp)
  · rename_i hp
    push_neg at hp
    injection heq with heq
    subst heq
    refine ⟨h4, h16, hev, ?_, ?_⟩
    · show r.data ||| (1 <<< p) < 2 ^ r.size
      apply Nat.or_lt_two_pow hw
      rw [one_shiftLeft_eq]
      exact Nat.pow_lt_pow_right (by norm_num) hp
    · cases hbit : r.data.testBit p
      · rw [set_oneCore_count, hbit, if_neg (by simp)]
        show r.count + 1 = popc16 ((r.set_oneCore p).data)
        show r.count + 1 = popc16 (r.data ||| (1 <<< p))
        rw [popc16_set r.data p (by omega) hbit, hc]
      · rw [set_oneCore_noop r p hbit]
        exact hc

/-- `BinRow::set_zero` on a legal line keeps the structural line invariant. -/
theorem rowInvP_set_zero {r r' : BinRow} {p : Nat} (h : RowInvP r)
    (heq : r.set_zero p = .ok r') : RowInvP r' := by
  obtain ⟨h4, h16, hev, hw, hc⟩ := h
  have hw16 : r.data < 65536 := by
    calc r.data < 2 ^ r.size := hw
    _ ≤ 2 ^ 16 := Nat.pow_le_pow_right (by norm_num) h16
    _ = 65536 := by norm_num
  unfold BinRow.set_zero at heq
  split at heq
  · exact absurd heq (by simp)
  · injection heq with heq
    subst heq
    cases hbit : r.data.testBit p
    · rw [set_zeroCore_noop r p hw16 hbit]
      exact ⟨h4, h16, hev, hw, hc⟩
    · refine ⟨h4, h16, hev, ?_, ?_⟩
      · show r.data &&& (65535 ^^^ (1 <<< p)) < 2 ^ r.size
        exact lt_of_le_of_lt Nat.and_le_left hw
      · rw [set_zeroCore_count, hbit, if_pos rfl]
        show r.count - 1 = popc16 ((r.set_zeroCore p).data)
        show r.count - 1 = popc16 (r.data &&& (65535 ^^^ (1 <<< p)))
        rw [popc16_clear r.data p hw16 hbit, hc]

/-- Every line state reachable through the `BinRow` API satisfies the
structural line invariant. -/
theorem rowInvP_reachable (r : BinRow) (h : BinRow.Reachable r) : RowInvP r := by
  induction h with
  | new hok =>
    rename_i s r0
    unfold BinRow.new at hok
    split at hok
    · exact absurd hok (by simp)
    · split at hok
      · exact absurd hok (by simp)
      · split at hok
        · exact absurd hok (by simp)
        · rename_i h1 h2 h3
          push_neg at h1 h2
          have h3' : s % 2 ≠ 1 := by simpa using h3
          injection hok with hok
          subst hok
          exact ⟨show (4 : Nat) ≤ s by omega, show s ≤ 16 by omega,
            show s % 2 = 0 by omega,
            show (0 : Nat) < 2 ^ s from Nat.pos_pow_of_pos _ (by norm_num),
            show (0 : Nat) = popc16 0 from popc16_zero.symm⟩
  | set_one _ heq ih => exact rowInvP_set_one ih heq
  | set_zero _ heq ih => exact rowInvP_set_zero ih heq
  | set_bool _ heq ih =>
    rename_i r0 r1 p v _
    cases v
    · exact rowInvP_set_zero ih heq
    · exact rowInvP_set_one ih heq

/-- The bitwise triple test of `is_valid_simple` is exactly the
no-three-consecutive-set-bits property within the line width, for data
within the width. -/
theorem triple_test_iff (d s : Nat) (hd : d < 2 ^ s) (hs : s ≤ 16) :
    ((d &&& ((d <<< 1) % 65536) &&& (d >>> 1)) == 0) = true ↔ noTriple d s := by
  rw [beq_iff_eq, nat_eq_zero_iff_testBit]
  have hterm : ∀ i, (d &&& ((d <<< 1) % 65536) &&& (d >>> 1)).testBit i
      = (d.testBit i && (decide (i < 16) && (decide (i ≥ 1) && d.testBit (i - 1)))
          && d.testBit (1 + i)) := by
    intro i
    rw [Nat.testBit_land, Nat.testBit_land, Nat.testBit_shiftRight,
      show (65536 : Nat) = 2 ^ 16 by norm_num, Nat.testBit_mod_two_pow,
      Nat.testBit_shiftLeft]
  constructor
  · intro h i hi ⟨hb0, hb1, hb2⟩
    have := h (i + 1)
    rw [hterm (i + 1)] at this
    have h16 : i + 1 < 16 := by omega
    simp [hb0, hb1, h16, show i + 1 - 1 = i by omega,
      show 1 + (i + 1) = i + 2 by omega, hb2] at this
  · intro h i
    rw [hterm i]
    by_cases h1 : 1 ≤ i
    · by_cases h2 : i < 16
      · cases hb0 : d.testBit i
        · simp
        · cases hb1 : d.testBit (i - 1)
          · simp
          · cases hb2 : d.testBit (1 + i)
            · simp
            · exfalso
              have hlt : 1 + i < s := by
                by_contra hge
                push_neg at hge
                rw [testBit_false_of_lt_two_pow hd hge] at hb2
                exact absurd hb2 (by simp)
              refine h (i - 1) (by omega) ⟨hb1, ?_, ?_⟩
              · rw [show i - 1 + 1 = i by omega]; exact hb0
              · rw [show i - 1 + 2 = 1 + i by omega]; exact hb2
      · simp [h2]
    · simp [h1]

/-- C3: for every line state reachable through the `BinRow` mutators,
`is_valid_simple` holds iff the bitset has no three consecutive set bits
within the line width and the count is at most half the size. -/
theorem C3_line_is_valid_simple_iff (r : BinRow) (h : BinRow.Reachable r) :
    r.is_valid_simple = true ↔ (noTriple r.data r.size ∧ r.count ≤ r.size / 2) := by
  obtain ⟨h4, h16, hev, hw, hc⟩ := rowInvP_reachable r h
  unfold BinRow.is_valid_simple
  rw [Bool.and_eq_true, triple_test_iff r.data r.size hw h16, decide_eq_true_eq]

/-- C3 witness: the line reached by `new(4)` then `set_one(1)`. -/
theorem C3_line_is_valid_simple_iff_witness :
    BinRow.Reachable ⟨2, 4, 1⟩
    ∧ ((⟨2, 4, 1⟩ : BinRow).is_valid_simple = true ↔ (noTriple 2 4 ∧ 1 ≤ 4 / 2)) :=
  ⟨BinRow.Reachable.set_one (p := 1) (BinRow.Reachable.new (s := 4) rfl) rfl,
    C3_line_is_valid_simple_iff ⟨2, 4, 1⟩
      (BinRow.Reachable.set_one (p := 1) (BinRow.Reachable.new (s := 4) rfl) rfl)⟩

/-! ### Claim C6 -/

/-- Setting a bit at index `i`, position `p`: effect on an arbitrary bit. -/
theorem getCore_modify_one (l : List BinRow) (i p j q : Nat) (hi : i < l.length) :
    (getRow (modifyAt l i (fun r => r.set_oneCore p)) j).getCore q
      = ((getRow l j).getCore q || decide (j = i ∧ q = p)) := by
  by_cases hj : j = i
  · subst hj
    rw [getRow_modifyAt_self _ _ _ hi, BinRow.getCore_eq, BinRow.getCore_eq,
      set_oneCore_testBit]
    by_cases hq : q = p <;> simp [hq]
  · rw [getRow_modifyAt_ne _ _ _ _ hj]
    simp [hj]

/-- Clearing a bit at index `i`, position `p`: effect on an arbitrary bit
below 16. -/
theorem getCore_modify_zero (l : List BinRow) (i p j q : Nat) (hq : q < 16) :
    (getRow (modifyAt l i (fun r => r.set_zeroCore p)) j).getCore q
      = ((getRow l j).getCore q && !decide (j = i ∧ q = p)) := by
  by_cases hj : j = i
  · subst hj
    by_cases hi : j < l.length
    · rw [getRow_modifyAt_self _ _ _ hi, BinRow.getCore_eq, BinRow.getCore_eq,
        set_zeroCore_testBit]
      by_cases hq2 : q = p
      · have hp : p < 16 := hq2 ▸ hq
        simp [hq2, hp]
      · simp [hq2, hq]
    · rw [modifyAt_oob _ _ _ hi]
      have hjunk : getRow l j = ⟨0, 0, 0⟩ := by
        simp [getRow, List.getD_eq_getElem?_getD,
          List.getElem?_eq_none (by omega : l.length ≤ j)]
      simp [hjunk, BinRow.getCore_eq]
  · rw [getRow_modifyAt_ne _ _ _ _ hj]
    simp [hj]

/-- `RowsInv` is preserved by setting one in-range bit of one line. -/
theorem rowsInv_modify_one (l : List BinRow) (n i p : Nat) (h : RowsInv l n)
    (hn : n ≤ 16) (hi : i < n) (hp : p < n) :
    RowsInv (modifyAt l i (fun r => r.set_oneCore p)) n := by
  obtain ⟨hlen, hrow⟩ := h
  refine ⟨by rw [modifyAt_length]; exact hlen, ?_⟩
  intro j hj
  by_cases hji : j = i
  · subst hji
    rw [getRow_modifyAt_self _ _ _ (by omega)]
    obtain ⟨hsz, hw, hc⟩ := hrow j hj
    refine ⟨hsz, ?_, ?_⟩
    · show (getRow l j).data ||| (1 <<< p) < 2 ^ n
      apply Nat.or_lt_two_pow hw
      rw [one_shiftLeft_eq]
      exact Nat.pow_lt_pow_right (by norm_num) hp
    · cases hbit : (getRow l j).data.testBit p
      · rw [set_oneCore_count, hbit, if_neg (by simp)]
        show (getRow l j).count + 1 = popc16 ((getRow l j).set_oneCore p).data
        show (getRow l j).count + 1 = popc16 ((getRow l j).data ||| (1 <<< p))
        rw [popc16_set _ p (by omega) hbit, hc]
      · rw [set_oneCore_noop _ p hbit]
        exact hc
  · rw [getRow_modifyAt_ne _ _ _ _ hji]
    exact hrow j hj

/-- `RowsInv` is preserved by clearing a bit of one line. -/
theorem rowsInv_modify_zero (l : List BinRow) (n i p : Nat) (h : RowsInv l n)
    (hn : n ≤ 16) :
    RowsInv (modifyAt l i (fun r => r.set_zeroCore p)) n := by
  obtain ⟨hlen, hrow⟩ := h
  refine ⟨by rw [modifyAt_length]; exact hlen, ?_⟩
  intro j hj
  by_cases hji : j = i
  · subst hji
    rw [getRow_modifyAt_self _ _ _ (by omega)]
    obtain ⟨hsz, hw, hc⟩ := hrow j hj
    have hw16 : (getRow l j).data < 65536 := by
      calc (getRow l j).data < 2 ^ n := hw
      _ ≤ 2 ^ 16 := Nat.pow_le_pow_right (by norm_num) hn
      _ = 65536 := by norm_num
    cases hbit : (getRow l j).data.testBit p
    · rw [set_zeroCore_noop _ p hw16 hbit]
      exact ⟨hsz, hw, hc⟩
    · refine ⟨hsz, ?_, ?_⟩
      · show (getRow l j).data &&& (65535 ^^^ (1 <<< p)) < 2 ^ n
        exact lt_of_le_of_lt Nat.and_le_left hw
      · rw [set_zeroCore_count, hbit, if_pos rfl]
        show (getRow l j).count - 1 = popc16 ((getRow l j).set_zeroCore p).data
        show (getRow l j).count - 1 = popc16 ((getRow l j).data &&& (65535 ^^^ (1 <<< p)))
        rw [popc16_clear _ p hw16 hbit, hc]
  · rw [getRow_modifyAt_ne _ _ _ _ hji]
    exact hrow j hj

/-- `set_xCore` at an in-range cell preserves the board invariants. -/
theorem inv_set_xCore (b : Binox) (row col : Nat) (hb : b.Inv)
    (hr : row < b.size) (hc : col < b.size) : (b.set_xCore row col).Inv := by
  have hn := hb.ub
  have hlx : row < b.x_rows.length := by rw [hb.xr.1]; exact hr
  have hlxc : col < b.x_cols.length := by rw [hb.xc.1]; exact hc
  have hc16 : ∀ c2, c2 < b.size → c2 < 16 := fun c2 h2 => by omega
  refine ⟨hb.lb, hb.ub, hb.even,
    rowsInv_modify_one _ _ _ _ hb.xr hn hr hc,
    rowsInv_modify_zero _ _ _ _ hb.orr hn,
    rowsInv_modify_one _ _ _ _ hb.xc hn hc hr,
    rowsInv_modify_zero _ _ _ _ hb.oc hn, hb.dr, ?_, ?_⟩
  · intro r c hr2 hc2
    show ¬((getRow (modifyAt b.x_rows row fun r => r.set_oneCore col) r).getCore c = true
      ∧ (getRow (modifyAt b.o_rows row fun r => r.set_zeroCore col) r).getCore c = true)
    rw [getCore_modify_one _ _ _ _ _ hlx, getCore_modify_zero _ _ _ _ _ (hc16 c hc2)]
    rintro ⟨hx, ho⟩
    simp only [Bool.or_eq_true, Bool.and_eq_true, Bool.not_eq_true',
      decide_eq_true_eq, decide_eq_false_iff_not] at hx ho
    rcases hx with hx | hx
    · exact hb.i1 r c hr2 hc2 ⟨hx, ho.1⟩
    · exact ho.2 hx
  · intro r c hr2 hc2
    constructor
    · show (getRow (modifyAt b.x_rows row fun r => r.set_oneCore col) r).getCore c
        = (getRow (modifyAt b.x_cols col fun r => r.set_oneCore row) c).getCore r
      rw [getCore_modify_one _ _ _ _ _ hlx, getCore_modify_one _ _ _ _ _ hlxc,
        (hb.i2 r c hr2 hc2).1]
      by_cases hcell : r = row ∧ c = col
      · simp [hcell]
      · have : ¬(c = col ∧ r = row) := fun h2 => hcell ⟨h2.2, h2.1⟩
        simp [hcell, this]
    · show (getRow (modifyAt b.o_rows row fun r => r.set_zeroCore col) r).getCore c
        = (getRow (modifyAt b.o_cols col fun r => r.set_zeroCore row) c).getCore r
      rw [getCore_modify_zero _ _ _ _ _ (hc16 c hc2),
        getCore_modify_zero _ _ _ _ _ (hc16 r hr2),
        (hb.i2 r c hr2 hc2).2]
      by_cases hcell : r = row ∧ c = col
      · simp [hcell]
      · have : ¬(c = col ∧ r = row) := fun h2 => hcell ⟨h2.2, h2.1⟩
        simp [hcell, this]

/-- `set_oCore` at an in-range cell preserves the board invariants. -/
theorem inv_set_oCore (b : Binox) (row col : Nat) (hb : b.Inv)
    (hr : row < b.size) (hc : col < b.size) : (b.set_oCore row col).Inv := by
  have hn := hb.ub
  have hlo : row < b.o_rows.length := by rw [hb.orr.1]; exact hr
  have hloc : col < b.o_cols.length := by rw [hb.oc.1]; exact hc
  have hc16 : ∀ c2, c2 < b.size → c2 < 16 := fun c2 h2 => by omega
  refine ⟨hb.lb, hb.ub, hb.even,
    rowsInv_modify_zero _ _ _ _ hb.xr hn,
    rowsInv_modify_one _ _ _ _ hb.orr hn hr hc,
    rowsInv_modify_zero _ _ _ _ hb.xc hn,
    rowsInv_modify_one _ _ _ _ hb.oc hn hc hr, hb.dr, ?_, ?_⟩
  · intro r c hr2 hc2
    show ¬((getRow (modifyAt b.x_rows row fun r => r.set_zeroCore col) r).getCore c = true
      ∧ (getRow (modifyAt b.o_rows row fun r => r.set_oneCore col) r).getCore c = true)
    rw [getCore_modify_zero _ _ _ _ _ (hc16 c hc2), getCore_modify_one _ _ _ _ _ hlo]
    rintro ⟨hx, ho⟩
    simp only [Bool.or_eq_true, Bool.and_eq_true, Bool.not_eq_true',
      decide_eq_true_eq, decide_eq_false_iff_not] at hx ho
    rcases ho with ho | ho
    · exact hb.i1 r c hr2 hc2 ⟨hx.1, ho⟩
    · exact hx.2 ho
  · intro r c hr2 hc2
    constructor
    · show (getRow (modifyAt b.x_rows row fun r => r.set_zeroCore col) r).getCore c
        = (getRow (modifyAt b.x_cols col fun r => r.set_zeroCore row) c).getCore r
      rw [getCore_modify_zero _ _ _ _ _ (hc16 c hc2),
        getCore_modify_zero _ _ _ _ _ (hc16 r hr2),
        (hb.i2 r c hr2 hc2).1]
      by_cases hcell : r = row ∧ c = col
      · simp [hcell]
      · have : ¬(c = col ∧ r = row) := fun h2 => hcell ⟨h2.2, h2.1⟩
        simp [hcell, this]
    · show (getRow (modifyAt b.o_rows row fun r => r.set_oneCore col) r).getCore c
        = (getRow (modifyAt b.o_cols col fun r => r.set_oneCore row) c).getCore r
      rw [getCore_modify_one _ _ _ _ _ hlo, getCore_modify_one _ _ _ _ _ hloc,
        (hb.i2 r c hr2 hc2).2]
      by_cases hcell : r = row ∧ c = col
      · simp [hcell]
      · have : ¬(c = col ∧ r = row) := fun h2 => hcell ⟨h2.2, h2.1⟩
        simp [hcell, this]

/-- `set_emptyCore` preserves the board invariants. -/
theorem inv_set_emptyCore (b : Binox) (row col : Nat) (hb : b.Inv) :
    (b.set_emptyCore row col).Inv := by
  have hn := hb.ub
  have hc16 : ∀ c2, c2 < b.size → c2 < 16 := fun c2 h2 => by omega
  refine ⟨hb.lb, hb.ub, hb.even,
    rowsInv_modify_zero _ _ _ _ hb.xr hn,
    rowsInv_modify_zero _ _ _ _ hb.orr hn,
    rowsInv_modify_zero _ _ _ _ hb.xc hn,
    rowsInv_modify_zero _ _ _ _ hb.oc hn, hb.dr, ?_, ?_⟩
  · intro r c hr2 hc2
    show ¬((getRow (modifyAt b.x_rows row fun r => r.set_zeroCore col) r).getCore c = true
      ∧ (getRow (modifyAt b.o_rows row fun r => r.set_zeroCore col) r).getCore c = true)
    rw [getCore_modify_zero _ _ _ _ _ (hc16 c hc2), getCore_modify_zero _ _ _ _ _ (hc16 c hc2)]
    rintro ⟨hx, ho⟩
    simp only [Bool.and_eq_true, Bool.not_eq_true', decide_eq_false_iff_not] at hx ho
    exact hb.i1 r c hr2 hc2 ⟨hx.1, ho.1⟩
  · intro r c hr2 hc2
    constructor
    · show (getRow (modifyAt b.x_rows row fun r => r.set_zeroCore col) r).getCore c
        = (getRow (modifyAt b.x_cols col fun r => r.set_zeroCore row) c).getCore r
      rw [getCore_modify_zero _ _ _ _ _ (hc16 c hc2),
        getCore_modify_zero _ _ _ _ _ (hc16 r hr2),
        (hb.i2 r c hr2 hc2).1]
      by_cases hcell : r = row ∧ c = col
      · simp [hcell]
      · have : ¬(c = col ∧ r = row) := fun h2 => hcell ⟨h2.2, h2.1⟩
        simp [hcell, this]
    · show (getRow (modifyAt b.o_rows row fun r => r.set_zeroCore col) r).getCore c
        = (getRow (modifyAt b.o_cols col fun r => r.set_zeroCore row) c).getCore r
      rw [getCore_modify_zero _ _ _ _ _ (hc16 c hc2),
        getCore_modify_zero _ _ _ _ _ (hc16 r hr2),
        (hb.i2 r c hr2 hc2).2]
      by_cases hcell : r = row ∧ c = col
      · simp [hcell]
      · have : ¬(c = col ∧ r = row) := fun h2 => hcell ⟨h2.2, h2.1⟩
        simp [hcell, this]

/-- `set_defaultCore` (touching only the given overlay) preserves the
board invariants, for in-range cells. -/
theorem inv_set_defaultCore (b : Binox) (row col : Nat) (v : Bool) (hb : b.Inv)
    (hr : row < b.size) (hc : col < b.size) : (b.set_defaultCore row col v).Inv := by
  have hn := hb.ub
  refine ⟨hb.lb, hb.ub, hb.even, hb.xr, hb.orr, hb.xc, hb.oc, ?_, hb.i1, hb.i2⟩
  show RowsInv (modifyAt b.default_rows row _) b.size
  cases v
  · exact rowsInv_modify_zero _ _ _ _ hb.dr hn
  · exact rowsInv_modify_one _ _ _ _ hb.dr hn hr hc

/-- Reading a replicated list. -/
theorem getRow_replicate (n : Nat) (a : BinRow) (i : Nat) (h : i < n) :
    getRow (List.replicate n a) i = a := by
  simp [getRow, List.getD_eq_getElem?_getD, List.getElem?_replicate, h]

/-- A freshly constructed board satisfies the board invariants. -/
theorem inv_new {s : Nat} {b : Binox} (h : Binox.new s = .ok b) : b.Inv := by
  unfold Binox.new at h
  split at h
  · exact absurd h (by simp)
  · split at h
    · exact absurd h (by simp)
    · split at h
      · exact absurd h (by simp)
      · rename_i h1 h2 h3
        push_neg at h1 h2
        have h3' : s % 2 ≠ 1 := by simpa using h3
        injection h with h
        subst h
        have hrows : RowsInv (List.replicate s (⟨0, s, 0⟩ : BinRow)) s := by
          refine ⟨List.length_replicate s _, ?_⟩
          intro i hi
          rw [getRow_replicate s _ i hi]
          exact ⟨rfl, Nat.pos_pow_of_pos _ (by norm_num), popc16_zero.symm⟩
        refine ⟨show (4 : Nat) ≤ s by omega, show s ≤ 16 by omega,
          show s % 2 = 0 by omega, hrows, hrows, hrows, hrows, hrows, ?_, ?_⟩
        · intro r c hr2 hc2
          show ¬((getRow (List.replicate s (⟨0, s, 0⟩ : BinRow)) r).getCore c = true
            ∧ (getRow (List.replicate s (⟨0, s, 0⟩ : BinRow)) r).getCore c = true)
          rw [getRow_replicate s _ r hr2]
          simp [BinRow.getCore_eq]
        · intro r c hr2 hc2
          constructor
          · show (getRow (List.replicate s (⟨0, s, 0⟩ : BinRow)) r).getCore c
                = (getRow (List.replicate s (⟨0, s, 0⟩ : BinRow)) c).getCore r
            rw [getRow_replicate s _ r hr2, getRow_replicate s _ c hc2]
            simp [BinRow.getCore_eq]
          · show (getRow (List.replicate s (⟨0, s, 0⟩ : BinRow)) r).getCore c
                = (getRow (List.replicate s (⟨0, s, 0⟩ : BinRow)) c).getCore r
            rw [getRow_replicate s _ r hr2, getRow_replicate s _ c hc2]
            simp [BinRow.getCore_eq]

/-- C6: each of the three cell mutators, when it succeeds on a board
satisfying the board invariants, yields a board still satisfying I1 and
I2. -/
theorem C6_mutators_preserve_I1_I2 (b b' : Binox) (row col : Nat) (hb : b.Inv)
    (h : b.set_x row col = .ok b' ∨ b.set_o row col = .ok b'
      ∨ b.set_empty row col = .ok b') :
    I1 b' ∧ I2 b' := by
  rcases h with h | h | h
  · unfold Binox.set_x at h
    split at h
    · exact absurd h (by simp)
    · rename_i hrange
      push_neg at hrange
      injection h with h
      subst h
      have := inv_set_xCore b row col hb hrange.1 hrange.2
      exact ⟨this.i1, this.i2⟩
  · unfold Binox.set_o at h
    split at h
    · exact absurd h (by simp)
    · rename_i hrange
      push_neg at hrange
      injection h with h
      subst h
      have := inv_set_oCore b row col hb hrange.1 hrange.2
      exact ⟨this.i1, this.i2⟩
  · unfold Binox.set_empty at h
    split at h
    · exact absurd h (by simp)
    · injection h with h
      subst h
      have := inv_set_emptyCore b row col hb
      exact ⟨this.i1, this.i2⟩

/-- C6 witness: `set_x(0, 0)` on the fresh 4×4 board. -/
theorem C6_mutators_preserve_I1_I2_witness :
    base4.Inv ∧ (base4.set_x 0 0 = .ok (base4.set_xCore 0 0)
      ∨ base4.set_o 0 0 = .ok (base4.set_xCore 0 0)
      ∨ base4.set_empty 0 0 = .ok (base4.set_xCore 0 0))
    ∧ (I1 (base4.set_xCore 0 0) ∧ I2 (base4.set_xCore 0 0)) :=
  ⟨inv_new (s := 4) rfl, Or.inl rfl,
    C6_mutators_preserve_I1_I2 base4 (base4.set_xCore 0 0) 0 0
      (inv_new (s := 4) rfl) (Or.inl rfl)⟩

/-! ### Shared presolve structure lemmas -/

theorem size_presolveAux (cells : List (Nat × Nat)) (b : Binox) :
    (Binox.presolveAux b cells).2.size = b.size := by
  induction cells generalizing b with
  | nil => rfl
  | cons rc rest ih =>
    obtain ⟨r0, c0⟩ := rc
    rw [presolveAux_cons]
    by_cases hemp : b.get_cellCore r0 c0 = .EMPTY
    · rw [if_pos (by rw [hemp]; rfl)]
      cases hxv : (b.set_xCore r0 c0).is_valid <;>
        cases hov : ((b.set_xCore r0 c0).set_oCore r0 c0).is_valid
      · rfl
      · exact ih _
      · exact ih _
      · exact ih _
    · rw [if_neg (by simp [hemp])]
      exact ih b

theorem default_rows_presolveAux (cells : List (Nat × Nat)) (b : Binox) :
    (Binox.presolveAux b cells).2.default_rows = b.default_rows := by
  induction cells generalizing b with
  | nil => rfl
  | cons rc rest ih =>
    obtain ⟨r0, c0⟩ := rc
    rw [presolveAux_cons]
    by_cases hemp : b.get_cellCore r0 c0 = .EMPTY
    · rw [if_pos (by rw [hemp]; rfl)]
      cases hxv : (b.set_xCore r0 c0).is_valid <;>
        cases hov : ((b.set_xCore r0 c0).set_oCore r0 c0).is_valid
      · rfl
      · exact ih _
      · exact ih _
      · exact ih _
    · rw [if_neg (by simp [hemp])]
      exact ih b

/-- The presolve sweep preserves the board invariants when every visited
cell is in range. -/
theorem inv_presolveAux (cells : List (Nat × Nat)) (b : Binox) (hb : b.Inv)
    (hcells : ∀ rc ∈ cells, rc.1 < b.size ∧ rc.2 < b.size) :
    (Binox.presolveAux b cells).2.Inv := by
  induction cells generalizing b with
  | nil => exact hb
  | cons rc rest ih =>
    obtain ⟨r0, c0⟩ := rc
    obtain ⟨hr0, hc0⟩ := hcells (r0, c0) (by simp)
    have hrest : ∀ x ∈ rest, x.1 < b.size ∧ x.2 < b.size :=
      fun x hx => hcells x (by simp [hx])
    rw [presolveAux_cons]
    have hbx := inv_set_xCore b r0 c0 hb hr0 hc0
    have hbo := inv_set_oCore _ r0 c0 hbx hr0 hc0
    by_cases hemp : b.get_cellCore r0 c0 = .EMPTY
    · rw [if_pos (by rw [hemp]; rfl)]
      cases hxv : (b.set_xCore r0 c0).is_valid <;>
        cases hov : ((b.set_xCore r0 c0).set_oCore r0 c0).is_valid
      · exact inv_set_emptyCore _ r0 c0 hbo
      · exact ih _ (inv_set_oCore _ r0 c0 hbo hr0 hc0) hrest
      · exact ih _ (inv_set_xCore _ r0 c0 hbo hr0 hc0) hrest
      · exact ih _ (inv_set_emptyCore _ r0 c0 hbo) hrest
    · rw [if_neg (by simp [hemp])]
      exact ih b hb hrest

/-- The full presolve sweep preserves the board invariants. -/
theorem inv_presolve (b : Binox) (hb : b.Inv) : (b.presolve).2.Inv := by
  apply inv_presolveAux _ _ hb
  intro rc hrc
  exact mem_sweepOrder hrc

/-! ### Claim C7: decoding machinery -/

/-- Unfolding the character loop one step, through `decodeChar`. -/
theorem fromStringAux_cons (bw : Binox) (size : Nat) (c : Char) (rest : List Char)
    (i j : Nat) :
    fromStringAux bw size (c :: rest) i j
      = (if (if i + 1 ≥ size then (0, j + 1) else (i + 1, j) : Nat × Nat).2 ≥ size
          then decodeChar bw c j i
          else fromStringAux (decodeChar bw c j i) size rest
            (if i + 1 ≥ size then ((0, j + 1) : Nat × Nat) else (i + 1, j)).1
            (if i + 1 ≥ size then ((0, j + 1) : Nat × Nat) else (i + 1, j)).2) := rfl

/-- Setting the given flag: effect on the given overlay. -/
theorem is_defaultCore_set_defaultCore_true (b : Binox) (row col r c : Nat)
    (hrow : row < b.default_rows.length) :
    (b.set_defaultCore row col true).is_defaultCore r c
      = (b.is_defaultCore r c || decide (r = row ∧ c = col)) := by
  show (getRow (modifyAt b.default_rows row fun r => r.set_oneCore col) r).getCore c = _
  rw [getCore_modify_one _ _ _ _ _ hrow]
  rfl

theorem decodeChar_x (w : Binox) (j i : Nat) : decodeChar w 'x' j i = w.set_xCore j i := rfl

theorem decodeChar_X (w : Binox) (j i : Nat) :
    decodeChar w 'X' j i = (w.set_xCore j i).set_defaultCore j i true := rfl

theorem decodeChar_o (w : Binox) (j i : Nat) : decodeChar w 'o' j i = w.set_oCore j i := rfl

theorem decodeChar_O (w : Binox) (j i : Nat) :
    decodeChar w 'O' j i = (w.set_oCore j i).set_defaultCore j i true := rfl

theorem decodeChar_dot (w : Binox) (j i : Nat) : decodeChar w '.' j i = w := rfl

theorem cellChar_X_false (b : Binox) (j i : Nat) (hc : b.get_cellCore j i = .X)
    (hd : b.is_defaultCore j i = false) : b.cellChar j i = 'x' := by
  unfold Binox.cellChar
  rw [hc, hd]
  rfl

theorem cellChar_X_true (b : Binox) (j i : Nat) (hc : b.get_cellCore j i = .X)
    (hd : b.is_defaultCore j i = true) : b.cellChar j i = 'X' := by
  unfold Binox.cellChar
  rw [hc, hd]
  rfl

theorem cellChar_O_false (b : Binox) (j i : Nat) (hc : b.get_cellCore j i = .O)
    (hd : b.is_defaultCore j i = false) : b.cellChar j i = 'o' := by
  unfold Binox.cellChar
  rw [hc, hd]
  rfl

theorem cellChar_O_true (b : Binox) (j i : Nat) (hc : b.get_cellCore j i = .O)
    (hd : b.is_defaultCore j i = true) : b.cellChar j i = 'O' := by
  unfold Binox.cellChar
  rw [hc, hd]
  rfl

theorem cellChar_EMPTY (b : Binox) (j i : Nat) (hc : b.get_cellCore j i = .EMPTY) :
    b.cellChar j i = '.' := by
  unfold Binox.cellChar
  rw [hc]
  rfl

/-- Collected effect of `decodeChar` on a clean working cell: it copies
`b`'s cell and given flag at (j, i) and touches nothing else. -/
theorem decodeChar_spec (b w : Binox) (n j i : Nat) (_hb : b.Inv)
    (hd : DefaultsNonEmpty b) (hw : w.Inv) (hszw : w.size = n) (hszb : b.size = n)
    (hj : j < n) (hi : i < n) (hn16 : n ≤ 16)
    (hwc : w.get_cellCore j i = .EMPTY) (hwd : w.is_defaultCore j i = false) :
    (decodeChar w (b.cellChar j i) j i).Inv
    ∧ (decodeChar w (b.cellChar j i) j i).size = n
    ∧ (decodeChar w (b.cellChar j i) j i).get_cellCore j i = b.get_cellCore j i
    ∧ (decodeChar w (b.cellChar j i) j i).is_defaultCore j i = b.is_defaultCore j i
    ∧ ∀ r c, ¬(r = j ∧ c = i) → c < 16 →
        (decodeChar w (b.cellChar j i) j i).get_cellCore r c = w.get_cellCore r c
        ∧ (decodeChar w (b.cellChar j i) j i).is_defaultCore r c
          = w.is_defaultCore r c := by
  have hj' : j < w.size := by omega
  have hi' : i < w.size := by omega
  have hi16 : i < 16 := by omega
  have hlx : j < w.x_rows.length := by rw [hw.xr.1]; omega
  have hlo : j < w.o_rows.length := by rw [hw.orr.1]; omega
  have hldx : j < (w.set_xCore j i).default_rows.length := by
    rw [default_rows_set_xCore, hw.dr.1]; omega
  have hldo : j < (w.set_oCore j i).default_rows.length := by
    rw [default_rows_set_oCore, hw.dr.1]; omega
  cases hcell : b.get_cellCore j i <;> cases hdef : b.is_defaultCore j i
  · rw [cellChar_X_false b j i hcell hdef, decodeChar_x]
    refine ⟨inv_set_xCore w j i hw hj' hi', by rw [size_set_xCore, hszw], ?_, ?_, ?_⟩
    · rw [get_cellCore_set_xCore _ _ _ _ _ hlx hi16]
      simp
    · rw [is_defaultCore_set_xCore, hwd]
    · intro r c hne hc16
      exact ⟨get_cellCore_set_xCore_ne _ _ _ _ _ hne hc16, rfl⟩
  · rw [cellChar_X_true b j i hcell hdef, decodeChar_X]
    refine ⟨inv_set_defaultCore _ j i true (inv_set_xCore w j i hw hj' hi')
        (by rw [size_set_xCore]; exact hj') (by rw [size_set_xCore]; exact hi'),
      by rw [size_set_defaultCore, size_set_xCore, hszw], ?_, ?_, ?_⟩
    · rw [get_cellCore_set_defaultCore, get_cellCore_set_xCore _ _ _ _ _ hlx hi16]
      simp
    · rw [is_defaultCore_set_defaultCore_true _ _ _ _ _ hldx]
      simp
    · intro r c hne hc16
      refine ⟨?_, ?_⟩
      · rw [get_cellCore_set_defaultCore, get_cellCore_set_xCore_ne _ _ _ _ _ hne hc16]
      · rw [is_defaultCore_set_defaultCore_true _ _ _ _ _ hldx, is_defaultCore_set_xCore]
        simp [hne]
  · rw [cellChar_O_false b j i hcell hdef, decodeChar_o]
    refine ⟨inv_set_oCore w j i hw hj' hi', by rw [size_set_oCore, hszw], ?_, ?_, ?_⟩
    · rw [get_cellCore_set_oCore _ _ _ _ _ hlo hi16]
      simp
    · rw [is_defaultCore_set_oCore, hwd]
    · intro r c hne hc16
      exact ⟨get_cellCore_set_oCore_ne _ _ _ _ _ hne hc16, rfl⟩
  · rw [cellChar_O_true b j i hcell hdef, decodeChar_O]
    refine ⟨inv_set_defaultCore _ j i true (inv_set_oCore w j i hw hj' hi')
        (by rw [size_set_oCore]; exact hj') (by rw [size_set_oCore]; exact hi'),
      by rw [size_set_defaultCore, size_set_oCore, hszw], ?_, ?_, ?_⟩
    · rw [get_cellCore_set_defaultCore, get_cellCore_set_oCore _ _ _ _ _ hlo hi16]
      simp
    · rw [is_defaultCore_set_defaultCore_true _ _ _ _ _ hldo]
      simp
    · intro r c hne hc16
      refine ⟨?_, ?_⟩
      · rw [get_cellCore_set_defaultCore, get_cellCore_set_oCore_ne _ _ _ _ _ hne hc16]
      · rw [is_defaultCore_set_defaultCore_true _ _ _ _ _ hldo, is_defaultCore_set_oCore]
        simp [hne]
  · rw [cellChar_EMPTY b j i hcell, decodeChar_dot]
    exact ⟨hw, hszw, by rw [hwc], by rw [hwd], fun r c _ _ => ⟨rfl, rfl⟩⟩
  · exact absurd hcell (hd j i (by omega) (by omega) hdef)

theorem rowsFoldFrom_cons (n j : Nat) (hj : j < n) :
    rowsFoldFrom n j = ((List.range n).map fun c => (j, c)) ++ rowsFoldFrom n (j + 1) := by
  unfold rowsFoldFrom
  rw [List.drop_eq_getElem_cons (by simpa using hj), List.getElem_range]
  rfl

theorem rowsFoldFrom_nil (n j : Nat) (hj : ¬ j < n) : rowsFoldFrom n j = [] := by
  unfold rowsFoldFrom
  rw [List.drop_eq_nil_of_le (by simpa using Nat.le_of_not_lt hj)]
  rfl

theorem sweepFrom_mid (n j i : Nat) (hj : j < n) (hi : i < n) :
    sweepFrom n j i
      = (((List.range n).drop i).map fun c => (j, c)) ++ rowsFoldFrom n (j + 1) := by
  rw [sweepFrom, if_pos hj, if_pos hi]
  by_cases h1 : i + 1 < n
  · rw [if_pos h1, sweepFrom_mid n j (i + 1) hj h1,
      List.drop_eq_getElem_cons (show i < (List.range n).length by simpa using hi),
      List.getElem_range]
    rfl
  · rw [if_neg h1]
    have hdrop : (List.range n).drop i = [i] := by
      rw [List.drop_eq_getElem_cons (show i < (List.range n).length by simpa using hi),
        List.getElem_range, List.drop_eq_nil_of_le (by simp; omega)]
    rw [hdrop]
    by_cases h2 : j + 1 < n
    · rw [sweepFrom_mid n (j + 1) 0 h2 (by omega), List.drop_zero,
        rowsFoldFrom_cons n (j + 1) h2]
      rfl
    · rw [sweepFrom, if_neg h2, rowsFoldFrom_nil n (j + 1) h2]
      rfl
termination_by (n - j, n - i)
decreasing_by
  · apply Prod.Lex.right
    omega
  · apply Prod.Lex.left
    omega

theorem sweepOrder_eq_rowsFoldFrom (n : Nat) : sweepOrder n = rowsFoldFrom n 0 := by
  unfold sweepOrder rowsFoldFrom
  rw [List.drop_zero]

theorem sweepOrder_eq_sweepFrom (n : Nat) (hn : 0 < n) :
    sweepOrder n = sweepFrom n 0 0 := by
  rw [sweepOrder_eq_rowsFoldFrom, sweepFrom_mid n 0 0 hn hn, List.drop_zero,
    rowsFoldFrom_cons n 0 hn]

theorem cellAfter_mono_i {j i r c : Nat} (h : cellAfter j (i + 1) r c) :
    cellAfter j i r c := by
  rcases h with h | ⟨h1, h2⟩
  · exact Or.inl h
  · exact Or.inr ⟨h1, by omega⟩

theorem cellAfter_self (j i : Nat) : cellAfter j i j i := Or.inr ⟨rfl, le_refl i⟩

/-- The character loop, one step, with the position bookkeeping split into
the three possible continuations. -/
theorem fromStringAux_cons2 (bw : Binox) (size : Nat) (c : Char) (rest : List Char)
    (i j : Nat) :
    fromStringAux bw size (c :: rest) i j
      = if i + 1 ≥ size then
          (if j + 1 ≥ size then decodeChar bw c j i
           else fromStringAux (decodeChar bw c j i) size rest 0 (j + 1))
        else
          (if j ≥ size then decodeChar bw c j i
           else fromStringAux (decodeChar bw c j i) size rest (i + 1) j) := by
  rw [fromStringAux_cons]
  by_cases h : i + 1 ≥ size
  · simp only [if_pos h]
  · simp only [if_neg h]

/-- Decoding the row-major encoding of board `b` from position (j, i) into
a clean working board `w` copies `b`'s cells and given flags at every
position at or after (j, i) and leaves the rest of `w` untouched. -/
theorem decode_from (b w : Binox) (n j i : Nat) (hb : b.Inv)
    (hd : DefaultsNonEmpty b) (hszb : b.size = n) (hn16 : n ≤ 16)
    (hw : w.Inv) (hszw : w.size = n) (hj : j < n) (hi : i < n)
    (hclean : ∀ r c, r < n → c < n → cellAfter j i r c →
       w.get_cellCore r c = .EMPTY ∧ w.is_defaultCore r c = false) :
    ∀ r c, r < n → c < n →
      (cellAfter j i r c →
        (fromStringAux w n ((sweepFrom n j i).map fun rc => b.cellChar rc.1 rc.2) i j).get_cellCore r c
          = b.get_cellCore r c
        ∧ (fromStringAux w n ((sweepFrom n j i).map fun rc => b.cellChar rc.1 rc.2) i j).is_defaultCore r c
          = b.is_defaultCore r c)
      ∧ (¬cellAfter j i r c →
        (fromStringAux w n ((sweepFrom n j i).map fun rc => b.cellChar rc.1 rc.2) i j).get_cellCore r c
          = w.get_cellCore r c
        ∧ (fromStringAux w n ((sweepFrom n j i).map fun rc => b.cellChar rc.1 rc.2) i j).is_defaultCore r c
          = w.is_defaultCore r c) := by
  obtain ⟨hwInv, hwSz, hwCell, hwDef, hwOther⟩ :=
    decodeChar_spec b w n j i hb hd hw hszw hszb hj hi hn16
      (hclean j i hj hi (cellAfter_self j i)).1
      (hclean j i hj hi (cellAfter_self j i)).2
  rw [sweepFrom, if_pos hj, if_pos hi]
  by_cases h1 : i + 1 < n
  · rw [if_pos h1, List.map_cons, fromStringAux_cons2,
      if_neg (show ¬(i + 1 ≥ n) by omega), if_neg (show ¬(j ≥ n) by omega)]
    intro r c hr hc
    have hres := decode_from b (decodeChar w (b.cellChar j i) j i) n j (i + 1) hb hd
      hszb hn16 hwInv hwSz hj h1
      (by
        intro r2 c2 hr2 hc2 haft
        have hne : ¬(r2 = j ∧ c2 = i) := by
          rintro ⟨rfl, rfl⟩
          rcases haft with h | ⟨-, h⟩
          · omega
          · omega
        obtain ⟨he, hdf⟩ := hwOther r2 c2 hne (by omega)
        rw [he, hdf]
        exact hclean r2 c2 hr2 hc2 (cellAfter_mono_i haft))
      r c hr hc
    constructor
    · intro haft
      by_cases hself : r = j ∧ c = i
      · obtain ⟨rfl, rfl⟩ := hself
        have hnot : ¬ cellAfter r (c + 1) r c := by
          rintro (h | ⟨-, h⟩)
          · omega
          · omega
        obtain ⟨h3, h4⟩ := hres.2 hnot
        exact ⟨by rw [h3, hwCell], by rw [h4, hwDef]⟩
      · have haft2 : cellAfter j (i + 1) r c := by
          rcases haft with h | ⟨h2, h3⟩
          · exact Or.inl h
          · refine Or.inr ⟨h2, ?_⟩
            rcases Nat.lt_or_ge c (i + 1) with h4 | h4
            · exact absurd ⟨h2.symm, by omega⟩ hself
            · omega
        exact hres.1 haft2
    · intro hnaft
      have hnaft2 : ¬ cellAfter j (i + 1) r c := fun h => hnaft (cellAfter_mono_i h)
      have hne : ¬(r = j ∧ c = i) := by
        rintro ⟨h7, h8⟩
        exact hnaft (Or.inr ⟨h7.symm, by omega⟩)
      obtain ⟨h3, h4⟩ := hres.2 hnaft2
      obtain ⟨h5, h6⟩ := hwOther r c hne (by omega)
      exact ⟨by rw [h3, h5], by rw [h4, h6]⟩
  · rw [if_neg h1]
    by_cases h2 : j + 1 < n
    · rw [List.map_cons, fromStringAux_cons2,
        if_pos (show i + 1 ≥ n by omega), if_neg (show ¬(j + 1 ≥ n) by omega)]
      intro r c hr hc
      have hres := decode_from b (decodeChar w (b.cellChar j i) j i) n (j + 1) 0 hb hd
        hszb hn16 hwInv hwSz h2 (by omega)
        (by
          intro r2 c2 hr2 hc2 haft
          have hne : ¬(r2 = j ∧ c2 = i) := by
            rintro ⟨rfl, rfl⟩
            rcases haft with h | ⟨h, -⟩
            · omega
            · omega
          obtain ⟨he, hdf⟩ := hwOther r2 c2 hne (by omega)
          rw [he, hdf]
          refine hclean r2 c2 hr2 hc2 ?_
          rcases haft with h | ⟨h, -⟩
          · exact Or.inl (by omega)
          · exact Or.inl (by omega))
        r c hr hc
      constructor
      · intro haft
        by_cases hself : r = j ∧ c = i
        · obtain ⟨rfl, rfl⟩ := hself
          have hnot : ¬ cellAfter (r + 1) 0 r c := by
            rintro (h | ⟨h, -⟩)
            · omega
            · omega
          obtain ⟨h3, h4⟩ := hres.2 hnot
          exact ⟨by rw [h3, hwCell], by rw [h4, hwDef]⟩
        · have haft2 : cellAfter (j + 1) 0 r c := by
            rcases haft with h | ⟨h3, h4⟩
            · rcases Nat.lt_or_ge (j + 1) r with h5 | h5
              · exact Or.inl h5
              · exact Or.inr ⟨by omega, by omega⟩
            · exfalso
              exact hself ⟨h3.symm, by omega⟩
          exact hres.1 haft2
      · intro hnaft
        have hnaft2 : ¬ cellAfter (j + 1) 0 r c := by
          rintro (h | ⟨h, -⟩)
          · exact hnaft (Or.inl (by omega))
          · exact hnaft (Or.inl (by omega))
        have hne : ¬(r = j ∧ c = i) := by
          rintro ⟨h7, h8⟩
          exact hnaft (Or.inr ⟨h7.symm, by omega⟩)
        obtain ⟨h3, h4⟩ := hres.2 hnaft2
        obtain ⟨h5, h6⟩ := hwOther r c hne (by omega)
        exact ⟨by rw [h3, h5], by rw [h4, h6]⟩
    · rw [List.map_cons, fromStringAux_cons2,
        if_pos (show i + 1 ≥ n by omega), if_pos (show j + 1 ≥ n by omega)]
      intro r c hr hc
      constructor
      · intro haft
        have hself : r = j ∧ c = i := by
          rcases haft with h | ⟨h3, h4⟩
          · omega
          · exact ⟨h3.symm, by omega⟩
        obtain ⟨rfl, rfl⟩ := hself
        exact ⟨hwCell, hwDef⟩
      · intro hnaft
        have hne : ¬(r = j ∧ c = i) := by
          rintro ⟨h7, h8⟩
          exact hnaft (Or.inr ⟨h7.symm, by omega⟩)
        exact hwOther r c hne (by omega)
termination_by (n - j, n - i)
decreasing_by
  · apply Prod.Lex.right
    omega
  · apply Prod.Lex.left
    omega

theorem as_string_eq (b : Binox) :
    b.as_string = (sweepOrder b.size).map fun rc => b.cellChar rc.1 rc.2 := by
  have main : ∀ l : List Nat,
      ((l.foldr (fun r acc => ((List.range b.size).map fun c => (r, c)) ++ acc) []).map
          fun rc => b.cellChar rc.1 rc.2)
        = l.foldr
            (fun row acc => ((List.range b.size).map fun col => b.cellChar row col) ++ acc)
            [] := by
    intro l
    induction l with
    | nil => rfl
    | cons a t ih =>
      simp only [List.foldr_cons, List.map_append, List.map_map, ih]
      rfl
  unfold Binox.as_string sweepOrder
  exact (main (List.range b.size)).symm

theorem sweepOrder_length (n : Nat) : (sweepOrder n).length = n * n := by
  have main : ∀ l : List Nat,
      (l.foldr (fun r acc => ((List.range n).map fun c => (r, c)) ++ acc) []).length
        = l.length * n := by
    intro l
    induction l with
    | nil => simp
    | cons a t ih =>
      simp only [List.foldr_cons, List.length_append, List.length_map,
        List.length_range, ih, List.length_cons]
      ring
  unfold sweepOrder
  rw [main (List.range n), List.length_range]

theorem new_ok (n : Nat) (h4 : 4 ≤ n) (h16 : n ≤ 16) (hev : n % 2 = 0) :
    Binox.new n = .ok ⟨n, List.replicate n ⟨0, n, 0⟩, List.replicate n ⟨0, n, 0⟩,
      List.replicate n ⟨0, n, 0⟩, List.replicate n ⟨0, n, 0⟩,
      List.replicate n ⟨0, n, 0⟩⟩ := by
  unfold Binox.new
  rw [if_neg (by omega), if_neg (by omega),
    if_neg (show ¬((n % 2 == 1) = true) by simp only [beq_iff_eq]; omega)]

theorem fresh_dne (n : Nat) :
    DefaultsNonEmpty ⟨n, List.replicate n ⟨0, n, 0⟩, List.replicate n ⟨0, n, 0⟩,
      List.replicate n ⟨0, n, 0⟩, List.replicate n ⟨0, n, 0⟩,
      List.replicate n ⟨0, n, 0⟩⟩ := by
  intro r c hr hc hdef
  exfalso
  revert hdef
  show ¬((getRow (List.replicate n (⟨0, n, 0⟩ : BinRow)) r).getCore c = true)
  rw [getRow_replicate n _ r hr]
  simp [BinRow.getCore_eq]

/-- `set_xCore` keeps the given-implies-non-Empty property. -/
theorem dne_set_xCore (bw : Binox) (j i : Nat) (hw : bw.Inv) (hd : DefaultsNonEmpty bw)
    (hj : j < bw.size) (hi : i < bw.size) : DefaultsNonEmpty (bw.set_xCore j i) := by
  intro r c hr hc hdef
  have hszr : r < bw.size := hr
  have hszc : c < bw.size := hc
  have h16 := hw.ub
  rw [is_defaultCore_set_xCore] at hdef
  by_cases hcell : r = j ∧ c = i
  · obtain ⟨rfl, rfl⟩ := hcell
    rw [get_cellCore_set_xCore _ _ _ _ _ (by rw [hw.xr.1]; exact hj)
      (by omega : c < 16), if_pos ⟨rfl, rfl⟩]
    simp
  · rw [get_cellCore_set_xCore_ne _ _ _ _ _ hcell (by omega : c < 16)]
    exact hd r c hr hc hdef

/-- `set_oCore` keeps the given-implies-non-Empty property. -/
theorem dne_set_oCore (bw : Binox) (j i : Nat) (hw : bw.Inv) (hd : DefaultsNonEmpty bw)
    (hj : j < bw.size) (hi : i < bw.size) : DefaultsNonEmpty (bw.set_oCore j i) := by
  intro r c hr hc hdef
  have hszr : r < bw.size := hr
  have hszc : c < bw.size := hc
  have h16 := hw.ub
  rw [is_defaultCore_set_oCore] at hdef
  by_cases hcell : r = j ∧ c = i
  · obtain ⟨rfl, rfl⟩ := hcell
    rw [get_cellCore_set_oCore _ _ _ _ _ (by rw [hw.orr.1]; exact hj)
      (by omega : c < 16), if_pos ⟨rfl, rfl⟩]
    simp
  · rw [get_cellCore_set_oCore_ne _ _ _ _ _ hcell (by omega : c < 16)]
    exact hd r c hr hc hdef

/-- `set_emptyCore` on a non-given cell keeps the given-implies-non-Empty
property. -/
theorem dne_set_emptyCore (bw : Binox) (j i : Nat) (hw : bw.Inv)
    (hd : DefaultsNonEmpty bw) (hdef0 : bw.is_defaultCore j i = false) :
    DefaultsNonEmpty (bw.set_emptyCore j i) := by
  intro r c hr hc hdef
  have hszr : r < bw.size := hr
  have hszc : c < bw.size := hc
  have h16 := hw.ub
  rw [is_defaultCore_set_emptyCore] at hdef
  by_cases hcell : r = j ∧ c = i
  · obtain ⟨rfl, rfl⟩ := hcell
    rw [hdef0] at hdef
    exact absurd hdef (by simp)
  · rw [get_cellCore_set_emptyCore_ne _ _ _ _ _ hcell (by omega : c < 16)]
    exact hd r c hr hc hdef

/-- Marking a non-Empty cell as given keeps the given-implies-non-Empty
property. -/
theorem dne_set_default_true (bw : Binox) (j i : Nat) (hw : bw.Inv)
    (hd : DefaultsNonEmpty bw) (hj : j < bw.size)
    (hcell0 : bw.get_cellCore j i ≠ .EMPTY) :
    DefaultsNonEmpty (bw.set_defaultCore j i true) := by
  intro r c hr hc hdef
  have hszr : r < bw.size := hr
  have hszc : c < bw.size := hc
  have h16 := hw.ub
  rw [get_cellCore_set_defaultCore]
  rw [is_defaultCore_set_defaultCore_true _ _ _ _ _ (by rw [hw.dr.1]; exact hj)] at hdef
  rcases Bool.or_eq_true_iff.mp hdef with hdef | hdef
  · exact hd r c hr hc hdef
  · obtain ⟨rfl, rfl⟩ := of_decide_eq_true hdef
    exact hcell0

/-- `decodeChar` preserves the board invariants, the given-implies-non-Empty
property and the size, for any character. -/
theorem decodeChar_inv (bw : Binox) (c : Char) (j i : Nat) (hw : bw.Inv)
    (hd : DefaultsNonEmpty bw) (hj : j < bw.size) (hi : i < bw.size) :
    (decodeChar bw c j i).Inv ∧ DefaultsNonEmpty (decodeChar bw c j i)
    ∧ (decodeChar bw c j i).size = bw.size := by
  unfold decodeChar
  split
  · exact ⟨inv_set_xCore bw j i hw hj hi, dne_set_xCore bw j i hw hd hj hi, rfl⟩
  · refine ⟨inv_set_defaultCore _ j i true (inv_set_xCore bw j i hw hj hi) hj hi,
      ?_, rfl⟩
    apply dne_set_default_true _ j i (inv_set_xCore bw j i hw hj hi)
      (dne_set_xCore bw j i hw hd hj hi) hj
    rw [get_cellCore_set_xCore _ _ _ _ _ (by rw [hw.xr.1]; exact hj)
      (show i < 16 by have := hw.ub; omega), if_pos ⟨rfl, rfl⟩]
    simp
  · exact ⟨inv_set_oCore bw j i hw hj hi, dne_set_oCore bw j i hw hd hj hi, rfl⟩
  · refine ⟨inv_set_defaultCore _ j i true (inv_set_oCore bw j i hw hj hi) hj hi,
      ?_, rfl⟩
    apply dne_set_default_true _ j i (inv_set_oCore bw j i hw hj hi)
      (dne_set_oCore bw j i hw hd hj hi) hj
    rw [get_cellCore_set_oCore _ _ _ _ _ (by rw [hw.orr.1]; exact hj)
      (show i < 16 by have := hw.ub; omega), if_pos ⟨rfl, rfl⟩]
    simp
  · exact ⟨hw, hd, rfl⟩

/-- The character loop preserves the board invariants, the
given-implies-non-Empty property and the size. -/
theorem fromStringAux_inv (s : List Char) : ∀ (bw : Binox) (i j : Nat),
    bw.Inv → DefaultsNonEmpty bw → i < bw.size → j < bw.size →
    (fromStringAux bw bw.size s i j).Inv
    ∧ DefaultsNonEmpty (fromStringAux bw bw.size s i j)
    ∧ (fromStringAux bw bw.size s i j).size = bw.size := by
  induction s with
  | nil => exact fun bw i j hw hd hi hj => ⟨hw, hd, rfl⟩
  | cons c rest ih =>
    intro bw i j hw hd hi hj
    obtain ⟨hw2, hd2, hsz2⟩ := decodeChar_inv bw c j i hw hd hj hi
    rw [fromStringAux_cons2]
    by_cases h1 : i + 1 ≥ bw.size
    · rw [if_pos h1]
      by_cases h2 : j + 1 ≥ bw.size
      · rw [if_pos h2]
        exact ⟨hw2, hd2, hsz2⟩
      · rw [if_neg h2]
        have := ih (decodeChar bw c j i) 0 (j + 1) hw2 hd2
          (by rw [hsz2]; omega) (by rw [hsz2]; omega)
        rw [hsz2] at this
        exact ⟨this.1, this.2.1, this.2.2⟩
    · rw [if_neg h1, if_neg (show ¬(j ≥ bw.size) by omega)]
      have := ih (decodeChar bw c j i) (i + 1) j hw2 hd2
        (by rw [hsz2]; omega) (by rw [hsz2]; omega)
      rw [hsz2] at this
      exact ⟨this.1, this.2.1, this.2.2⟩

/-- Decoding any string yields a board satisfying the invariants. -/
theorem new_from_string_inv (s : List Char) :
    (Binox.new_from_string s).Inv ∧ DefaultsNonEmpty (Binox.new_from_string s) := by
  simp only [Binox.new_from_string]
  set n0 := Nat.sqrt s.length % 256 with hn0
  set n1 := (if n0 < 4 then 4 else n0 : Nat) with hn1
  set n2 := (if n1 > 16 then 16 else n1 : Nat) with hn2
  set n3 := (if n2 % 2 == 1 then n2 + 1 else n2 : Nat) with hn3
  have h1 : 4 ≤ n1 := by rw [hn1]; split <;> omega
  have h2 : 4 ≤ n2 ∧ n2 ≤ 16 := by rw [hn2]; constructor <;> (split <;> omega)
  have h3 : 4 ≤ n3 ∧ n3 ≤ 16 ∧ n3 % 2 = 0 := by
    rw [hn3]
    split
    · rename_i hodd
      rw [beq_iff_eq] at hodd
      exact ⟨by omega, by omega, by omega⟩
    · rename_i heven
      rw [beq_iff_eq] at heven
      exact ⟨by omega, by omega, by omega⟩
  rw [new_ok n3 h3.1 h3.2.1 h3.2.2]
  have hfresh : Binox.new n3 = .ok ⟨n3, List.replicate n3 ⟨0, n3, 0⟩,
      List.replicate n3 ⟨0, n3, 0⟩, List.replicate n3 ⟨0, n3, 0⟩,
      List.replicate n3 ⟨0, n3, 0⟩, List.replicate n3 ⟨0, n3, 0⟩⟩ :=
    new_ok n3 h3.1 h3.2.1 h3.2.2
  have hInv := inv_new hfresh
  have hres := fromStringAux_inv s
    ⟨n3, List.replicate n3 ⟨0, n3, 0⟩, List.replicate n3 ⟨0, n3, 0⟩,
      List.replicate n3 ⟨0, n3, 0⟩, List.replicate n3 ⟨0, n3, 0⟩,
      List.replicate n3 ⟨0, n3, 0⟩⟩ 0 0 hInv (fresh_dne n3)
    (show (0 : Nat) < n3 by omega) (show (0 : Nat) < n3 by omega)
  exact ⟨hres.1, hres.2.1⟩

/-- `is_defaultCore` is untouched by a presolve sweep. -/
theorem is_defaultCore_presolve (b : Binox) (r c : Nat) :
    (b.presolve).2.is_defaultCore r c = b.is_defaultCore r c := by
  unfold Binox.is_defaultCore
  rw [show (b.presolve).2.default_rows = b.default_rows from
    default_rows_presolveAux (sweepOrder b.size) b]

/-- The `reset` fold preserves the invariants and DNE. -/
theorem reset_fold_inv (l : List (Nat × Nat)) : ∀ (bw : Binox),
    bw.Inv → DefaultsNonEmpty bw →
    (l.foldl (fun b rc => if b.is_defaultCore rc.1 rc.2 then b
       else b.set_emptyCore rc.1 rc.2) bw).Inv
    ∧ DefaultsNonEmpty (l.foldl (fun b rc => if b.is_defaultCore rc.1 rc.2 then b
       else b.set_emptyCore rc.1 rc.2) bw)
    ∧ (l.foldl (fun b rc => if b.is_defaultCore rc.1 rc.2 then b
       else b.set_emptyCore rc.1 rc.2) bw).size = bw.size := by
  induction l with
  | nil => exact fun bw hw hd => ⟨hw, hd, rfl⟩
  | cons rc rest ih =>
    intro bw hw hd
    rw [List.foldl_cons]
    by_cases hdef : bw.is_defaultCore rc.1 rc.2
    · rw [if_pos hdef]
      exact ih bw hw hd
    · rw [if_neg hdef]
      have hw2 := inv_set_emptyCore bw rc.1 rc.2 hw
      have hd2 := dne_set_emptyCore bw rc.1 rc.2 hw hd (by simpa using hdef)
      have := ih _ hw2 hd2
      exact ⟨this.1, this.2.1, this.2.2⟩

/-- Every board reachable through the public API satisfies the board
invariants and the given-implies-non-Empty property. -/
theorem reachable_inv (b : Binox) (h : b.Reachable) :
    b.Inv ∧ DefaultsNonEmpty b := by
  induction h with
  | new hok =>
    rename_i s b0
    refine ⟨inv_new hok, ?_⟩
    unfold Binox.new at hok
    split at hok
    · exact absurd hok (by simp)
    · split at hok
      · exact absurd hok (by simp)
      · split at hok
        · exact absurd hok (by simp)
        · injection hok with hok
          subst hok
          exact fresh_dne s
  | ofString s => exact new_from_string_inv s
  | set_cell _ heq ih =>
    rename_i b0 b1 r c v _
    obtain ⟨hw, hd⟩ := ih
    unfold Binox.set_cell at heq
    split at heq
    · exact absurd heq (by simp)
    · split at heq
      · exact absurd heq (by simp)
      · rename_i hrange hdef
        push_neg at hrange
        cases v
        · unfold Binox.set_x at heq
          rw [if_neg (by push_neg; exact hrange)] at heq
          injection heq with heq
          subst heq
          exact ⟨inv_set_xCore b0 r c hw hrange.1 hrange.2,
            dne_set_xCore b0 r c hw hd hrange.1 hrange.2⟩
        · unfold Binox.set_o at heq
          rw [if_neg (by push_neg; exact hrange)] at heq
          injection heq with heq
          subst heq
          exact ⟨inv_set_oCore b0 r c hw hrange.1 hrange.2,
            dne_set_oCore b0 r c hw hd hrange.1 hrange.2⟩
        · unfold Binox.set_empty at heq
          rw [if_neg (by push_neg; exact hrange)] at heq
          injection heq with heq
          subst heq
          exact ⟨inv_set_emptyCore b0 r c hw,
            dne_set_emptyCore b0 r c hw hd (by simpa using hdef)⟩
  | reset _ ih =>
    rename_i b0 _
    obtain ⟨hw, hd⟩ := ih
    have := reset_fold_inv (sweepOrder b0.size) b0 hw hd
    exact ⟨this.1, this.2.1⟩
  | presolve _ ih =>
    rename_i b0 _
    obtain ⟨hw, hd⟩ := ih
    refine ⟨inv_presolve b0 hw, ?_⟩
    intro r c hr hc hdef
    have hsz : (b0.presolve).2.size = b0.size := size_presolveAux _ b0
    rw [is_defaultCore_presolve] at hdef
    have hr' : r < b0.size := by rw [← hsz]; exact hr
    have hc' : c < b0.size := by rw [← hsz]; exact hc
    have hne := hd r c hr' hc' hdef
    rw [show (b0.presolve).2 = (Binox.presolveAux b0 (sweepOrder b0.size)).2 from rfl,
      presolveAux_preserves_nonempty (sweepOrder b0.size) b0 r c
        (by have := hw.ub; omega) hne]
    exact hne

/-- Fresh boards are entirely Empty with no given cells. -/
theorem fresh_clean (n : Nat) (r c : Nat) (hr : r < n) :
    (⟨n, List.replicate n ⟨0, n, 0⟩, List.replicate n ⟨0, n, 0⟩,
      List.replicate n ⟨0, n, 0⟩, List.replicate n ⟨0, n, 0⟩,
      List.replicate n ⟨0, n, 0⟩⟩ : Binox).get_cellCore r c = .EMPTY
    ∧ (⟨n, List.replicate n ⟨0, n, 0⟩, List.replicate n ⟨0, n, 0⟩,
      List.replicate n ⟨0, n, 0⟩, List.replicate n ⟨0, n, 0⟩,
      List.replicate n ⟨0, n, 0⟩⟩ : Binox).is_defaultCore r c = false := by
  constructor
  · rw [get_cellCore_eq]
    show (match (getRow (List.replicate n (⟨0, n, 0⟩ : BinRow)) r).getCore c,
      (getRow (List.replicate n (⟨0, n, 0⟩ : BinRow)) r).getCore c with
      | true, false => BinoxCell.X
      | false, true => BinoxCell.O
      | _, _ => BinoxCell.EMPTY) = BinoxCell.EMPTY
    rw [getRow_replicate n _ r hr]
    have : (⟨0, n, 0⟩ : BinRow).getCore c = false := by
      rw [BinRow.getCore_eq]
      exact Nat.zero_testBit c
    rw [this]
  · show (getRow (List.replicate n (⟨0, n, 0⟩ : BinRow)) r).getCore c = false
    rw [getRow_replicate n _ r hr, BinRow.getCore_eq]
    exact Nat.zero_testBit c

/-- Decoding the encoding of an invariant-satisfying board starts from the
fresh board of the same size. -/
theorem new_from_string_as_string (b : Binox) (hw : b.Inv) :
    Binox.new_from_string b.as_string
      = fromStringAux ⟨b.size, List.replicate b.size ⟨0, b.size, 0⟩,
          List.replicate b.size ⟨0, b.size, 0⟩, List.replicate b.size ⟨0, b.size, 0⟩,
          List.replicate b.size ⟨0, b.size, 0⟩, List.replicate b.size ⟨0, b.size, 0⟩⟩
          b.size b.as_string 0 0 := by
  have hlen : b.as_string.length = b.size * b.size := by
    rw [as_string_eq, List.length_map, sweepOrder_length]
  have h4 := hw.lb
  have h16 := hw.ub
  simp only [Binox.new_from_string]
  rw [hlen, Nat.sqrt_eq, Nat.mod_eq_of_lt (by omega : b.size < 256),
    if_neg (by omega : ¬ b.size < 4), if_neg (by omega : ¬ b.size > 16),
    if_neg (show ¬((b.size % 2 == 1) = true) by
      simp only [beq_iff_eq]
      have := hw.even
      omega),
    new_ok b.size h4 h16 hw.even]

/-- C7: for every board reachable through the public mutators, decoding
the string produced by `as_string` yields a board of the same size with
the same symbol and the same given flag at every cell. -/
theorem C7_roundtrip (b : Binox) (h : b.Reachable) :
    (Binox.new_from_string b.as_string).size = b.size
    ∧ ∀ r c, r < b.size → c < b.size →
        (Binox.new_from_string b.as_string).get_cellCore r c = b.get_cellCore r c
        ∧ (Binox.new_from_string b.as_string).is_defaultCore r c
          = b.is_defaultCore r c := by
  obtain ⟨hw, hd⟩ := reachable_inv b h
  have h4 := hw.lb
  have h16 := hw.ub
  have hfresh : Binox.new b.size = .ok ⟨b.size, List.replicate b.size ⟨0, b.size, 0⟩,
      List.replicate b.size ⟨0, b.size, 0⟩, List.replicate b.size ⟨0, b.size, 0⟩,
      List.replicate b.size ⟨0, b.size, 0⟩, List.replicate b.size ⟨0, b.size, 0⟩⟩ :=
    new_ok b.size h4 h16 hw.even
  have hwInv := inv_new hfresh
  have henc : b.as_string = (sweepFrom b.size 0 0).map fun rc => b.cellChar rc.1 rc.2 := by
    rw [as_string_eq, sweepOrder_eq_sweepFrom b.size (by omega)]
  have hmain := decode_from b
    ⟨b.size, List.replicate b.size ⟨0, b.size, 0⟩, List.replicate b.size ⟨0, b.size, 0⟩,
      List.replicate b.size ⟨0, b.size, 0⟩, List.replicate b.size ⟨0, b.size, 0⟩,
      List.replicate b.size ⟨0, b.size, 0⟩⟩ b.size 0 0 hw hd rfl h16 hwInv rfl
    (by omega) (by omega)
    (fun r c hr hc _ => fresh_clean b.size r c hr)
  have hrw := new_from_string_as_string b hw
  constructor
  · rw [hrw]
    have := fromStringAux_inv b.as_string
      ⟨b.size, List.replicate b.size ⟨0, b.size, 0⟩, List.replicate b.size ⟨0, b.size, 0⟩,
        List.replicate b.size ⟨0, b.size, 0⟩, List.replicate b.size ⟨0, b.size, 0⟩,
        List.replicate b.size ⟨0, b.size, 0⟩⟩ 0 0 hwInv (fresh_dne b.size)
      (show (0 : Nat) < b.size by omega) (show (0 : Nat) < b.size by omega)
    exact this.2.2
  · intro r c hr hc
    have haft : cellAfter 0 0 r c := by
      rcases Nat.eq_zero_or_pos r with h0 | h0
      · exact Or.inr ⟨h0.symm, Nat.zero_le c⟩
      · exact Or.inl h0
    have := (hmain r c hr hc).1 haft
    rw [hrw, henc]
    exact this

/-- C7 witness: the round trip on the fresh 4×4 board. -/
theorem C7_roundtrip_witness :
    Binox.Reachable base4
    ∧ ((Binox.new_from_string base4.as_string).size = base4.size
      ∧ ∀ r c, r < base4.size → c < base4.size →
          (Binox.new_from_string base4.as_string).get_cellCore r c
            = base4.get_cellCore r c
          ∧ (Binox.new_from_string base4.as_string).is_defaultCore r c
            = base4.is_defaultCore r c) :=
  ⟨Binox.Reachable.new (s := 4) rfl,
    C7_roundtrip base4 (Binox.Reachable.new (s := 4) rfl)⟩


/-! ### Claims C2 and C9: extension order, fullness, empty count -/

theorem boardExt_refl (b : Binox) : BoardExt b b :=
  ⟨rfl, fun _ _ _ _ _ => rfl⟩

theorem boardExt_trans {a b c : Binox} (h1 : BoardExt a b) (h2 : BoardExt b c) :
    BoardExt a c := by
  obtain ⟨hs1, h1⟩ := h1
  obtain ⟨hs2, h2⟩ := h2
  refine ⟨hs1.trans hs2, fun r c' hr hc hne => ?_⟩
  rw [h2 r c' (by omega) (by omega) (by rw [h1 r c' hr hc hne]; exact hne),
    h1 r c' hr hc hne]

/-- Under I1 the x bit determines the X cells. -/
theorem xbit_iff_cell (b : Binox) (hb : b.Inv) (r c : Nat) (hr : r < b.size)
    (hc : c < b.size) :
    (getRow b.x_rows r).getCore c = true ↔ b.get_cellCore r c = .X := by
  rw [Binox.get_cellCore]
  cases hx : (getRow b.x_rows r).getCore c <;> cases ho : (getRow b.o_rows r).getCore c
  · simp
  · simp
  · simp
  · exact absurd ⟨hx, ho⟩ (hb.i1 r c hr hc)

/-- Under I1 the o bit determines the O cells. -/
theorem obit_iff_cell (b : Binox) (hb : b.Inv) (r c : Nat) (hr : r < b.size)
    (hc : c < b.size) :
    (getRow b.o_rows r).getCore c = true ↔ b.get_cellCore r c = .O := by
  rw [Binox.get_cellCore]
  cases hx : (getRow b.x_rows r).getCore c <;> cases ho : (getRow b.o_rows r).getCore c
  · simp
  · simp
  · simp
  · exact absurd ⟨hx, ho⟩ (hb.i1 r c hr hc)

/-- Under I1 a cell is Empty exactly when both bits are clear. -/
theorem empty_iff_bits (b : Binox) (hb : b.Inv) (r c : Nat) (hr : r < b.size)
    (hc : c < b.size) :
    b.get_cellCore r c = .EMPTY
      ↔ ((getRow b.x_rows r).getCore c = false
          ∧ (getRow b.o_rows r).getCore c = false) := by
  rw [Binox.get_cellCore]
  cases hx : (getRow b.x_rows r).getCore c <;> cases ho : (getRow b.o_rows r).getCore c
  · simp
  · simp
  · simp
  · exact absurd ⟨hx, ho⟩ (hb.i1 r c hr hc)

/-- For data within the line width the popcount restricts to the width. -/
theorem popc16_eq_card (d n : Nat) (hn : n ≤ 16) (hd : d < 2 ^ n) :
    popc16 d = ((Finset.range n).filter (fun i => d.testBit i)).card := by
  unfold popc16
  congr 1
  ext i
  simp only [Finset.mem_filter, Finset.mem_range]
  constructor
  · rintro ⟨h16, hb⟩
    refine ⟨?_, hb⟩
    by_contra hge
    rw [testBit_false_of_lt_two_pow hd (by omega)] at hb
    cases hb
  · rintro ⟨hlt, hb⟩
    exact ⟨by omega, hb⟩

/-- Under the invariants, a row's `x count + o count` reaches the size
exactly when every cell of the row is filled. -/
theorem row_filled_count (b : Binox) (hb : b.Inv) (r : Nat) (hr : r < b.size) :
    (getRow b.x_rows r).count + (getRow b.o_rows r).count = b.size
      ↔ ∀ c, c < b.size → b.get_cellCore r c ≠ .EMPTY := by
  obtain ⟨hszx, hwx, hcx⟩ := hb.xr.2 r hr
  obtain ⟨hszo, hwo, hco⟩ := hb.orr.2 r hr
  set X := (Finset.range b.size).filter
    (fun i => (getRow b.x_rows r).data.testBit i) with hX
  set O2 := (Finset.range b.size).filter
    (fun i => (getRow b.o_rows r).data.testBit i) with hO
  have hdisj : Disjoint X O2 := by
    rw [Finset.disjoint_left]
    intro a haX haO
    rw [hX, Finset.mem_filter] at haX
    rw [hO, Finset.mem_filter, Finset.mem_range] at haO
    exact hb.i1 r a hr haO.1
      ⟨by rw [BinRow.getCore_eq]; exact haX.2, by rw [BinRow.getCore_eq]; exact haO.2⟩
  have hcount : (getRow b.x_rows r).count + (getRow b.o_rows r).count
      = (X ∪ O2).card := by
    rw [hcx, hco, popc16_eq_card _ b.size hb.ub hwx, popc16_eq_card _ b.size hb.ub hwo,
      Finset.card_union_of_disjoint hdisj]
  have hsub : X ∪ O2 ⊆ Finset.range b.size :=
    Finset.union_subset (Finset.filter_subset _ _) (Finset.filter_subset _ _)
  constructor
  · intro hsum c hc hemp
    have hequ : X ∪ O2 = Finset.range b.size := by
      apply Finset.eq_of_subset_of_card_le hsub
      rw [Finset.card_range, ← hcount, hsum]
    have hcmem : c ∈ X ∪ O2 := by rw [hequ]; exact Finset.mem_range.mpr hc
    obtain ⟨hxf, hof⟩ := (empty_iff_bits b hb r c hr hc).mp hemp
    rcases Finset.mem_union.mp hcmem with hm | hm
    · rw [hX, Finset.mem_filter] at hm
      rw [BinRow.getCore_eq] at hxf
      rw [hxf] at hm
      cases hm.2
    · rw [hO, Finset.mem_filter] at hm
      rw [BinRow.getCore_eq] at hof
      rw [hof] at hm
      cases hm.2
  · intro hall
    rw [hcount]
    have hequ : X ∪ O2 = Finset.range b.size := by
      apply Finset.Subset.antisymm hsub
      intro c hcr
      have hc := Finset.mem_range.mp hcr
      have hne : ¬((getRow b.x_rows r).getCore c = false
          ∧ (getRow b.o_rows r).getCore c = false) :=
        fun h => hall c hc ((empty_iff_bits b hb r c hr hc).mpr h)
      cases hxv : (getRow b.x_rows r).getCore c
      · cases hov : (getRow b.o_rows r).getCore c
        · exact absurd ⟨hxv, hov⟩ hne
        · apply Finset.mem_union_right
          rw [hO, Finset.mem_filter]
          rw [BinRow.getCore_eq] at hov
          exact ⟨hcr, hov⟩
      · apply Finset.mem_union_left
        rw [hX, Finset.mem_filter]
        rw [BinRow.getCore_eq] at hxv
        exact ⟨hcr, hxv⟩
    rw [hequ, Finset.card_range]

/-- Under the invariants, `is_full` means every cell is filled. -/
theorem is_full_iff (b : Binox) (hb : b.Inv) :
    b.is_full = true ↔ ∀ r c, r < b.size → c < b.size →
      b.get_cellCore r c ≠ .EMPTY := by
  unfold Binox.is_full
  rw [List.all_eq_true]
  constructor
  · intro h r c hr hc
    have hx := h r (List.mem_range.mpr hr)
    rw [beq_iff_eq] at hx
    exact (row_filled_count b hb r hr).mp hx c hc
  · intro h r hrmem
    have hr := List.mem_range.mp hrmem
    rw [beq_iff_eq]
    exact (row_filled_count b hb r hr).mpr (fun c hc => h r c hr hc)

/-- Converse membership in the row-major sweep order. -/
theorem mem_sweepOrder_iff (r c n : Nat) : (r, c) ∈ sweepOrder n ↔ r < n ∧ c < n := by
  constructor
  · exact fun h => mem_sweepOrder h
  · rintro ⟨hr, hc⟩
    unfold sweepOrder
    have main : ∀ l : List Nat, r ∈ l →
        (r, c) ∈ l.foldr (fun r acc => ((List.range n).map fun c => (r, c)) ++ acc) [] := by
      intro l hl
      induction l with
      | nil => cases hl
      | cons a t ih =>
        simp only [List.foldr_cons, List.mem_append, List.mem_map]
        rcases List.mem_cons.mp hl with rfl | hmem
        · exact Or.inl ⟨c, List.mem_range.mpr hc, rfl⟩
        · exact Or.inr (by simpa using ih hmem)
    exact main (List.range n) (List.mem_range.mpr hr)

/-- Strict filter-length decrease: the coarser predicate keeps everything
the finer one keeps, and at least one kept element is dropped. -/
theorem length_filter_lt : ∀ (l : List (Nat × Nat)) (p q : Nat × Nat → Bool),
    (∀ x ∈ l, q x = true → p x = true) → ∀ a ∈ l, p a = true → q a = false →
    (l.filter q).length < (l.filter p).length := by
  intro l
  induction l with
  | nil =>
    intro p q _ a ha
    cases ha
  | cons x t ih =>
    intro p q hmono a ha hpa hqa
    have hmt : ∀ y ∈ t, q y = true → p y = true :=
      fun y hy => hmono y (List.mem_cons_of_mem _ hy)
    have hle : (t.filter q).length ≤ (t.filter p).length := by
      rw [← List.countP_eq_length_filter, ← List.countP_eq_length_filter]
      exact List.countP_mono_left hmt
    rcases List.mem_cons.mp ha with rfl | hat
    · rw [List.filter_cons, List.filter_cons, hpa, hqa,
        if_pos rfl, if_neg (by decide), List.length_cons]
      omega
    · cases hqx : q x
      · cases hpx : p x
        · rw [List.filter_cons, List.filter_cons, hqx, hpx,
            if_neg (by decide), if_neg (by decide)]
          exact ih p q hmt a hat hpa hqa
        · rw [List.filter_cons, List.filter_cons, hqx, hpx,
            if_neg (by decide), if_pos rfl, List.length_cons]
          have := ih p q hmt a hat hpa hqa
          omega
      · have hpx : p x = true := hmono x (List.mem_cons_self x t) hqx
        rw [List.filter_cons, List.filter_cons, hqx, hpx,
          if_pos rfl, if_pos rfl, List.length_cons, List.length_cons]
        have := ih p q hmt a hat hpa hqa
        omega

/-- The empty-cell count never exceeds the cell count of the board. -/
theorem emptyCount_le (b : Binox) : b.emptyCount ≤ b.size * b.size := by
  unfold Binox.emptyCount
  calc ((sweepOrder b.size).filter fun rc => b.get_cellCore rc.1 rc.2 == .EMPTY).length
      ≤ (sweepOrder b.size).length := List.length_filter_le _ _
  _ = b.size * b.size := sweepOrder_length b.size

/-- A board that is not full has at least one Empty cell. -/
theorem emptyCount_pos (b : Binox) (hb : b.Inv) (hnf : b.is_full = false) :
    1 ≤ b.emptyCount := by
  have hne : ¬ ∀ r c, r < b.size → c < b.size → b.get_cellCore r c ≠ .EMPTY := by
    intro hall
    rw [(is_full_iff b hb).mpr hall] at hnf
    cases hnf
  push_neg at hne
  obtain ⟨r, c, hr, hc, hemp⟩ := hne
  have hmem : (r, c) ∈ (sweepOrder b.size).filter
      (fun rc => b.get_cellCore rc.1 rc.2 == .EMPTY) :=
    List.mem_filter.mpr ⟨(mem_sweepOrder_iff r c b.size).mpr ⟨hr, hc⟩, by simp [hemp]⟩
  exact List.length_pos_of_mem hmem

/-- A full board has no Empty cells. -/
theorem emptyCount_eq_zero (p : Binox) (hp : p.Inv) (hf : p.is_full = true) :
    p.emptyCount = 0 := by
  unfold Binox.emptyCount
  rw [List.length_eq_zero, List.filter_eq_nil_iff]
  intro a ha
  obtain ⟨h1, h2⟩ := mem_sweepOrder ha
  have := (is_full_iff p hp).mp hf a.1 a.2 h1 h2
  simp [this]

/-- The presolve sweep never creates an Empty cell, so the empty count
does not increase. -/
theorem emptyCount_presolveAux_le (cells : List (Nat × Nat)) (b : Binox)
    (hs : b.size ≤ 16) :
    (Binox.presolveAux b cells).2.emptyCount ≤ b.emptyCount := by
  unfold Binox.emptyCount
  rw [size_presolveAux, ← List.countP_eq_length_filter, ← List.countP_eq_length_filter]
  apply List.countP_mono_left
  intro rc hrc hp
  obtain ⟨hr, hc⟩ := mem_sweepOrder hrc
  by_cases hbe : b.get_cellCore rc.1 rc.2 = .EMPTY
  · simp [hbe]
  · rw [presolveAux_preserves_nonempty cells b rc.1 rc.2 (by omega) hbe] at hp
    rw [beq_iff_eq] at hp
    exact absurd hp hbe

/-- Committing X on an in-range Empty cell strictly decreases the empty
count. -/
theorem emptyCount_set_xCore_lt (p : Binox) (r c : Nat) (hp : p.Inv)
    (hr : r < p.size) (hc : c < p.size) (hemp : p.get_cellCore r c = .EMPTY) :
    (p.set_xCore r c).emptyCount < p.emptyCount := by
  have hrx : r < p.x_rows.length := by rw [hp.xr.1]; exact hr
  have h16 : p.size ≤ 16 := hp.ub
  unfold Binox.emptyCount
  rw [size_set_xCore]
  apply length_filter_lt _ _ _ ?_ (r, c) ((mem_sweepOrder_iff r c p.size).mpr ⟨hr, hc⟩)
    (by simp [hemp]) ?_
  · intro x hx hq
    obtain ⟨hx1, hx2⟩ := mem_sweepOrder hx
    rw [get_cellCore_set_xCore p r c x.1 x.2 hrx (by omega)] at hq
    by_cases hxe : x.1 = r ∧ x.2 = c
    · rw [if_pos hxe] at hq
      cases hq
    · rw [if_neg hxe] at hq
      exact hq
  · rw [get_cellCore_set_xCore p r c r c hrx (by omega), if_pos ⟨rfl, rfl⟩]
    rfl

/-- Committing O on an in-range Empty cell strictly decreases the empty
count. -/
theorem emptyCount_set_oCore_lt (p : Binox) (r c : Nat) (hp : p.Inv)
    (hr : r < p.size) (hc : c < p.size) (hemp : p.get_cellCore r c = .EMPTY) :
    (p.set_oCore r c).emptyCount < p.emptyCount := by
  have hro : r < p.o_rows.length := by rw [hp.orr.1]; exact hr
  have h16 : p.size ≤ 16 := hp.ub
  unfold Binox.emptyCount
  rw [size_set_oCore]
  apply length_filter_lt _ _ _ ?_ (r, c) ((mem_sweepOrder_iff r c p.size).mpr ⟨hr, hc⟩)
    (by simp [hemp]) ?_
  · intro x hx hq
    obtain ⟨hx1, hx2⟩ := mem_sweepOrder hx
    rw [get_cellCore_set_oCore p r c x.1 x.2 hro (by omega)] at hq
    by_cases hxe : x.1 = r ∧ x.2 = c
    · rw [if_pos hxe] at hq
      cases hq
    · rw [if_neg hxe] at hq
      exact hq
  · rw [get_cellCore_set_oCore p r c r c hro (by omega), if_pos ⟨rfl, rfl⟩]
    rfl

/-! ### Structural identities of the cell mutators -/

theorem binRow_fields_eq (a b : BinRow) (h1 : a.data = b.data) (h2 : a.size = b.size)
    (h3 : a.count = b.count) : a = b := by
  cases a
  cases b
  simp_all

theorem binox_fields_eq (a b : Binox) (h0 : a.size = b.size) (h1 : a.x_rows = b.x_rows)
    (h2 : a.o_rows = b.o_rows) (h3 : a.x_cols = b.x_cols) (h4 : a.o_cols = b.o_cols)
    (h5 : a.default_rows = b.default_rows) : a = b := by
  cases a
  cases b
  simp_all

theorem modifyAt_comp (l : List BinRow) (i : Nat) (f g : BinRow → BinRow) :
    modifyAt (modifyAt l i f) i g = modifyAt l i (fun x => g (f x)) := by
  induction l generalizing i with
  | nil => rfl
  | cons a t ih =>
    cases i with
    | zero => rfl
    | succ n =>
      show a :: modifyAt (modifyAt t n f) n g = a :: modifyAt t n _
      rw [ih]

theorem modifyAt_congr (l : List BinRow) (i : Nat) (f g : BinRow → BinRow)
    (h : ∀ hi : i < l.length, f (l.get ⟨i, hi⟩) = g (l.get ⟨i, hi⟩)) :
    modifyAt l i f = modifyAt l i g := by
  induction l generalizing i with
  | nil => rfl
  | cons a t ih =>
    cases i with
    | zero =>
      show f a :: t = g a :: t
      rw [show f a = g a from h (by simp)]
    | succ n =>
      show a :: modifyAt t n f = a :: modifyAt t n g
      rw [ih n (fun hi => h (by simpa using Nat.succ_lt_succ hi))]

theorem modifyAt_eq_self (l : List BinRow) (i : Nat) (f : BinRow → BinRow)
    (h : ∀ hi : i < l.length, f (l.get ⟨i, hi⟩) = l.get ⟨i, hi⟩) :
    modifyAt l i f = l := by
  induction l generalizing i with
  | nil => rfl
  | cons a t ih =>
    cases i with
    | zero =>
      show f a :: t = a :: t
      rw [show f a = a from h (by simp)]
    | succ n =>
      show a :: modifyAt t n f = a :: t
      rw [ih n (fun hi => h (by simpa using Nat.succ_lt_succ hi))]

theorem getRow_eq_get (l : List BinRow) (i : Nat) (hi : i < l.length) :
    getRow l i = l.get ⟨i, hi⟩ := by
  unfold getRow
  rw [List.getD_eq_getElem l _ hi]
  rfl

/-- Clearing right after setting the same position is just clearing. -/
theorem set_zero_after_one (r : BinRow) (p : Nat) (hp : p < 16) :
    (r.set_oneCore p).set_zeroCore p = r.set_zeroCore p := by
  apply binRow_fields_eq
  · apply Nat.eq_of_testBit_eq
    intro i
    rw [set_zeroCore_testBit, set_zeroCore_testBit, set_oneCore_testBit]
    by_cases hip : i = p
    · simp [hip, hp]
    · simp [hip]
  · rfl
  · rw [set_zeroCore_count, set_zeroCore_count, set_oneCore_count, set_oneCore_testBit]
    cases hd : r.data.testBit p
    · simp
    · simp
/-- Setting right after clearing the same position is just setting (for a
live line). -/
theorem set_one_after_zero (r : BinRow) (p : Nat) (hp : p < 16)
    (h16 : r.data < 65536) (hcnt : r.count = popc16 r.data) :
    (r.set_zeroCore p).set_oneCore p = r.set_oneCore p := by
  apply binRow_fields_eq
  · apply Nat.eq_of_testBit_eq
    intro i
    rw [set_oneCore_testBit, set_oneCore_testBit, set_zeroCore_testBit]
    by_cases hip : i = p
    · simp [hip]
    · by_cases hi16 : i < 16
      · simp [hip, hi16]
      · have hdz : r.data.testBit i = false :=
          testBit_false_of_lt_two_pow (by calc r.data < 65536 := h16
            _ = 2 ^ 16 := by norm_num) (by omega)
        simp [hip, hi16, hdz]
  · rfl
  · rw [set_oneCore_count, set_oneCore_count, set_zeroCore_count, set_zeroCore_testBit]
    cases hd : r.data.testBit p
    · simp
    · have hpos : 1 ≤ r.count := by
        rw [hcnt]
        unfold popc16
        apply Finset.card_pos.mpr
        exact ⟨p, Finset.mem_filter.mpr ⟨Finset.mem_range.mpr hp, hd⟩⟩
      simp [hp]
      omega

/-- Setting the same position twice is setting it once. -/
theorem set_one_after_one (r : BinRow) (p : Nat) :
    (r.set_oneCore p).set_oneCore p = r.set_oneCore p := by
  apply set_oneCore_noop
  rw [set_oneCore_testBit]
  simp

/-- Clearing the same position twice is clearing it once. -/
theorem set_zero_after_zero (r : BinRow) (p : Nat) (hp : p < 16)
    (h16 : r.data < 65536) : (r.set_zeroCore p).set_zeroCore p = r.set_zeroCore p := by
  apply set_zeroCore_noop
  · calc (r.set_zeroCore p).data ≤ r.data := Nat.and_le_left
    _ < 65536 := h16
  · rw [set_zeroCore_testBit]
    simp [hp]

/-- The bits of an X cell. -/
theorem cell_X_bits (b : Binox) (r c : Nat) (h : b.get_cellCore r c = .X) :
    (getRow b.x_rows r).getCore c = true ∧ (getRow b.o_rows r).getCore c = false := by
  rw [get_cellCore_eq] at h
  cases hx : (getRow b.x_rows r).getCore c <;>
    cases ho : (getRow b.o_rows r).getCore c <;> rw [hx, ho] at h <;> simp_all

/-- The bits of an O cell. -/
theorem cell_O_bits (b : Binox) (r c : Nat) (h : b.get_cellCore r c = .O) :
    (getRow b.x_rows r).getCore c = false ∧ (getRow b.o_rows r).getCore c = true := by
  rw [get_cellCore_eq] at h
  cases hx : (getRow b.x_rows r).getCore c <;>
    cases ho : (getRow b.o_rows r).getCore c <;> rw [hx, ho] at h <;> simp_all

theorem rowsInv_data_lt (l : List BinRow) (n : Nat) (h : RowsInv l n) (hn : n ≤ 16)
    (i : Nat) (hi : i < n) : (getRow l i).data < 65536 := by
  calc (getRow l i).data < 2 ^ n := (h.2 i hi).2.1
  _ ≤ 2 ^ 16 := Nat.pow_le_pow_right (by norm_num) hn
  _ = 65536 := by norm_num

/-- Committing O right after the tentative X is the same as committing O
directly: the mutators overwrite both bits of the cell. -/
theorem commit_o_id (b : Binox) (r c : Nat) (hb : b.Inv) (hr : r < b.size)
    (hc : c < b.size) : (b.set_xCore r c).set_oCore r c = b.set_oCore r c := by
  have h16 : b.size ≤ 16 := hb.ub
  have hc16 : c < 16 := by omega
  have hr16 : r < 16 := by omega
  apply binox_fields_eq
  · rfl
  · show modifyAt (modifyAt b.x_rows r fun row => row.set_oneCore c) r
        (fun row => row.set_zeroCore c) = modifyAt b.x_rows r (fun row => row.set_zeroCore c)
    rw [modifyAt_comp]
    apply modifyAt_congr
    intro hi
    exact set_zero_after_one _ c hc16
  · show modifyAt (modifyAt b.o_rows r fun row => row.set_zeroCore c) r
        (fun row => row.set_oneCore c) = modifyAt b.o_rows r (fun row => row.set_oneCore c)
    rw [modifyAt_comp]
    apply modifyAt_congr
    intro hi
    have hrs : r < b.size := hb.orr.1 ▸ hi
    show ((b.o_rows.get ⟨r, hi⟩).set_zeroCore c).set_oneCore c
        = (b.o_rows.get ⟨r, hi⟩).set_oneCore c
    rw [← getRow_eq_get b.o_rows r hi]
    exact set_one_after_zero _ c hc16 (rowsInv_data_lt _ _ hb.orr h16 r hrs)
      ((hb.orr.2 r hrs).2.2)
  · show modifyAt (modifyAt b.x_cols c fun row => row.set_oneCore r) c
        (fun row => row.set_zeroCore r) = modifyAt b.x_cols c (fun row => row.set_zeroCore r)
    rw [modifyAt_comp]
    apply modifyAt_congr
    intro hi
    exact set_zero_after_one _ r hr16
  · show modifyAt (modifyAt b.o_cols c fun row => row.set_zeroCore r) c
        (fun row => row.set_oneCore r) = modifyAt b.o_cols c (fun row => row.set_oneCore r)
    rw [modifyAt_comp]
    apply modifyAt_congr
    intro hi
    have hcs : c < b.size := hb.oc.1 ▸ hi
    show ((b.o_cols.get ⟨c, hi⟩).set_zeroCore r).set_oneCore r
        = (b.o_cols.get ⟨c, hi⟩).set_oneCore r
    rw [← getRow_eq_get b.o_cols c hi]
    exact set_one_after_zero _ r hr16 (rowsInv_data_lt _ _ hb.oc h16 c hcs)
      ((hb.oc.2 c hcs).2.2)
  · rfl

/-- Committing X right after a tentative O is the same as committing X
directly. -/
theorem commit_x_id (b : Binox) (r c : Nat) (hb : b.Inv) (hr : r < b.size)
    (hc : c < b.size) : (b.set_oCore r c).set_xCore r c = b.set_xCore r c := by
  have h16 : b.size ≤ 16 := hb.ub
  have hc16 : c < 16 := by omega
  have hr16 : r < 16 := by omega
  apply binox_fields_eq
  · rfl
  · show modifyAt (modifyAt b.x_rows r fun row => row.set_zeroCore c) r
        (fun row => row.set_oneCore c) = modifyAt b.x_rows r (fun row => row.set_oneCore c)
    rw [modifyAt_comp]
    apply modifyAt_congr
    intro hi
    have hrs : r < b.size := hb.xr.1 ▸ hi
    show ((b.x_rows.get ⟨r, hi⟩).set_zeroCore c).set_oneCore c
        = (b.x_rows.get ⟨r, hi⟩).set_oneCore c
    rw [← getRow_eq_get b.x_rows r hi]
    exact set_one_after_zero _ c hc16 (rowsInv_data_lt _ _ hb.xr h16 r hrs)
      ((hb.xr.2 r hrs).2.2)
  · show modifyAt (modifyAt b.o_rows r fun row => row.set_oneCore c) r
        (fun row => row.set_zeroCore c) = modifyAt b.o_rows r (fun row => row.set_zeroCore c)
    rw [modifyAt_comp]
    apply modifyAt_congr
    intro hi
    exact set_zero_after_one _ c hc16
  · show modifyAt (modifyAt b.x_cols c fun row => row.set_zeroCore r) c
        (fun row => row.set_oneCore r) = modifyAt b.x_cols c (fun row => row.set_oneCore r)
    rw [modifyAt_comp]
    apply modifyAt_congr
    intro hi
    have hcs : c < b.size := hb.xc.1 ▸ hi
    show ((b.x_cols.get ⟨c, hi⟩).set_zeroCore r).set_oneCore r
        = (b.x_cols.get ⟨c, hi⟩).set_oneCore r
    rw [← getRow_eq_get b.x_cols c hi]
    exact set_one_after_zero _ r hr16 (rowsInv_data_lt _ _ hb.xc h16 c hcs)
      ((hb.xc.2 c hcs).2.2)
  · show modifyAt (modifyAt b.o_cols c fun row => row.set_oneCore r) c
        (fun row => row.set_zeroCore r) = modifyAt b.o_cols c (fun row => row.set_zeroCore r)
    rw [modifyAt_comp]
    apply modifyAt_congr
    intro hi
    exact set_zero_after_one _ r hr16
  · rfl

/-- Committing O twice in a row changes nothing further. -/
theorem set_o_idem (b : Binox) (r c : Nat) (hb : b.Inv) (hr : r < b.size)
    (hc : c < b.size) : (b.set_oCore r c).set_oCore r c = b.set_oCore r c := by
  have h16 : b.size ≤ 16 := hb.ub
  have hc16 : c < 16 := by omega
  have hr16 : r < 16 := by omega
  apply binox_fields_eq
  · rfl
  · show modifyAt (modifyAt b.x_rows r fun row => row.set_zeroCore c) r
        (fun row => row.set_zeroCore c) = modifyAt b.x_rows r (fun row => row.set_zeroCore c)
    rw [modifyAt_comp]
    apply modifyAt_congr
    intro hi
    have hrs : r < b.size := hb.xr.1 ▸ hi
    show ((b.x_rows.get ⟨r, hi⟩).set_zeroCore c).set_zeroCore c
        = (b.x_rows.get ⟨r, hi⟩).set_zeroCore c
    rw [← getRow_eq_get b.x_rows r hi]
    exact set_zero_after_zero _ c hc16 (rowsInv_data_lt _ _ hb.xr h16 r hrs)
  · show modifyAt (modifyAt b.o_rows r fun row => row.set_oneCore c) r
        (fun row => row.set_oneCore c) = modifyAt b.o_rows r (fun row => row.set_oneCore c)
    rw [modifyAt_comp]
    apply modifyAt_congr
    intro hi
    exact set_one_after_one _ c
  · show modifyAt (modifyAt b.x_cols c fun row => row.set_zeroCore r) c
        (fun row => row.set_zeroCore r) = modifyAt b.x_cols c (fun row => row.set_zeroCore r)
    rw [modifyAt_comp]
    apply modifyAt_congr
    intro hi
    have hcs : c < b.size := hb.xc.1 ▸ hi
    show ((b.x_cols.get ⟨c, hi⟩).set_zeroCore r).set_zeroCore r
        = (b.x_cols.get ⟨c, hi⟩).set_zeroCore r
    rw [← getRow_eq_get b.x_cols c hi]
    exact set_zero_after_zero _ r hr16 (rowsInv_data_lt _ _ hb.xc h16 c hcs)
  · show modifyAt (modifyAt b.o_cols c fun row => row.set_oneCore r) c
        (fun row => row.set_oneCore r) = modifyAt b.o_cols c (fun row => row.set_oneCore r)
    rw [modifyAt_comp]
    apply modifyAt_congr
    intro hi
    exact set_one_after_one _ r
  · rfl

/-- Reverting to Empty after a tentative O on an Empty cell restores the
original board exactly. -/
theorem set_empty_after_o (b : Binox) (r c : Nat) (hb : b.Inv) (hr : r < b.size)
    (hc : c < b.size) (hemp : b.get_cellCore r c = .EMPTY) :
    (b.set_oCore r c).set_emptyCore r c = b := by
  have h16 : b.size ≤ 16 := hb.ub
  have hc16 : c < 16 := by omega
  have hr16 : r < 16 := by omega
  obtain ⟨hxb, hob⟩ := (empty_iff_bits b hb r c hr hc).mp hemp
  have hxc : (getRow b.x_cols c).getCore r = false := by
    rw [← (hb.i2 r c hr hc).1]; exact hxb
  have hoc : (getRow b.o_cols c).getCore r = false := by
    rw [← (hb.i2 r c hr hc).2]; exact hob
  apply binox_fields_eq
  · rfl
  · show modifyAt (modifyAt b.x_rows r fun row => row.set_zeroCore c) r
        (fun row => row.set_zeroCore c) = b.x_rows
    rw [modifyAt_comp]
    apply modifyAt_eq_self
    intro hi
    have hrs : r < b.size := hb.xr.1 ▸ hi
    show ((b.x_rows.get ⟨r, hi⟩).set_zeroCore c).set_zeroCore c = b.x_rows.get ⟨r, hi⟩
    rw [← getRow_eq_get b.x_rows r hi]
    have hnoop : (getRow b.x_rows r).set_zeroCore c = getRow b.x_rows r :=
      set_zeroCore_noop _ c (rowsInv_data_lt _ _ hb.xr h16 r hrs)
        (by rw [← BinRow.getCore_eq]; exact hxb)
    rw [hnoop, hnoop]
  · show modifyAt (modifyAt b.o_rows r fun row => row.set_oneCore c) r
        (fun row => row.set_zeroCore c) = b.o_rows
    rw [modifyAt_comp]
    apply modifyAt_eq_self
    intro hi
    have hrs : r < b.size := hb.orr.1 ▸ hi
    show ((b.o_rows.get ⟨r, hi⟩).set_oneCore c).set_zeroCore c = b.o_rows.get ⟨r, hi⟩
    rw [← getRow_eq_get b.o_rows r hi, set_zero_after_one _ c hc16]
    exact set_zeroCore_noop _ c (rowsInv_data_lt _ _ hb.orr h16 r hrs)
      (by rw [← BinRow.getCore_eq]; exact hob)
  · show modifyAt (modifyAt b.x_cols c fun row => row.set_zeroCore r) c
        (fun row => row.set_zeroCore r) = b.x_cols
    rw [modifyAt_comp]
    apply modifyAt_eq_self
    intro hi
    have hcs : c < b.size := hb.xc.1 ▸ hi
    show ((b.x_cols.get ⟨c, hi⟩).set_zeroCore r).set_zeroCore r = b.x_cols.get ⟨c, hi⟩
    rw [← getRow_eq_get b.x_cols c hi]
    have hnoop : (getRow b.x_cols c).set_zeroCore r = getRow b.x_cols c :=
      set_zeroCore_noop _ r (rowsInv_data_lt _ _ hb.xc h16 c hcs)
        (by rw [← BinRow.getCore_eq]; exact hxc)
    rw [hnoop, hnoop]
  · show modifyAt (modifyAt b.o_cols c fun row => row.set_oneCore r) c
        (fun row => row.set_zeroCore r) = b.o_cols
    rw [modifyAt_comp]
    apply modifyAt_eq_self
    intro hi
    have hcs : c < b.size := hb.oc.1 ▸ hi
    show ((b.o_cols.get ⟨c, hi⟩).set_oneCore r).set_zeroCore r = b.o_cols.get ⟨c, hi⟩
    rw [← getRow_eq_get b.o_cols c hi, set_zero_after_one _ r hr16]
    exact set_zeroCore_noop _ r (rowsInv_data_lt _ _ hb.oc h16 c hcs)
      (by rw [← BinRow.getCore_eq]; exact hoc)
  · rfl

/-- The full revert of the presolve sweep: tentative X, tentative O, then
Empty restores the original board. -/
theorem revert_id (b : Binox) (r c : Nat) (hb : b.Inv) (hr : r < b.size)
    (hc : c < b.size) (hemp : b.get_cellCore r c = .EMPTY) :
    ((b.set_xCore r c).set_oCore r c).set_emptyCore r c = b := by
  rw [commit_o_id b r c hb hr hc]
  exact set_empty_after_o b r c hb hr hc hemp

/-- Writing X on a cell that is already X changes nothing. -/
theorem set_xCore_cell_noop (b : Binox) (r c : Nat) (hb : b.Inv) (hr : r < b.size)
    (hc : c < b.size) (hcell : b.get_cellCore r c = .X) : b.set_xCore r c = b := by
  have h16 : b.size ≤ 16 := hb.ub
  obtain ⟨hxb, hob⟩ := cell_X_bits b r c hcell
  have hxc : (getRow b.x_cols c).getCore r = true := by
    rw [← (hb.i2 r c hr hc).1]; exact hxb
  have hoc : (getRow b.o_cols c).getCore r = false := by
    rw [← (hb.i2 r c hr hc).2]; exact hob
  apply binox_fields_eq
  · rfl
  · apply modifyAt_eq_self
    intro hi
    show (b.x_rows.get ⟨r, hi⟩).set_oneCore c = b.x_rows.get ⟨r, hi⟩
    rw [← getRow_eq_get b.x_rows r hi]
    exact set_oneCore_noop _ c (by rw [← BinRow.getCore_eq]; exact hxb)
  · apply modifyAt_eq_self
    intro hi
    have hrs : r < b.size := hb.orr.1 ▸ hi
    show (b.o_rows.get ⟨r, hi⟩).set_zeroCore c = b.o_rows.get ⟨r, hi⟩
    rw [← getRow_eq_get b.o_rows r hi]
    exact set_zeroCore_noop _ c (rowsInv_data_lt _ _ hb.orr h16 r hrs)
      (by rw [← BinRow.getCore_eq]; exact hob)
  · apply modifyAt_eq_self
    intro hi
    show (b.x_cols.get ⟨c, hi⟩).set_oneCore r = b.x_cols.get ⟨c, hi⟩
    rw [← getRow_eq_get b.x_cols c hi]
    exact set_oneCore_noop _ r (by rw [← BinRow.getCore_eq]; exact hxc)
  · apply modifyAt_eq_self
    intro hi
    have hcs : c < b.size := hb.oc.1 ▸ hi
    show (b.o_cols.get ⟨c, hi⟩).set_zeroCore r = b.o_cols.get ⟨c, hi⟩
    rw [← getRow_eq_get b.o_cols c hi]
    exact set_zeroCore_noop _ r (rowsInv_data_lt _ _ hb.oc h16 c hcs)
      (by rw [← BinRow.getCore_eq]; exact hoc)
  · rfl

/-- Writing O on a cell that is already O changes nothing. -/
theorem set_oCore_cell_noop (b : Binox) (r c : Nat) (hb : b.Inv) (hr : r < b.size)
    (hc : c < b.size) (hcell : b.get_cellCore r c = .O) : b.set_oCore r c = b := by
  have h16 : b.size ≤ 16 := hb.ub
  obtain ⟨hxb, hob⟩ := cell_O_bits b r c hcell
  have hxc : (getRow b.x_cols c).getCore r = false := by
    rw [← (hb.i2 r c hr hc).1]; exact hxb
  have hoc : (getRow b.o_cols c).getCore r = true := by
    rw [← (hb.i2 r c hr hc).2]; exact hob
  apply binox_fields_eq
  · rfl
  · apply modifyAt_eq_self
    intro hi
    have hrs : r < b.size := hb.xr.1 ▸ hi
    show (b.x_rows.get ⟨r, hi⟩).set_zeroCore c = b.x_rows.get ⟨r, hi⟩
    rw [← getRow_eq_get b.x_rows r hi]
    exact set_zeroCore_noop _ c (rowsInv_data_lt _ _ hb.xr h16 r hrs)
      (by rw [← BinRow.getCore_eq]; exact hxb)
  · apply modifyAt_eq_self
    intro hi
    show (b.o_rows.get ⟨r, hi⟩).set_oneCore c = b.o_rows.get ⟨r, hi⟩
    rw [← getRow_eq_get b.o_rows r hi]
    exact set_oneCore_noop _ c (by rw [← BinRow.getCore_eq]; exact hob)
  · apply modifyAt_eq_self
    intro hi
    have hcs : c < b.size := hb.xc.1 ▸ hi
    show (b.x_cols.get ⟨c, hi⟩).set_zeroCore r = b.x_cols.get ⟨c, hi⟩
    rw [← getRow_eq_get b.x_cols c hi]
    exact set_zeroCore_noop _ r (rowsInv_data_lt _ _ hb.xc h16 c hcs)
      (by rw [← BinRow.getCore_eq]; exact hxc)
  · apply modifyAt_eq_self
    intro hi
    show (b.o_cols.get ⟨c, hi⟩).set_oneCore r = b.o_cols.get ⟨c, hi⟩
    rw [← getRow_eq_get b.o_cols c hi]
    exact set_oneCore_noop _ r (by rw [← BinRow.getCore_eq]; exact hoc)
  · rfl

/-! ### The derived order on lines and the sort used by `is_valid` -/

theorem binrow_le_refl (a : BinRow) : a.le a = true := by
  unfold BinRow.le
  simp

theorem binrow_le_total (a b : BinRow) : a.le b = true ∨ b.le a = true := by
  unfold BinRow.le
  by_cases h1 : a.data < b.data
  · left; simp [h1]
  · by_cases h2 : b.data < a.data
    · right; simp [h2]
    · have hde : a.data = b.data := by omega
      by_cases h3 : a.size < b.size
      · left; simp [hde, h3]
      · by_cases h4 : b.size < a.size
        · right; simp [hde.symm, h4]
        · have hse : a.size = b.size := by omega
          by_cases h5 : a.count ≤ b.count
          · left; simp [hde, hse, h5]
          · right; simp [hde.symm, hse.symm]; omega

theorem binrow_le_trans (a b c : BinRow) (h1 : a.le b = true) (h2 : b.le c = true) :
    a.le c = true := by
  unfold BinRow.le at h1 h2 ⊢
  simp only [Bool.or_eq_true, Bool.and_eq_true, decide_eq_true_eq, beq_iff_eq] at h1 h2 ⊢
  rcases h1 with h1 | ⟨e1, h1⟩ <;> rcases h2 with h2 | ⟨e2, h2⟩
  · left; omega
  · left; omega
  · left; omega
  · right
    refine ⟨by omega, ?_⟩
    rcases h1 with h1 | ⟨s1, c1⟩ <;> rcases h2 with h2 | ⟨s2, c2⟩
    · left; omega
    · left; omega
    · left; omega
    · right; exact ⟨by omega, by omega⟩

theorem binrow_le_antisymm (a b : BinRow) (h1 : a.le b = true) (h2 : b.le a = true) :
    a = b := by
  unfold BinRow.le at h1 h2
  simp only [Bool.or_eq_true, Bool.and_eq_true, decide_eq_true_eq, beq_iff_eq] at h1 h2
  rcases h1 with h1 | ⟨e1, h1⟩
  · rcases h2 with h2 | ⟨e2, h2⟩
    · exact absurd h1 (by omega)
    · exact absurd e2 (by omega)
  · rcases h2 with h2 | ⟨e2, h2⟩
    · exact absurd e1 (by omega)
    · rcases h1 with h1 | ⟨s1, c1⟩ <;> rcases h2 with h2 | ⟨s2, c2⟩
      · exact absurd h1 (by omega)
      · exact absurd s2 (by omega)
      · exact absurd s1 (by omega)
      · exact binRow_fields_eq a b e1 (by omega) (by omega)

theorem insertSorted_perm (a : BinRow) (l : List BinRow) :
    (insertSorted a l).Perm (a :: l) := by
  induction l with
  | nil => exact List.Perm.refl _
  | cons b t ih =>
    unfold insertSorted
    by_cases h : BinRow.le a b = true
    · rw [if_pos h]
    · rw [if_neg h]
      exact List.Perm.trans (List.Perm.cons b ih) (List.Perm.swap a b t)

theorem sortRows_perm (l : List BinRow) : (sortRows l).Perm l := by
  induction l with
  | nil => exact List.Perm.refl _
  | cons a t ih =>
    show (insertSorted a (sortRows t)).Perm (a :: t)
    exact List.Perm.trans (insertSorted_perm _ _) (List.Perm.cons a ih)

theorem insertSorted_pairwise (a : BinRow) (l : List BinRow)
    (h : l.Pairwise fun x y => x.le y = true) :
    (insertSorted a l).Pairwise fun x y => x.le y = true := by
  induction l with
  | nil => simp [insertSorted]
  | cons b t ih =>
    rw [List.pairwise_cons] at h
    obtain ⟨hb, ht⟩ := h
    unfold insertSorted
    by_cases hab : BinRow.le a b = true
    · rw [if_pos hab, List.pairwise_cons]
      refine ⟨?_, List.pairwise_cons.mpr ⟨hb, ht⟩⟩
      intro x hx
      rcases List.mem_cons.mp hx with rfl | hxt
      · exact hab
      · exact binrow_le_trans a b x hab (hb x hxt)
    · rw [if_neg hab, List.pairwise_cons]
      have hba : b.le a = true := (binrow_le_total a b).resolve_left hab
      refine ⟨?_, ih ht⟩
      intro x hx
      have hmem : x = a ∨ x ∈ t := by
        have := (insertSorted_perm a t).mem_iff.mp hx
        simpa using this
      rcases hmem with rfl | hxt
      · exact hba
      · exact hb x hxt

theorem sortRows_pairwise (l : List BinRow) :
    (sortRows l).Pairwise fun x y => x.le y = true := by
  induction l with
  | nil => exact List.Pairwise.nil
  | cons a t ih => exact insertSorted_pairwise a (sortRows t) ih

/-- A value occurs at least twice exactly when it sits at two distinct
positions. -/
theorem two_le_count_iff (l : List BinRow) (v : BinRow) :
    2 ≤ l.count v ↔ ∃ i j, ∃ hi : i < l.length, ∃ hj : j < l.length,
      i < j ∧ l.get ⟨i, hi⟩ = v ∧ l.get ⟨j, hj⟩ = v := by
  induction l with
  | nil =>
    simp only [List.count_nil, List.length_nil]
    constructor
    · omega
    · rintro ⟨i, j, hi, hj, -⟩
      omega
  | cons a t ih =>
    constructor
    · intro h
      rw [List.count_cons] at h
      by_cases hav : a = v
      · have hb : (a == v) = true := by rw [beq_iff_eq]; exact hav
        rw [hb] at h
        simp only [if_true, if_pos rfl] at h
        have hvmem : v ∈ t := List.count_pos_iff.mp (by omega)
        obtain ⟨k, hk⟩ := List.mem_iff_get.mp hvmem
        refine ⟨0, k.1 + 1, by simp, by simp [Nat.succ_lt_succ k.2], by omega, hav, ?_⟩
        show t.get ⟨k.1, _⟩ = v
        rw [show (⟨k.1, _⟩ : Fin t.length) = k from Fin.ext rfl]
        exact hk
      · have hb : (a == v) = false := beq_eq_false_iff_ne.mpr hav
        rw [hb] at h
        simp only [if_neg (by decide : ¬ false = true)] at h
        obtain ⟨i, j, hi, hj, hij, h1, h2⟩ := ih.mp (by omega)
        exact ⟨i + 1, j + 1, Nat.succ_lt_succ hi, Nat.succ_lt_succ hj, by omega, h1, h2⟩
    · rintro ⟨i, j, hi, hj, hij, h1, h2⟩
      rw [List.count_cons]
      cases i with
      | zero =>
        have hav : a = v := h1
        cases j with
        | zero => omega
        | succ j2 =>
          have hj2 : j2 < t.length := by simpa using hj
          have hvt : v ∈ t := by
            rw [← show t.get ⟨j2, hj2⟩ = v from h2]
            exact List.get_mem t j2 hj2
          have hcnt : 1 ≤ t.count v := List.count_pos_iff.mpr hvt
          have hb : (a == v) = true := by rw [beq_iff_eq]; exact hav
          rw [hb]
          simp only [if_true, if_pos rfl]
          omega
      | succ i2 =>
        cases j with
        | zero => omega
        | succ j2 =>
          have hi2 : i2 < t.length := by simpa using hi
          have hj2 : j2 < t.length := by simpa using hj
          have hcnt := ih.mpr ⟨i2, j2, hi2, hj2, by omega, h1, h2⟩
          by_cases hb : (a == v) = true
          · rw [hb]
            simp only [if_true, if_pos rfl]
            omega
          · rw [Bool.not_eq_true] at hb
            rw [hb]
            simp only [if_neg (by decide : ¬ false = true)]
            omega

/-- Facts carried by every member of the sorted collection. -/
theorem sortRows_mem_facts (l : List BinRow) (n : Nat) (hinv : RowsInv l n) :
    ∀ x ∈ sortRows l, x.size = n ∧ x.data < 2 ^ n ∧ x.count = popc16 x.data := by
  intro x hx
  have hxl : x ∈ l := (sortRows_perm l).mem_iff.mp hx
  obtain ⟨k, hk⟩ := List.mem_iff_get.mp hxl
  have hkn : k.1 < n := by
    have h2 := k.2
    have h3 := hinv.1
    omega
  have h3 := hinv.2 k.1 hkn
  rw [getRow_eq_get l k.1 k.2, show (⟨k.1, k.2⟩ : Fin l.length) = k from Fin.ext rfl,
    hk] at h3
  exact h3

/-- The adjacent-duplicate scan of the sorted collection detects exactly
the index-level duplicates of the original collection. -/
theorem dupHalf_sortRows_iff (l : List BinRow) (n : Nat) (hinv : RowsInv l n) :
    dupHalf (sortRows l) n = true ↔ dupHalfProp l n := by
  have hperm := sortRows_perm l
  have hpw := sortRows_pairwise l
  have hlen : l.length = n := hinv.1
  have hslen : (sortRows l).length = n := by rw [hperm.length_eq, hlen]
  have hfacts := sortRows_mem_facts l n hinv
  constructor
  · intro h
    obtain ⟨i, hirange, hpred⟩ := List.any_eq_true.mp h
    have hin : i < n - 1 := List.mem_range.mp hirange
    have hi1 : i < (sortRows l).length := by omega
    have hi2 : i + 1 < (sortRows l).length := by omega
    rw [getRow_eq_get _ i hi1, getRow_eq_get _ (i + 1) hi2, Bool.and_eq_true,
      beq_iff_eq, beq_iff_eq] at hpred
    obtain ⟨hdeq, hceq⟩ := hpred
    set v := (sortRows l).get ⟨i, hi1⟩ with hv
    set w := (sortRows l).get ⟨i + 1, hi2⟩ with hw
    have hvmem : v ∈ sortRows l := List.get_mem _ i hi1
    have hwmem : w ∈ sortRows l := List.get_mem _ (i + 1) hi2
    obtain ⟨hvsz, hvw, hvc⟩ := hfacts v hvmem
    obtain ⟨hwsz, hww, hwc⟩ := hfacts w hwmem
    have hveqw : v = w := by
      apply binRow_fields_eq v w hdeq (by rw [hvsz, hwsz])
      rw [hvc, hwc, hdeq]
    have hcount2 : 2 ≤ (sortRows l).count v :=
      (two_le_count_iff _ v).mpr ⟨i, i + 1, hi1, hi2, by omega, rfl, hveqw.symm⟩
    have hcountl : 2 ≤ l.count v := by rw [← hperm.count_eq]; exact hcount2
    obtain ⟨j, k, hj, hk, hjk, hjv, hkv⟩ := (two_le_count_iff l v).mp hcountl
    refine ⟨j, k, by omega, by omega, by omega, ?_, ?_⟩
    · rw [getRow_eq_get l j hj, getRow_eq_get l k hk, hjv, hkv]
    · rw [getRow_eq_get l j hj, hjv, hceq]
  · rintro ⟨j, k, hjn, hkn, hjk, hdeq, hcj⟩
    have hj : j < l.length := by omega
    have hk : k < l.length := by omega
    set v := getRow l j with hv
    set w := getRow l k with hw
    have hveqw : v = w := by
      apply binRow_fields_eq v w hdeq
      · rw [hv, hw, (hinv.2 j hjn).1, (hinv.2 k hkn).1]
      · rw [hv, hw, (hinv.2 j hjn).2.2, (hinv.2 k hkn).2.2, hdeq]
    have hcountl : 2 ≤ l.count v := by
      rcases Nat.lt_or_ge j k with hlt | hge
      · exact (two_le_count_iff l v).mpr ⟨j, k, hj, hk, hlt,
          (getRow_eq_get l j hj).symm, by rw [hveqw, hw]; exact (getRow_eq_get l k hk).symm⟩
      · have hklt : k < j := by omega
        exact (two_le_count_iff l v).mpr ⟨k, j, hk, hj, hklt,
          (by rw [hveqw, hw]; exact (getRow_eq_get l k hk).symm),
          (getRow_eq_get l j hj).symm⟩
    have hcount2 : 2 ≤ (sortRows l).count v := by rw [hperm.count_eq]; exact hcountl
    obtain ⟨i1, i2, hi1, hi2, hii, hv1, hv2⟩ := (two_le_count_iff _ v).mp hcount2
    have hadj : (sortRows l).get ⟨i1 + 1, by omega⟩ = v := by
      have hle1 : ((sortRows l).get ⟨i1, hi1⟩).le ((sortRows l).get ⟨i1 + 1, by omega⟩)
          = true := by
        have := List.pairwise_iff_get.mp hpw ⟨i1, hi1⟩ ⟨i1 + 1, by omega⟩
          (by exact Nat.lt_succ_self i1)
        exact this
      have hle2 : ((sortRows l).get ⟨i1 + 1, by omega⟩).le ((sortRows l).get ⟨i1, hi1⟩)
          = true := by
        rcases Nat.lt_or_ge (i1 + 1) i2 with hlt | hge
        · have := List.pairwise_iff_get.mp hpw ⟨i1 + 1, by omega⟩ ⟨i2, hi2⟩ hlt
          rw [hv2, ← hv1] at this
          exact this
        · have hi12 : i1 + 1 = i2 := by omega
          have : (sortRows l).get ⟨i1 + 1, by omega⟩ = (sortRows l).get ⟨i2, hi2⟩ := by
            congr 1
            exact Fin.ext hi12
          rw [this, hv2, ← hv1]
          exact binrow_le_refl _
      have := binrow_le_antisymm _ _ hle2 hle1
      rw [this, hv1]
    apply List.any_eq_true.mpr
    refine ⟨i1, List.mem_range.mpr (by omega), ?_⟩
    rw [getRow_eq_get _ i1 hi1, getRow_eq_get _ (i1 + 1) (by omega), hv1, hadj,
      Bool.and_eq_true, beq_iff_eq, beq_iff_eq]
    refine ⟨rfl, ?_⟩
    rw [← hcj, hv]

/-- `List.all` of a sized collection, by index. -/
theorem all_rows_iff (l : List BinRow) (n : Nat) (hlen : l.length = n)
    (P : BinRow → Bool) :
    l.all P = true ↔ ∀ i, i < n → P (getRow l i) = true := by
  rw [List.all_eq_true]
  constructor
  · intro h i hi
    have hil : i < l.length := by omega
    rw [getRow_eq_get l i hil]
    exact h _ (List.get_mem l i hil)
  · intro h x hx
    obtain ⟨k, hk⟩ := List.mem_iff_get.mp hx
    have hkn := h k.1 (by have := k.2; omega)
    rw [getRow_eq_get l k.1 k.2,
      show (⟨k.1, k.2⟩ : Fin l.length) = k from Fin.ext rfl, hk] at hkn
    exact hkn

/-- Boolean split of the `is_valid` collection scan into the four
collections. -/
theorem all_append4 (l1 l2 l3 l4 : List BinRow) (P : BinRow → Bool) :
    (l1 ++ l2 ++ l3 ++ l4).all P
      = (l1.all P && (l2.all P && (l3.all P && l4.all P))) := by
  simp [List.all_append, Bool.and_assoc]

/-- `Binox::is_valid` split into its per-line scan and the four duplicate
scans. -/
theorem binox_is_valid_iff (b : Binox) :
    b.is_valid = true ↔
      ((b.x_rows ++ b.o_cols ++ b.x_cols ++ b.o_cols).all BinRow.is_valid = true
        ∧ dupHalf (sortRows b.x_rows) b.size = false
        ∧ dupHalf (sortRows b.o_rows) b.size = false
        ∧ dupHalf (sortRows b.x_cols) b.size = false
        ∧ dupHalf (sortRows b.o_cols) b.size = false) := by
  unfold Binox.is_valid
  cases hall : (b.x_rows ++ b.o_cols ++ b.x_cols ++ b.o_cols).all BinRow.is_valid
  · simp
  · simp
    tauto

/-- The single-line `is_valid` check, decomposed. -/
theorem binrow_is_valid_iff (rr : BinRow) (n : Nat) (hsz : rr.size = n)
    (hn : n ≤ 16) (hw : rr.data < 2 ^ n) :
    rr.is_valid = true
      ↔ (noTriple rr.data n ∧ rr.count ≤ n / 2
          ∧ (rr.count = n / 2
              → noTriple (rr.data ^^^ ((1 <<< (n % 16)) - 1)) n)) := by
  have hcomp : rr.data ^^^ ((1 <<< (n % 16)) - 1) < 2 ^ n := by
    apply Nat.xor_lt_two_pow hw
    rw [one_shiftLeft_eq]
    rcases Nat.lt_or_ge n 16 with h | h
    · rw [Nat.mod_eq_of_lt h]
      have h1 : 1 ≤ 2 ^ n := Nat.one_le_two_pow
      omega
    · have h16 : n = 16 := by omega
      subst h16
      norm_num
  unfold BinRow.is_valid
  rw [hsz]
  rw [Bool.and_eq_true, Bool.and_eq_true, Bool.not_eq_true', Bool.and_eq_false_iff]
  rw [triple_test_iff rr.data n hw hn, decide_eq_true_eq]
  constructor
  · rintro ⟨⟨h1, h2⟩, h3⟩
    refine ⟨h1, h2, ?_⟩
    intro hhalf
    rcases h3 with h3 | h3
    · exact absurd hhalf (by simpa using h3)
    · apply (triple_test_iff _ n hcomp hn).mp
      simpa using h3
  · rintro ⟨h1, h2, h3⟩
    refine ⟨⟨h1, h2⟩, ?_⟩
    by_cases hhalf : rr.count = n / 2
    · right
      have := (triple_test_iff _ n hcomp hn).mpr (h3 hhalf)
      simpa using this
    · left
      simpa using hhalf

/-- Line counts as cardinalities of the in-width bit sets. -/
theorem count_eq_card_bits (l : List BinRow) (n : Nat) (h : RowsInv l n) (hn : n ≤ 16)
    (i : Nat) (hi : i < n) :
    (getRow l i).count
      = ((Finset.range n).filter (fun j => (getRow l i).data.testBit j)).card := by
  rw [(h.2 i hi).2.2, popc16_eq_card _ n hn (h.2 i hi).2.1]

/-- Column-view bits mirror row-view bits (I2), x symbol. -/
theorem xcol_bit (b : Binox) (hb : b.Inv) (r c : Nat) (hr : r < b.size)
    (hc : c < b.size) :
    (getRow b.x_cols c).data.testBit r = (getRow b.x_rows r).data.testBit c := by
  rw [← BinRow.getCore_eq, ← BinRow.getCore_eq]
  exact ((hb.i2 r c hr hc).1).symm

/-- Column-view bits mirror row-view bits (I2), o symbol. -/
theorem ocol_bit (b : Binox) (hb : b.Inv) (r c : Nat) (hr : r < b.size)
    (hc : c < b.size) :
    (getRow b.o_cols c).data.testBit r = (getRow b.o_rows r).data.testBit c := by
  rw [← BinRow.getCore_eq, ← BinRow.getCore_eq]
  exact ((hb.i2 r c hr hc).2).symm

/-- An x column count, expressed over row-view bits. -/
theorem xcol_count_card (b : Binox) (hb : b.Inv) (c : Nat) (hc : c < b.size) :
    (getRow b.x_cols c).count
      = ((Finset.range b.size).filter
          (fun r => (getRow b.x_rows r).data.testBit c)).card := by
  rw [count_eq_card_bits b.x_cols b.size hb.xc hb.ub c hc]
  congr 1
  apply Finset.filter_congr
  intro r hrm
  have hr := Finset.mem_range.mp hrm
  simp [xcol_bit b hb r c hr hc]

/-- An o column count, expressed over row-view bits. -/
theorem ocol_count_card (b : Binox) (hb : b.Inv) (c : Nat) (hc : c < b.size) :
    (getRow b.o_cols c).count
      = ((Finset.range b.size).filter
          (fun r => (getRow b.o_rows r).data.testBit c)).card := by
  rw [count_eq_card_bits b.o_cols b.size hb.oc hb.ub c hc]
  congr 1
  apply Finset.filter_congr
  intro r hrm
  have hr := Finset.mem_range.mp hrm
  simp [ocol_bit b hb r c hr hc]

/-- On a full board every column is exactly covered by the two symbols. -/
theorem col_filled_count (b : Binox) (hb : b.Inv) (hf : b.is_full = true)
    (c : Nat) (hc : c < b.size) :
    (getRow b.x_cols c).count + (getRow b.o_cols c).count = b.size := by
  rw [xcol_count_card b hb c hc, ocol_count_card b hb c hc]
  set X := (Finset.range b.size).filter
    (fun r => (getRow b.x_rows r).data.testBit c) with hX
  set O2 := (Finset.range b.size).filter
    (fun r => (getRow b.o_rows r).data.testBit c) with hO
  have hdisj : Disjoint X O2 := by
    rw [Finset.disjoint_left]
    intro a haX haO
    rw [hX, Finset.mem_filter] at haX
    rw [hO, Finset.mem_filter, Finset.mem_range] at haO
    exact hb.i1 a c haO.1 hc
      ⟨by rw [BinRow.getCore_eq]; exact haX.2, by rw [BinRow.getCore_eq]; exact haO.2⟩
  rw [← Finset.card_union_of_disjoint hdisj]
  have hequ : X ∪ O2 = Finset.range b.size := by
    apply Finset.Subset.antisymm
      (Finset.union_subset (Finset.filter_subset _ _) (Finset.filter_subset _ _))
    intro r hrr
    have hr := Finset.mem_range.mp hrr
    have hne := (is_full_iff b hb).mp hf r c hr hc
    have hne2 : ¬((getRow b.x_rows r).getCore c = false
        ∧ (getRow b.o_rows r).getCore c = false) :=
      fun h => hne ((empty_iff_bits b hb r c hr hc).mpr h)
    cases hxv : (getRow b.x_rows r).getCore c
    · cases hov : (getRow b.o_rows r).getCore c
      · exact absurd ⟨hxv, hov⟩ hne2
      · apply Finset.mem_union_right
        rw [Finset.mem_filter]
        rw [BinRow.getCore_eq] at hov
        exact ⟨hrr, hov⟩
    · apply Finset.mem_union_left
      rw [Finset.mem_filter]
      rw [BinRow.getCore_eq] at hxv
      exact ⟨hrr, hxv⟩
  rw [hequ, Finset.card_range]

/-- Double counting the o symbol: row counts and column counts have the
same total. -/
theorem sum_orow_eq_sum_ocol (b : Binox) (hb : b.Inv) :
    (∑ r ∈ Finset.range b.size, (getRow b.o_rows r).count)
      = ∑ c ∈ Finset.range b.size, (getRow b.o_cols c).count := by
  have hrow : ∀ r ∈ Finset.range b.size, (getRow b.o_rows r).count
      = ∑ c ∈ Finset.range b.size,
          if (getRow b.o_rows r).data.testBit c then 1 else 0 := by
    intro r hrm
    rw [count_eq_card_bits b.o_rows b.size hb.orr hb.ub r (Finset.mem_range.mp hrm),
      Finset.card_filter]
  have hcol : ∀ c ∈ Finset.range b.size, (getRow b.o_cols c).count
      = ∑ r ∈ Finset.range b.size,
          if (getRow b.o_rows r).data.testBit c then 1 else 0 := by
    intro c hcm
    rw [ocol_count_card b hb c (Finset.mem_range.mp hcm), Finset.card_filter]
  rw [Finset.sum_congr rfl hrow, Finset.sum_congr rfl hcol, Finset.sum_comm]

/-- On a full board that passes `is_valid`, every line of all four
collections holds exactly half the cells: the checked bounds on x rows
and both column collections force the unchecked o rows to exactly half
by double counting. -/
theorem balanced_counts (cc : Binox) (hcc : cc.Inv) (hf : cc.is_full = true)
    (hv : cc.is_valid = true) :
    ∀ i, i < cc.size →
      (getRow cc.x_rows i).count = cc.size / 2
      ∧ (getRow cc.o_rows i).count = cc.size / 2
      ∧ (getRow cc.x_cols i).count = cc.size / 2
      ∧ (getRow cc.o_cols i).count = cc.size / 2 := by
  obtain ⟨hall, -, -, -, -⟩ := (binox_is_valid_iff cc).mp hv
  rw [all_append4, Bool.and_eq_true, Bool.and_eq_true, Bool.and_eq_true] at hall
  obtain ⟨hxr, hoc1, hxc, hoc2⟩ := hall
  have hxr_le : ∀ i, i < cc.size → (getRow cc.x_rows i).count ≤ cc.size / 2 := by
    intro i hi
    have hvline := (all_rows_iff cc.x_rows cc.size hcc.xr.1 _).mp hxr i hi
    exact ((binrow_is_valid_iff _ cc.size (hcc.xr.2 i hi).1 hcc.ub
      (hcc.xr.2 i hi).2.1).mp hvline).2.1
  have hxc_le : ∀ i, i < cc.size → (getRow cc.x_cols i).count ≤ cc.size / 2 := by
    intro i hi
    have hvline := (all_rows_iff cc.x_cols cc.size hcc.xc.1 _).mp hxc i hi
    exact ((binrow_is_valid_iff _ cc.size (hcc.xc.2 i hi).1 hcc.ub
      (hcc.xc.2 i hi).2.1).mp hvline).2.1
  have hoc_le : ∀ i, i < cc.size → (getRow cc.o_cols i).count ≤ cc.size / 2 := by
    intro i hi
    have hvline := (all_rows_iff cc.o_cols cc.size hcc.oc.1 _).mp hoc1 i hi
    exact ((binrow_is_valid_iff _ cc.size (hcc.oc.2 i hi).1 hcc.ub
      (hcc.oc.2 i hi).2.1).mp hvline).2.1
  have hfull_row : ∀ i, i < cc.size →
      (getRow cc.x_rows i).count + (getRow cc.o_rows i).count = cc.size := by
    intro i hi
    unfold Binox.is_full at hf
    rw [List.all_eq_true] at hf
    have := hf i (List.mem_range.mpr hi)
    rwa [beq_iff_eq] at this
  have hfull_col : ∀ i, i < cc.size →
      (getRow cc.x_cols i).count + (getRow cc.o_cols i).count = cc.size :=
    fun i hi => col_filled_count cc hcc hf i hi
  have hev : cc.size % 2 = 0 := hcc.even
  have hor_ge : ∀ i, i < cc.size → cc.size / 2 ≤ (getRow cc.o_rows i).count := by
    intro i hi
    have h1 := hfull_row i hi
    have h2 := hxr_le i hi
    omega
  have hsum_le : (∑ r ∈ Finset.range cc.size, (getRow cc.o_rows r).count)
      ≤ cc.size * (cc.size / 2) := by
    rw [sum_orow_eq_sum_ocol cc hcc]
    calc (∑ c ∈ Finset.range cc.size, (getRow cc.o_cols c).count)
        ≤ ∑ _c ∈ Finset.range cc.size, cc.size / 2 :=
          Finset.sum_le_sum (fun c hcm => hoc_le c (Finset.mem_range.mp hcm))
    _ = cc.size * (cc.size / 2) := by
        rw [Finset.sum_const, Finset.card_range, smul_eq_mul]
  have hor_eq : ∀ i, i < cc.size → (getRow cc.o_rows i).count = cc.size / 2 := by
    intro i hi
    by_contra hne
    have hgt : cc.size / 2 < (getRow cc.o_rows i).count := by
      have := hor_ge i hi
      omega
    have hlt : (∑ _r ∈ Finset.range cc.size, cc.size / 2)
        < ∑ r ∈ Finset.range cc.size, (getRow cc.o_rows r).count :=
      Finset.sum_lt_sum (fun r hrm => hor_ge r (Finset.mem_range.mp hrm))
        ⟨i, Finset.mem_range.mpr hi, hgt⟩
    rw [Finset.sum_const, Finset.card_range, smul_eq_mul] at hlt
    omega
  intro i hi
  have h1 := hfull_row i hi
  have h2 := hfull_col i hi
  have h3 := hor_eq i hi
  have h4 := hxc_le i hi
  have h5 := hoc_le i hi
  refine ⟨by omega, h3, by omega, by omega⟩

/-- Board extension makes every x row a bitwise superset, row view. -/
theorem xrow_bit_subset (b cc : Binox) (hb : b.Inv) (hcc : cc.Inv)
    (hext : BoardExt b cc) (r : Nat) (hr : r < b.size) :
    ∀ i, (getRow b.x_rows r).data.testBit i = true
      → (getRow cc.x_rows r).data.testBit i = true := by
  intro i hbit
  have hsz : b.size = cc.size := hext.1
  by_cases hin : i < b.size
  · have hget : (getRow b.x_rows r).getCore i = true := by
      rw [BinRow.getCore_eq]; exact hbit
    have hcell : b.get_cellCore r i = .X := (xbit_iff_cell b hb r i hr hin).mp hget
    have hcc_cell : cc.get_cellCore r i = .X := by
      rw [hext.2 r i hr hin (by rw [hcell]; exact fun h => BinoxCell.noConfusion h)]
      exact hcell
    have hgc := (xbit_iff_cell cc hcc r i (by omega) (by omega)).mpr hcc_cell
    rwa [BinRow.getCore_eq] at hgc
  · rw [testBit_false_of_lt_two_pow (hb.xr.2 r hr).2.1 (by omega)] at hbit
    cases hbit

/-- Board extension makes every o row a bitwise superset, row view. -/
theorem orow_bit_subset (b cc : Binox) (hb : b.Inv) (hcc : cc.Inv)
    (hext : BoardExt b cc) (r : Nat) (hr : r < b.size) :
    ∀ i, (getRow b.o_rows r).data.testBit i = true
      → (getRow cc.o_rows r).data.testBit i = true := by
  intro i hbit
  have hsz : b.size = cc.size := hext.1
  by_cases hin : i < b.size
  · have hget : (getRow b.o_rows r).getCore i = true := by
      rw [BinRow.getCore_eq]; exact hbit
    have hcell : b.get_cellCore r i = .O := (obit_iff_cell b hb r i hr hin).mp hget
    have hcc_cell : cc.get_cellCore r i = .O := by
      rw [hext.2 r i hr hin (by rw [hcell]; exact fun h => BinoxCell.noConfusion h)]
      exact hcell
    have hgc := (obit_iff_cell cc hcc r i (by omega) (by omega)).mpr hcc_cell
    rwa [BinRow.getCore_eq] at hgc
  · rw [testBit_false_of_lt_two_pow (hb.orr.2 r hr).2.1 (by omega)] at hbit
    cases hbit

/-- Board extension makes every x column a bitwise superset. -/
theorem xcol_bit_subset (b cc : Binox) (hb : b.Inv) (hcc : cc.Inv)
    (hext : BoardExt b cc) (c : Nat) (hc : c < b.size) :
    ∀ i, (getRow b.x_cols c).data.testBit i = true
      → (getRow cc.x_cols c).data.testBit i = true := by
  intro i hbit
  have hsz : b.size = cc.size := hext.1
  by_cases hin : i < b.size
  · rw [xcol_bit b hb i c hin hc] at hbit
    rw [xcol_bit cc hcc i c (by omega) (by omega)]
    exact xrow_bit_subset b cc hb hcc hext i hin c hbit
  · rw [testBit_false_of_lt_two_pow (hb.xc.2 c hc).2.1 (by omega)] at hbit
    cases hbit

/-- Board extension makes every o column a bitwise superset. -/
theorem ocol_bit_subset (b cc : Binox) (hb : b.Inv) (hcc : cc.Inv)
    (hext : BoardExt b cc) (c : Nat) (hc : c < b.size) :
    ∀ i, (getRow b.o_cols c).data.testBit i = true
      → (getRow cc.o_cols c).data.testBit i = true := by
  intro i hbit
  have hsz : b.size = cc.size := hext.1
  by_cases hin : i < b.size
  · rw [ocol_bit b hb i c hin hc] at hbit
    rw [ocol_bit cc hcc i c (by omega) (by omega)]
    exact orow_bit_subset b cc hb hcc hext i hin c hbit
  · rw [testBit_false_of_lt_two_pow (hb.oc.2 c hc).2.1 (by omega)] at hbit
    cases hbit

/-- A bitwise subset has a smaller count; with equal counts the lines are
equal outright. -/
theorem subset_count_le (rb rc : BinRow)
    (hwb : rb.data < 65536) (hwc : rc.data < 65536)
    (hcb : rb.count = popc16 rb.data) (hcc : rc.count = popc16 rc.data)
    (hsub : ∀ i, rb.data.testBit i = true → rc.data.testBit i = true) :
    rb.count ≤ rc.count ∧ (rb.count = rc.count → rb.size = rc.size → rb = rc) := by
  have hfil : (Finset.range 16).filter (fun i => rb.data.testBit i)
      ⊆ (Finset.range 16).filter (fun i => rc.data.testBit i) := by
    intro i him
    rw [Finset.mem_filter] at him ⊢
    exact ⟨him.1, hsub i him.2⟩
  constructor
  · rw [hcb, hcc]
    exact Finset.card_le_card hfil
  · intro hceq hszeq
    have hcard : ((Finset.range 16).filter (fun i => rc.data.testBit i)).card
        ≤ ((Finset.range 16).filter (fun i => rb.data.testBit i)).card := by
      unfold popc16 at hcb hcc
      omega
    have hset := Finset.eq_of_subset_of_card_le hfil hcard
    apply binRow_fields_eq _ _ ?_ hszeq hceq
    apply Nat.eq_of_testBit_eq
    intro i
    by_cases hi : i < 16
    · have hext := Finset.ext_iff.mp hset i
      simp only [Finset.mem_filter, Finset.mem_range] at hext
      cases hbv : rb.data.testBit i
      · cases hcv : rc.data.testBit i
        · rfl
        · exfalso
          simp [hi, hbv, hcv] at hext
      · exact (hsub i hbv).symm
    · rw [testBit_false_of_lt_two_pow (show rb.data < 2 ^ 16 by omega) (by omega),
        testBit_false_of_lt_two_pow (show rc.data < 2 ^ 16 by omega) (by omega)]

/-- Transfer of the per-line `is_valid` check from a half-full superset
line down to a subset line. -/
theorem line_valid_transfer (rb rc : BinRow) (n : Nat) (hn : n ≤ 16)
    (hszb : rb.size = n) (hszc : rc.size = n)
    (hwb : rb.data < 2 ^ n) (hwc : rc.data < 2 ^ n)
    (hcb : rb.count = popc16 rb.data) (hcc2 : rc.count = popc16 rc.data)
    (hsub : ∀ i, rb.data.testBit i = true → rc.data.testBit i = true)
    (hv : rc.is_valid = true) (hhalf : rc.count = n / 2) :
    rb.is_valid = true := by
  have hpow : (2 : Nat) ^ n ≤ 65536 := by
    calc (2 : Nat) ^ n ≤ 2 ^ 16 := Nat.pow_le_pow_right (by norm_num) hn
    _ = 65536 := by norm_num
  obtain ⟨hle, heqq⟩ := subset_count_le rb rc (by omega) (by omega) hcb hcc2 hsub
  rcases Nat.lt_or_ge rb.count rc.count with hlt | hge
  · rw [binrow_is_valid_iff rb n hszb hn hwb]
    obtain ⟨hT, hcle, -⟩ := (binrow_is_valid_iff rc n hszc hn hwc).mp hv
    refine ⟨?_, by omega, ?_⟩
    · intro i hi htr
      obtain ⟨h1, h2, h3⟩ := htr
      exact hT i hi ⟨hsub _ h1, hsub _ h2, hsub _ h3⟩
    · intro habs
      exfalso
      omega
  · have heq2 : rb.count = rc.count := by omega
    rw [heqq heq2 (by rw [hszb, hszc])]
    exact hv

/-- Transfer the whole per-line scan of one collection down a bitwise
subset. -/
theorem lines_valid_transfer (lb lc : List BinRow) (n : Nat) (hinvb : RowsInv lb n)
    (hinvc : RowsInv lc n) (hn : n ≤ 16)
    (hsub : ∀ i, i < n → ∀ j, (getRow lb i).data.testBit j = true
      → (getRow lc i).data.testBit j = true)
    (hvalid : ∀ i, i < n → (getRow lc i).is_valid = true)
    (hbal : ∀ i, i < n → (getRow lc i).count = n / 2) :
    lb.all BinRow.is_valid = true := by
  rw [all_rows_iff lb n hinvb.1]
  intro i hi
  exact line_valid_transfer (getRow lb i) (getRow lc i) n hn (hinvb.2 i hi).1
    (hinvc.2 i hi).1 (hinvb.2 i hi).2.1 (hinvc.2 i hi).2.1 (hinvb.2 i hi).2.2
    (hinvc.2 i hi).2.2 (hsub i hi) (hvalid i hi) (hbal i hi)

/-- Transfer an index-level duplicate of one collection up a bitwise
subset into the half-full completion. -/
theorem dup_transfer (lb lc : List BinRow) (n : Nat) (hinvb : RowsInv lb n)
    (hinvc : RowsInv lc n) (hn : n ≤ 16)
    (hsub : ∀ i, i < n → ∀ j, (getRow lb i).data.testBit j = true
      → (getRow lc i).data.testBit j = true)
    (hbal : ∀ i, i < n → (getRow lc i).count = n / 2)
    (hdup : dupHalfProp lb n) : dupHalfProp lc n := by
  obtain ⟨j, k, hjn, hkn, hjk, hdeq, hcj⟩ := hdup
  have hck : (getRow lb k).count = n / 2 := by
    rw [(hinvb.2 k hkn).2.2, ← hdeq, ← (hinvb.2 j hjn).2.2]
    exact hcj
  have hbj : getRow lb j = getRow lc j :=
    (subset_count_le _ _ (rowsInv_data_lt lb n hinvb hn j hjn)
      (rowsInv_data_lt lc n hinvc hn j hjn) (hinvb.2 j hjn).2.2 (hinvc.2 j hjn).2.2
      (hsub j hjn)).2 (by rw [hcj, hbal j hjn]) (by rw [(hinvb.2 j hjn).1, (hinvc.2 j hjn).1])
  have hbk : getRow lb k = getRow lc k :=
    (subset_count_le _ _ (rowsInv_data_lt lb n hinvb hn k hkn)
      (rowsInv_data_lt lc n hinvc hn k hkn) (hinvb.2 k hkn).2.2 (hinvc.2 k hkn).2.2
      (hsub k hkn)).2 (by rw [hck, hbal k hkn]) (by rw [(hinvb.2 k hkn).1, (hinvc.2 k hkn).1])
  exact ⟨j, k, hjn, hkn, hjk, by rw [← hbj, ← hbk]; exact hdeq, by rw [← hbj]; exact hcj⟩

/-- A board admitting a completion already passes `is_valid`: the checked
collections are bitwise subsets of the completion's, which is balanced. -/
theorem valid_of_completion (b cc : Binox) (hb : b.Inv) (hcomp : IsCompletion b cc) :
    b.is_valid = true := by
  obtain ⟨hcc, hszb, hdef, hext, hfull, hvcc⟩ := hcomp
  have hbal := balanced_counts cc hcc hfull hvcc
  have hn16 : b.size ≤ 16 := hb.ub
  obtain ⟨hallcc, hdx, hdo, hdxc, hdoc⟩ := (binox_is_valid_iff cc).mp hvcc
  rw [all_append4, Bool.and_eq_true, Bool.and_eq_true, Bool.and_eq_true] at hallcc
  obtain ⟨hxrcc, hoccc, hxccc, -⟩ := hallcc
  have hxr_cc : RowsInv cc.x_rows b.size := hszb ▸ hcc.xr
  have horr_cc : RowsInv cc.o_rows b.size := hszb ▸ hcc.orr
  have hxc_cc : RowsInv cc.x_cols b.size := hszb ▸ hcc.xc
  have hoc_cc : RowsInv cc.o_cols b.size := hszb ▸ hcc.oc
  have hvx : ∀ i, i < b.size → (getRow cc.x_rows i).is_valid = true :=
    fun i hi => (all_rows_iff cc.x_rows b.size hxr_cc.1 _).mp hxrcc i hi
  have hvxc : ∀ i, i < b.size → (getRow cc.x_cols i).is_valid = true :=
    fun i hi => (all_rows_iff cc.x_cols b.size hxc_cc.1 _).mp hxccc i hi
  have hvoc : ∀ i, i < b.size → (getRow cc.o_cols i).is_valid = true :=
    fun i hi => (all_rows_iff cc.o_cols b.size hoc_cc.1 _).mp hoccc i hi
  have hbalx : ∀ i, i < b.size → (getRow cc.x_rows i).count = b.size / 2 := by
    intro i hi
    have := (hbal i (by omega)).1
    rwa [hszb] at this
  have hbalo : ∀ i, i < b.size → (getRow cc.o_rows i).count = b.size / 2 := by
    intro i hi
    have := (hbal i (by omega)).2.1
    rwa [hszb] at this
  have hbalxc : ∀ i, i < b.size → (getRow cc.x_cols i).count = b.size / 2 := by
    intro i hi
    have := (hbal i (by omega)).2.2.1
    rwa [hszb] at this
  have hbaloc : ∀ i, i < b.size → (getRow cc.o_cols i).count = b.size / 2 := by
    intro i hi
    have := (hbal i (by omega)).2.2.2
    rwa [hszb] at this
  rw [binox_is_valid_iff]
  refine ⟨?_, ?_, ?_, ?_, ?_⟩
  · rw [all_append4, Bool.and_eq_true, Bool.and_eq_true, Bool.and_eq_true]
    refine ⟨?_, ?_, ?_, ?_⟩
    · exact lines_valid_transfer b.x_rows cc.x_rows b.size hb.xr hxr_cc hn16
        (fun i hi => xrow_bit_subset b cc hb hcc hext i hi) hvx hbalx
    · exact lines_valid_transfer b.o_cols cc.o_cols b.size hb.oc hoc_cc hn16
        (fun i hi => ocol_bit_subset b cc hb hcc hext i hi) hvoc hbaloc
    · exact lines_valid_transfer b.x_cols cc.x_cols b.size hb.xc hxc_cc hn16
        (fun i hi => xcol_bit_subset b cc hb hcc hext i hi) hvxc hbalxc
    · exact lines_valid_transfer b.o_cols cc.o_cols b.size hb.oc hoc_cc hn16
        (fun i hi => ocol_bit_subset b cc hb hcc hext i hi) hvoc hbaloc
  · cases hdupb : dupHalf (sortRows b.x_rows) b.size
    · rfl
    · exfalso
      have hpropcc := dup_transfer b.x_rows cc.x_rows b.size hb.xr hxr_cc hn16
        (fun i hi => xrow_bit_subset b cc hb hcc hext i hi) hbalx
        ((dupHalf_sortRows_iff b.x_rows b.size hb.xr).mp hdupb)
      have htrue := (dupHalf_sortRows_iff cc.x_rows b.size hxr_cc).mpr hpropcc
      rw [hszb, htrue] at hdx
      simp at hdx
  · cases hdupb : dupHalf (sortRows b.o_rows) b.size
    · rfl
    · exfalso
      have hpropcc := dup_transfer b.o_rows cc.o_rows b.size hb.orr horr_cc hn16
        (fun i hi => orow_bit_subset b cc hb hcc hext i hi) hbalo
        ((dupHalf_sortRows_iff b.o_rows b.size hb.orr).mp hdupb)
      have htrue := (dupHalf_sortRows_iff cc.o_rows b.size horr_cc).mpr hpropcc
      rw [hszb, htrue] at hdo
      simp at hdo
  · cases hdupb : dupHalf (sortRows b.x_cols) b.size
    · rfl
    · exfalso
      have hpropcc := dup_transfer b.x_cols cc.x_cols b.size hb.xc hxc_cc hn16
        (fun i hi => xcol_bit_subset b cc hb hcc hext i hi) hbalxc
        ((dupHalf_sortRows_iff b.x_cols b.size hb.xc).mp hdupb)
      have htrue := (dupHalf_sortRows_iff cc.x_cols b.size hxc_cc).mpr hpropcc
      rw [hszb, htrue] at hdxc
      simp at hdxc
  · cases hdupb : dupHalf (sortRows b.o_cols) b.size
    · rfl
    · exfalso
      have hpropcc := dup_transfer b.o_cols cc.o_cols b.size hb.oc hoc_cc hn16
        (fun i hi => ocol_bit_subset b cc hb hcc hext i hi) hbaloc
        ((dupHalf_sortRows_iff b.o_cols b.size hb.oc).mp hdupb)
      have htrue := (dupHalf_sortRows_iff cc.o_cols b.size hoc_cc).mpr hpropcc
      rw [hszb, htrue] at hdoc
      simp at hdoc

/-- Every in-range cell of a completion holds a symbol. -/
theorem completion_cell_filled (b cc : Binox) (h : IsCompletion b cc) (r c : Nat)
    (hr : r < b.size) (hc : c < b.size) :
    cc.get_cellCore r c = .X ∨ cc.get_cellCore r c = .O := by
  obtain ⟨hcc, hsz, -, -, hfull, -⟩ := h
  have hne := (is_full_iff cc hcc).mp hfull r c (by omega) (by omega)
  cases hcase : cc.get_cellCore r c
  · exact Or.inl rfl
  · exact Or.inr rfl
  · exact absurd hcase hne

/-- A completion showing X at the cell also completes the board with X
committed there. -/
theorem completion_set_x (b cc : Binox) (r c : Nat) (hb : b.Inv) (hr : r < b.size)
    (hc : c < b.size) (hcomp : IsCompletion b cc) (hcell : cc.get_cellCore r c = .X) :
    IsCompletion (b.set_xCore r c) cc := by
  obtain ⟨hcc, hsz, hdef, hext, hfull, hv⟩ := hcomp
  have h16 : b.size ≤ 16 := hb.ub
  have hrx : r < b.x_rows.length := by rw [hb.xr.1]; exact hr
  refine ⟨hcc, ?_, ?_, ⟨?_, ?_⟩, hfull, hv⟩
  · rw [size_set_xCore]
    exact hsz
  · intro r' c' hr' hc'
    rw [size_set_xCore] at hr' hc'
    rw [is_defaultCore_set_xCore]
    exact hdef r' c' hr' hc'
  · rw [size_set_xCore]
    exact hext.1
  · intro r' c' hr' hc' hne
    rw [size_set_xCore] at hr' hc'
    by_cases heq : r' = r ∧ c' = c
    · rw [get_cellCore_set_xCore b r c r' c' hrx (by omega), if_pos heq, heq.1, heq.2]
      exact hcell
    · rw [get_cellCore_set_xCore_ne b r c r' c' heq (by omega)]
      rw [get_cellCore_set_xCore_ne b r c r' c' heq (by omega)] at hne
      exact hext.2 r' c' hr' hc' hne

/-- A completion showing O at the cell also completes the board with O
committed there. -/
theorem completion_set_o (b cc : Binox) (r c : Nat) (hb : b.Inv) (hr : r < b.size)
    (hc : c < b.size) (hcomp : IsCompletion b cc) (hcell : cc.get_cellCore r c = .O) :
    IsCompletion (b.set_oCore r c) cc := by
  obtain ⟨hcc, hsz, hdef, hext, hfull, hv⟩ := hcomp
  have h16 : b.size ≤ 16 := hb.ub
  have hro : r < b.o_rows.length := by rw [hb.orr.1]; exact hr
  refine ⟨hcc, ?_, ?_, ⟨?_, ?_⟩, hfull, hv⟩
  · rw [size_set_oCore]
    exact hsz
  · intro r' c' hr' hc'
    rw [size_set_oCore] at hr' hc'
    rw [is_defaultCore_set_oCore]
    exact hdef r' c' hr' hc'
  · rw [size_set_oCore]
    exact hext.1
  · intro r' c' hr' hc' hne
    rw [size_set_oCore] at hr' hc'
    by_cases heq : r' = r ∧ c' = c
    · rw [get_cellCore_set_oCore b r c r' c' hro (by omega), if_pos heq, heq.1, heq.2]
      exact hcell
    · rw [get_cellCore_set_oCore_ne b r c r' c' heq (by omega)]
      rw [get_cellCore_set_oCore_ne b r c r' c' heq (by omega)] at hne
      exact hext.2 r' c' hr' hc' hne

/-- Completing the board with X committed on a previously Empty cell also
completes the original board. -/
theorem completion_unset_x (b cc : Binox) (r c : Nat) (hb : b.Inv) (hr : r < b.size)
    (hc : c < b.size) (hemp : b.get_cellCore r c = .EMPTY)
    (hcomp : IsCompletion (b.set_xCore r c) cc) : IsCompletion b cc := by
  obtain ⟨hcc, hsz, hdef, hext, hfull, hv⟩ := hcomp
  have h16 : b.size ≤ 16 := hb.ub
  rw [size_set_xCore] at hsz
  refine ⟨hcc, hsz, ?_, ?_, hfull, hv⟩
  · intro r' c' hr' hc'
    have hd := hdef r' c' (by rw [size_set_xCore]; exact hr')
      (by rw [size_set_xCore]; exact hc')
    rwa [is_defaultCore_set_xCore] at hd
  · refine boardExt_trans ?_ hext
    refine ⟨(size_set_xCore b r c).symm, ?_⟩
    intro r' c' hr' hc' hne
    have hne2 : ¬(r' = r ∧ c' = c) := by
      rintro ⟨rfl, rfl⟩
      exact hne hemp
    rw [get_cellCore_set_xCore_ne b r c r' c' hne2 (by omega)]

/-- Completing the board with O committed on a previously Empty cell also
completes the original board. -/
theorem completion_unset_o (b cc : Binox) (r c : Nat) (hb : b.Inv) (hr : r < b.size)
    (hc : c < b.size) (hemp : b.get_cellCore r c = .EMPTY)
    (hcomp : IsCompletion (b.set_oCore r c) cc) : IsCompletion b cc := by
  obtain ⟨hcc, hsz, hdef, hext, hfull, hv⟩ := hcomp
  have h16 : b.size ≤ 16 := hb.ub
  rw [size_set_oCore] at hsz
  refine ⟨hcc, hsz, ?_, ?_, hfull, hv⟩
  · intro r' c' hr' hc'
    have hd := hdef r' c' (by rw [size_set_oCore]; exact hr')
      (by rw [size_set_oCore]; exact hc')
    rwa [is_defaultCore_set_oCore] at hd
  · refine boardExt_trans ?_ hext
    refine ⟨(size_set_oCore b r c).symm, ?_⟩
    intro r' c' hr' hc' hne
    have hne2 : ¬(r' = r ∧ c' = c) := by
      rintro ⟨rfl, rfl⟩
      exact hne hemp
    rw [get_cellCore_set_oCore_ne b r c r' c' hne2 (by omega)]

/-- The presolve sweep preserves the completion set: a `Bad` result means
no completion exists, and a `Good` result leaves a board with exactly the
same completions. -/
theorem presolveAux_completions (cells : List (Nat × Nat)) : ∀ (b : Binox), b.Inv →
    (∀ rc ∈ cells, rc.1 < b.size ∧ rc.2 < b.size) →
    ((Binox.presolveAux b cells).1 = .Bad → ∀ cc, ¬ IsCompletion b cc)
    ∧ ((Binox.presolveAux b cells).1 = .Good →
        ∀ cc, (IsCompletion b cc ↔ IsCompletion (Binox.presolveAux b cells).2 cc)) := by
  induction cells with
  | nil =>
    intro b hb hcells
    constructor
    · intro hbad
      cases hbad
    · intro _ cc
      exact Iff.rfl
  | cons rc0 rest ih =>
    intro b hb hcells
    obtain ⟨r0, c0⟩ := rc0
    obtain ⟨hr0, hc0⟩ := hcells (r0, c0) (by simp)
    have hrest : ∀ x ∈ rest, x.1 < b.size ∧ x.2 < b.size :=
      fun x hx => hcells x (by simp [hx])
    rw [presolveAux_cons]
    by_cases hemp : b.get_cellCore r0 c0 = .EMPTY
    · rw [if_pos (by rw [hemp]; rfl)]
      have hoid : (b.set_xCore r0 c0).set_oCore r0 c0 = b.set_oCore r0 c0 :=
        commit_o_id b r0 c0 hb hr0 hc0
      cases hxv : (b.set_xCore r0 c0).is_valid <;>
        cases hov : ((b.set_xCore r0 c0).set_oCore r0 c0).is_valid
      · -- neither symbol fits: Bad, no completion
        constructor
        · intro _ cc hcomp
          rcases completion_cell_filled b cc hcomp r0 c0 hr0 hc0 with hcell | hcell
          · have hcx := completion_set_x b cc r0 c0 hb hr0 hc0 hcomp hcell
            have := valid_of_completion _ cc (inv_set_xCore b r0 c0 hb hr0 hc0) hcx
            rw [this] at hxv
            cases hxv
          · have hco := completion_set_o b cc r0 c0 hb hr0 hc0 hcomp hcell
            have := valid_of_completion _ cc (inv_set_oCore b r0 c0 hb hr0 hc0) hco
            rw [hoid, this] at hov
            cases hov
        · intro hgood
          cases hgood
      · -- only O fits: commit O
        have hbid : ((b.set_xCore r0 c0).set_oCore r0 c0).set_oCore r0 c0
            = b.set_oCore r0 c0 := by
          rw [hoid]
          exact set_o_idem b r0 c0 hb hr0 hc0
        rw [hbid]
        have hinvo : (b.set_oCore r0 c0).Inv := inv_set_oCore b r0 c0 hb hr0 hc0
        have hresto : ∀ x ∈ rest, x.1 < (b.set_oCore r0 c0).size
            ∧ x.2 < (b.set_oCore r0 c0).size := by
          intro x hx
          rw [size_set_oCore]
          exact hrest x hx
        obtain ⟨ihbad, ihgood⟩ := ih (b.set_oCore r0 c0) hinvo hresto
        have hlink : ∀ cc, IsCompletion b cc ↔ IsCompletion (b.set_oCore r0 c0) cc := by
          intro cc
          constructor
          · intro hcomp
            rcases completion_cell_filled b cc hcomp r0 c0 hr0 hc0 with hcell | hcell
            · exfalso
              have hcx := completion_set_x b cc r0 c0 hb hr0 hc0 hcomp hcell
              have := valid_of_completion _ cc (inv_set_xCore b r0 c0 hb hr0 hc0) hcx
              rw [this] at hxv
              cases hxv
            · exact completion_set_o b cc r0 c0 hb hr0 hc0 hcomp hcell
          · exact completion_unset_o b cc r0 c0 hb hr0 hc0 hemp
        constructor
        · intro hbad cc hcomp
          exact ihbad hbad cc ((hlink cc).mp hcomp)
        · intro hgood cc
          exact (hlink cc).trans (ihgood hgood cc)
      · -- only X fits: commit X
        have hbid : ((b.set_xCore r0 c0).set_oCore r0 c0).set_xCore r0 c0
            = b.set_xCore r0 c0 := by
          rw [hoid]
          exact commit_x_id b r0 c0 hb hr0 hc0
        rw [hbid]
        have hinvx : (b.set_xCore r0 c0).Inv := inv_set_xCore b r0 c0 hb hr0 hc0
        have hrestx : ∀ x ∈ rest, x.1 < (b.set_xCore r0 c0).size
            ∧ x.2 < (b.set_xCore r0 c0).size := by
          intro x hx
          rw [size_set_xCore]
          exact hrest x hx
        obtain ⟨ihbad, ihgood⟩ := ih (b.set_xCore r0 c0) hinvx hrestx
        have hlink : ∀ cc, IsCompletion b cc ↔ IsCompletion (b.set_xCore r0 c0) cc := by
          intro cc
          constructor
          · intro hcomp
            rcases completion_cell_filled b cc hcomp r0 c0 hr0 hc0 with hcell | hcell
            · exact completion_set_x b cc r0 c0 hb hr0 hc0 hcomp hcell
            · exfalso
              have hco := completion_set_o b cc r0 c0 hb hr0 hc0 hcomp hcell
              have := valid_of_completion _ cc (inv_set_oCore b r0 c0 hb hr0 hc0) hco
              rw [hoid, this] at hov
              cases hov
          · exact completion_unset_x b cc r0 c0 hb hr0 hc0 hemp
        constructor
        · intro hbad cc hcomp
          exact ihbad hbad cc ((hlink cc).mp hcomp)
        · intro hgood cc
          exact (hlink cc).trans (ihgood hgood cc)
      · -- both fit: revert and move on
        have hbid : ((b.set_xCore r0 c0).set_oCore r0 c0).set_emptyCore r0 c0 = b :=
          revert_id b r0 c0 hb hr0 hc0 hemp
        rw [hbid]
        exact ih b hb hrest
    · rw [if_neg (by simp [hemp])]
      exact ih b hb hrest

/-- A `Good` presolve result is the unchanged board or a valid board (the
last committed write was validated). -/
theorem presolveAux_good_valid (cells : List (Nat × Nat)) : ∀ (b : Binox), b.Inv →
    (∀ rc ∈ cells, rc.1 < b.size ∧ rc.2 < b.size) →
    (Binox.presolveAux b cells).1 = .Good →
    ((Binox.presolveAux b cells).2 = b ∨ (Binox.presolveAux b cells).2.is_valid = true) := by
  induction cells with
  | nil =>
    intro b hb hcells _
    exact Or.inl rfl
  | cons rc0 rest ih =>
    intro b hb hcells hgood
    obtain ⟨r0, c0⟩ := rc0
    obtain ⟨hr0, hc0⟩ := hcells (r0, c0) (by simp)
    have hrest : ∀ x ∈ rest, x.1 < b.size ∧ x.2 < b.size :=
      fun x hx => hcells x (by simp [hx])
    rw [presolveAux_cons] at hgood ⊢
    by_cases hemp : b.get_cellCore r0 c0 = .EMPTY
    · rw [if_pos (by rw [hemp]; rfl)] at hgood ⊢
      have hoid : (b.set_xCore r0 c0).set_oCore r0 c0 = b.set_oCore r0 c0 :=
        commit_o_id b r0 c0 hb hr0 hc0
      cases hxv : (b.set_xCore r0 c0).is_valid <;>
        cases hov : ((b.set_xCore r0 c0).set_oCore r0 c0).is_valid <;>
        rw [hxv, hov] at hgood
      · cases hgood
      · have hbid : ((b.set_xCore r0 c0).set_oCore r0 c0).set_oCore r0 c0
            = b.set_oCore r0 c0 := by
          rw [hoid]
          exact set_o_idem b r0 c0 hb hr0 hc0
        have hgood2 : (Binox.presolveAux
            (((b.set_xCore r0 c0).set_oCore r0 c0).set_oCore r0 c0) rest).1
            = PresolveResult.Good := hgood
        rw [hbid] at hgood2
        show (Binox.presolveAux
            (((b.set_xCore r0 c0).set_oCore r0 c0).set_oCore r0 c0) rest).2 = b
          ∨ (Binox.presolveAux
            (((b.set_xCore r0 c0).set_oCore r0 c0).set_oCore r0 c0) rest).2.is_valid = true
        rw [hbid]
        have hinvo : (b.set_oCore r0 c0).Inv := inv_set_oCore b r0 c0 hb hr0 hc0
        have hresto : ∀ x ∈ rest, x.1 < (b.set_oCore r0 c0).size
            ∧ x.2 < (b.set_oCore r0 c0).size := by
          intro x hx
          rw [size_set_oCore]
          exact hrest x hx
        rcases ih (b.set_oCore r0 c0) hinvo hresto hgood2 with heqb | hval
        · right
          rw [heqb, ← hoid]
          exact hov
        · right
          exact hval
      · have hbid : ((b.set_xCore r0 c0).set_oCore r0 c0).set_xCore r0 c0
            = b.set_xCore r0 c0 := by
          rw [hoid]
          exact commit_x_id b r0 c0 hb hr0 hc0
        have hgood2 : (Binox.presolveAux
            (((b.set_xCore r0 c0).set_oCore r0 c0).set_xCore r0 c0) rest).1
            = PresolveResult.Good := hgood
        rw [hbid] at hgood2
        show (Binox.presolveAux
            (((b.set_xCore r0 c0).set_oCore r0 c0).set_xCore r0 c0) rest).2 = b
          ∨ (Binox.presolveAux
            (((b.set_xCore r0 c0).set_oCore r0 c0).set_xCore r0 c0) rest).2.is_valid = true
        rw [hbid]
        have hinvx : (b.set_xCore r0 c0).Inv := inv_set_xCore b r0 c0 hb hr0 hc0
        have hrestx : ∀ x ∈ rest, x.1 < (b.set_xCore r0 c0).size
            ∧ x.2 < (b.set_xCore r0 c0).size := by
          intro x hx
          rw [size_set_xCore]
          exact hrest x hx
        rcases ih (b.set_xCore r0 c0) hinvx hrestx hgood2 with heqb | hval
        · right
          rw [heqb]
          exact hxv
        · right
          exact hval
      · have hbid : ((b.set_xCore r0 c0).set_oCore r0 c0).set_emptyCore r0 c0 = b :=
          revert_id b r0 c0 hb hr0 hc0 hemp
        have hgood2 : (Binox.presolveAux
            (((b.set_xCore r0 c0).set_oCore r0 c0).set_emptyCore r0 c0) rest).1
            = PresolveResult.Good := hgood
        rw [hbid] at hgood2
        show (Binox.presolveAux
            (((b.set_xCore r0 c0).set_oCore r0 c0).set_emptyCore r0 c0) rest).2 = b
          ∨ (Binox.presolveAux
            (((b.set_xCore r0 c0).set_oCore r0 c0).set_emptyCore r0 c0) rest).2.is_valid
            = true
        rw [hbid]
        exact ih b hb hrest hgood2
    · rw [if_neg (by simp [hemp])] at hgood ⊢
      exact ih b hb hrest hgood

/-- Completion facts specialised to the full sweep of `presolve`. -/
theorem presolve_completions (b : Binox) (hb : b.Inv) :
    ((b.presolve).1 = .Bad → ∀ cc, ¬ IsCompletion b cc)
    ∧ ((b.presolve).1 = .Good →
        ∀ cc, (IsCompletion b cc ↔ IsCompletion (b.presolve).2 cc)) :=
  presolveAux_completions (sweepOrder b.size) b hb (fun _ hrc => mem_sweepOrder hrc)

/-- After a `Good` presolve of a valid board, the result is valid. -/
theorem presolve_good_valid (b : Binox) (hb : b.Inv) (hbv : b.is_valid = true)
    (hgood : (b.presolve).1 = .Good) : (b.presolve).2.is_valid = true := by
  rcases presolveAux_good_valid (sweepOrder b.size) b hb
      (fun _ hrc => mem_sweepOrder hrc) hgood with heq | hval
  · show (Binox.presolveAux b (sweepOrder b.size)).2.is_valid = true
    rw [heq]
    exact hbv
  · exact hval

/-- Membership in `alternated_range`. -/
theorem mem_alternated_range (i n : Nat) : i ∈ alternated_range n ↔ i < n := by
  unfold alternated_range
  constructor
  · intro h
    rcases List.mem_append.mp h with h | h <;> exact List.mem_range.mp (List.mem_filter.mp h).1
  · intro h
    by_cases he : i % 2 = 0
    · exact List.mem_append.mpr (Or.inl (List.mem_filter.mpr
        ⟨List.mem_range.mpr h, by simp [he]⟩))
    · have ho : i % 2 = 1 := by omega
      exact List.mem_append.mpr (Or.inr (List.mem_filter.mpr
        ⟨List.mem_range.mpr h, by simp [ho]⟩))

/-- The alternated scan of `solve` covers exactly the in-range cells. -/
theorem mem_cellsAlt (r c n : Nat) : (r, c) ∈ cellsAlt n ↔ r < n ∧ c < n := by
  unfold cellsAlt
  have main : ∀ l : List Nat, ((r, c) ∈ l.foldr
      (fun r acc => ((alternated_range n).map fun c => (r, c)) ++ acc) [])
      ↔ (r ∈ l ∧ c ∈ alternated_range n) := by
    intro l
    induction l with
    | nil => simp
    | cons a t ih =>
      simp only [List.foldr_cons, List.mem_append, List.mem_map, List.mem_cons]
      constructor
      · rintro (⟨c2, hc2, heq⟩ | h)
        · injection heq with h1 h2
          subst h1
          subst h2
          exact ⟨Or.inl rfl, hc2⟩
        · exact ⟨Or.inr (ih.mp h).1, (ih.mp h).2⟩
      · rintro ⟨(rfl | hmem), hcm⟩
        · exact Or.inl ⟨c, hcm, rfl⟩
        · exact Or.inr (ih.mpr ⟨hmem, hcm⟩)
  rw [main (alternated_range n), mem_alternated_range, mem_alternated_range]

/-- On a non-full board the branching cell of `solve` is an in-range
Empty cell. -/
theorem firstEmptyAlt_spec (p : Binox) (hp : p.Inv) (hnf : p.is_full = false) :
    p.firstEmptyAlt.1 < p.size ∧ p.firstEmptyAlt.2 < p.size
    ∧ p.get_cellCore p.firstEmptyAlt.1 p.firstEmptyAlt.2 = .EMPTY := by
  unfold Binox.firstEmptyAlt
  have hne : ¬ ∀ r c, r < p.size → c < p.size → p.get_cellCore r c ≠ .EMPTY := by
    intro hall
    rw [(is_full_iff p hp).mpr hall] at hnf
    cases hnf
  push_neg at hne
  obtain ⟨r, c, hr, hc, hemp⟩ := hne
  have hsome : ((cellsAlt p.size).find?
      fun rc => p.get_cellCore rc.1 rc.2 == .EMPTY).isSome := by
    rw [List.find?_isSome]
    exact ⟨(r, c), (mem_cellsAlt r c p.size).mpr ⟨hr, hc⟩, by simp [hemp]⟩
  obtain ⟨rc, hrc⟩ := Option.isSome_iff_exists.mp hsome
  rw [hrc]
  simp only [Option.getD_some]
  have hmem := List.mem_of_find?_eq_some hrc
  have hpred := List.find?_some hrc
  obtain ⟨h1, h2⟩ := (mem_cellsAlt rc.1 rc.2 p.size).mp hmem
  rw [beq_iff_eq] at hpred
  exact ⟨h1, h2, hpred⟩

/-- On a full board the branching cell defaults to (0, 0). -/
theorem firstEmptyAlt_full (p : Binox) (hp : p.Inv) (hf : p.is_full = true) :
    p.firstEmptyAlt = (0, 0) := by
  unfold Binox.firstEmptyAlt
  have hnone : ((cellsAlt p.size).find?
      fun rc => p.get_cellCore rc.1 rc.2 == .EMPTY) = none := by
    rw [List.find?_eq_none]
    intro x hx
    obtain ⟨h1, h2⟩ := (mem_cellsAlt x.1 x.2 p.size).mp hx
    have := (is_full_iff p hp).mp hf x.1 x.2 h1 h2
    simp [this]
  rw [hnone]
  rfl

/-! ### Equal cells and equal overlays determine the board -/

theorem getRow_eq_getElem (l : List BinRow) (i : Nat) (hi : i < l.length) :
    getRow l i = l[i] := by
  rw [getRow_eq_get l i hi, List.get_eq_getElem]

theorem rows_ext (l1 l2 : List BinRow) (n : Nat) (h1 : RowsInv l1 n) (h2 : RowsInv l2 n)
    (heq : ∀ i, i < n → getRow l1 i = getRow l2 i) : l1 = l2 := by
  apply List.ext_getElem (by rw [h1.1, h2.1])
  intro i hi1 hi2
  have hin : i < n := by rw [← h1.1]; exact hi1
  rw [← getRow_eq_getElem l1 i hi1, ← getRow_eq_getElem l2 i hi2]
  exact heq i hin

theorem row_eq_of_bits (r1 r2 : BinRow) (n : Nat)
    (hs1 : r1.size = n) (hs2 : r2.size = n) (hw1 : r1.data < 2 ^ n) (hw2 : r2.data < 2 ^ n)
    (hc1 : r1.count = popc16 r1.data) (hc2 : r2.count = popc16 r2.data)
    (hbits : ∀ j, j < n → r1.data.testBit j = r2.data.testBit j) : r1 = r2 := by
  have hdata : r1.data = r2.data := by
    apply Nat.eq_of_testBit_eq
    intro j
    by_cases hj : j < n
    · exact hbits j hj
    · rw [testBit_false_of_lt_two_pow hw1 (by omega),
        testBit_false_of_lt_two_pow hw2 (by omega)]
  exact binRow_fields_eq r1 r2 hdata (by rw [hs1, hs2]) (by rw [hc1, hc2, hdata])

/-- Equal cells give equal x-row bits. -/
theorem xbit_eq_of_cells (a b2 : Binox) (ha : a.Inv) (hb2 : b2.Inv)
    (hsz : a.size = b2.size)
    (hcells : ∀ r c, r < a.size → c < a.size → a.get_cellCore r c = b2.get_cellCore r c)
    (r c : Nat) (hr : r < a.size) (hc : c < a.size) :
    (getRow a.x_rows r).data.testBit c = (getRow b2.x_rows r).data.testBit c := by
  cases hav : (getRow a.x_rows r).data.testBit c
  · cases hbv : (getRow b2.x_rows r).data.testBit c
    · rfl
    · exfalso
      have hb2cell := (xbit_iff_cell b2 hb2 r c (by omega) (by omega)).mp
        (by rw [BinRow.getCore_eq]; exact hbv)
      have hacell : a.get_cellCore r c = .X := by
        rw [hcells r c hr hc]
        exact hb2cell
      have hx := (xbit_iff_cell a ha r c hr hc).mpr hacell
      rw [BinRow.getCore_eq, hav] at hx
      cases hx
  · have hacell := (xbit_iff_cell a ha r c hr hc).mp
      (by rw [BinRow.getCore_eq]; exact hav)
    have hb2cell : b2.get_cellCore r c = .X := by
      rw [← hcells r c hr hc]
      exact hacell
    have hx := (xbit_iff_cell b2 hb2 r c (by omega) (by omega)).mpr hb2cell
    rw [BinRow.getCore_eq] at hx
    exact hx.symm

/-- Equal cells give equal o-row bits. -/
theorem obit_eq_of_cells (a b2 : Binox) (ha : a.Inv) (hb2 : b2.Inv)
    (hsz : a.size = b2.size)
    (hcells : ∀ r c, r < a.size → c < a.size → a.get_cellCore r c = b2.get_cellCore r c)
    (r c : Nat) (hr : r < a.size) (hc : c < a.size) :
    (getRow a.o_rows r).data.testBit c = (getRow b2.o_rows r).data.testBit c := by
  cases hav : (getRow a.o_rows r).data.testBit c
  · cases hbv : (getRow b2.o_rows r).data.testBit c
    · rfl
    · exfalso
      have hb2cell := (obit_iff_cell b2 hb2 r c (by omega) (by omega)).mp
        (by rw [BinRow.getCore_eq]; exact hbv)
      have hacell : a.get_cellCore r c = .O := by
        rw [hcells r c hr hc]
        exact hb2cell
      have hx := (obit_iff_cell a ha r c hr hc).mpr hacell
      rw [BinRow.getCore_eq, hav] at hx
      cases hx
  · have hacell := (obit_iff_cell a ha r c hr hc).mp
      (by rw [BinRow.getCore_eq]; exact hav)
    have hb2cell : b2.get_cellCore r c = .O := by
      rw [← hcells r c hr hc]
      exact hacell
    have hx := (obit_iff_cell b2 hb2 r c (by omega) (by omega)).mpr hb2cell
    rw [BinRow.getCore_eq] at hx
    exact hx.symm

/-- Two invariant boards with the same size, cells and given overlay are
structurally equal. -/
theorem cells_determine (a b2 : Binox) (ha : a.Inv) (hb2 : b2.Inv)
    (hsz : a.size = b2.size)
    (hcells : ∀ r c, r < a.size → c < a.size → a.get_cellCore r c = b2.get_cellCore r c)
    (hdef : ∀ r c, r < a.size → c < a.size
      → a.is_defaultCore r c = b2.is_defaultCore r c) :
    a = b2 := by
  have hxr2 : RowsInv b2.x_rows a.size := hsz ▸ hb2.xr
  have horr2 : RowsInv b2.o_rows a.size := hsz ▸ hb2.orr
  have hxc2 : RowsInv b2.x_cols a.size := hsz ▸ hb2.xc
  have hoc2 : RowsInv b2.o_cols a.size := hsz ▸ hb2.oc
  have hdr2 : RowsInv b2.default_rows a.size := hsz ▸ hb2.dr
  apply binox_fields_eq a b2 hsz
  · apply rows_ext a.x_rows b2.x_rows a.size ha.xr hxr2
    intro i hi
    apply row_eq_of_bits _ _ a.size (ha.xr.2 i hi).1 (hxr2.2 i hi).1
      (ha.xr.2 i hi).2.1 (hxr2.2 i hi).2.1 (ha.xr.2 i hi).2.2 (hxr2.2 i hi).2.2
    intro j hj
    exact xbit_eq_of_cells a b2 ha hb2 hsz hcells i j hi hj
  · apply rows_ext a.o_rows b2.o_rows a.size ha.orr horr2
    intro i hi
    apply row_eq_of_bits _ _ a.size (ha.orr.2 i hi).1 (horr2.2 i hi).1
      (ha.orr.2 i hi).2.1 (horr2.2 i hi).2.1 (ha.orr.2 i hi).2.2 (horr2.2 i hi).2.2
    intro j hj
    exact obit_eq_of_cells a b2 ha hb2 hsz hcells i j hi hj
  · apply rows_ext a.x_cols b2.x_cols a.size ha.xc hxc2
    intro i hi
    apply row_eq_of_bits _ _ a.size (ha.xc.2 i hi).1 (hxc2.2 i hi).1
      (ha.xc.2 i hi).2.1 (hxc2.2 i hi).2.1 (ha.xc.2 i hi).2.2 (hxc2.2 i hi).2.2
    intro j hj
    rw [xcol_bit a ha j i hj hi, xcol_bit b2 hb2 j i (by omega) (by omega)]
    exact xbit_eq_of_cells a b2 ha hb2 hsz hcells j i hj hi
  · apply rows_ext a.o_cols b2.o_cols a.size ha.oc hoc2
    intro i hi
    apply row_eq_of_bits _ _ a.size (ha.oc.2 i hi).1 (hoc2.2 i hi).1
      (ha.oc.2 i hi).2.1 (hoc2.2 i hi).2.1 (ha.oc.2 i hi).2.2 (hoc2.2 i hi).2.2
    intro j hj
    rw [ocol_bit a ha j i hj hi, ocol_bit b2 hb2 j i (by omega) (by omega)]
    exact obit_eq_of_cells a b2 ha hb2 hsz hcells j i hj hi
  · apply rows_ext a.default_rows b2.default_rows a.size ha.dr hdr2
    intro i hi
    apply row_eq_of_bits _ _ a.size (ha.dr.2 i hi).1 (hdr2.2 i hi).1
      (ha.dr.2 i hi).2.1 (hdr2.2 i hi).2.1 (ha.dr.2 i hi).2.2 (hdr2.2 i hi).2.2
    intro j hj
    have hd := hdef i j hi hj
    unfold Binox.is_defaultCore at hd
    rw [BinRow.getCore_eq, BinRow.getCore_eq] at hd
    exact hd

/-- A completion of a full board is that board. -/
theorem completion_of_full_unique (p cc : Binox) (hp : p.Inv) (hf : p.is_full = true)
    (hcomp : IsCompletion p cc) : cc = p := by
  obtain ⟨hcc, hsz, hdef, hext, hfull, hv⟩ := hcomp
  apply cells_determine cc p hcc hp hsz
  · intro r c hr hc
    have hne := (is_full_iff p hp).mp hf r c (by omega) (by omega)
    exact hext.2 r c (by omega) (by omega) hne
  · intro r c hr hc
    exact hdef r c (by omega) (by omega)

/-- A full valid invariant board completes itself. -/
theorem completion_self (p : Binox) (hp : p.Inv) (hf : p.is_full = true)
    (hv : p.is_valid = true) : IsCompletion p p :=
  ⟨hp, rfl, fun _ _ _ _ => rfl, boardExt_refl p, hf, hv⟩

/-- Completions split at an Empty branching cell into the X side and the
O side. -/
theorem completion_split (p cc : Binox) (hp : p.Inv) (r c : Nat) (hr : r < p.size)
    (hc : c < p.size) (hemp : p.get_cellCore r c = .EMPTY) :
    IsCompletion p cc
      ↔ (IsCompletion (p.set_xCore r c) cc ∨ IsCompletion (p.set_oCore r c) cc) := by
  constructor
  · intro hcomp
    rcases completion_cell_filled p cc hcomp r c hr hc with hcell | hcell
    · exact Or.inl (completion_set_x p cc r c hp hr hc hcomp hcell)
    · exact Or.inr (completion_set_o p cc r c hp hr hc hcomp hcell)
  · rintro (h | h)
    · exact completion_unset_x p cc r c hp hr hc hemp h
    · exact completion_unset_o p cc r c hp hr hc hemp h

/-- The two sides of the split share no completion. -/
theorem completion_split_disjoint (p cc : Binox) (hp : p.Inv) (r c : Nat)
    (hr : r < p.size) (hc : c < p.size)
    (hx : IsCompletion (p.set_xCore r c) cc) (ho : IsCompletion (p.set_oCore r c) cc) :
    False := by
  have h16 : p.size ≤ 16 := hp.ub
  have hrx : r < p.x_rows.length := by rw [hp.xr.1]; exact hr
  have hro : r < p.o_rows.length := by rw [hp.orr.1]; exact hr
  obtain ⟨-, -, -, hextx, -, -⟩ := hx
  obtain ⟨-, -, -, hexto, -, -⟩ := ho
  have hcellx : (p.set_xCore r c).get_cellCore r c = .X := by
    rw [get_cellCore_set_xCore p r c r c hrx (by omega), if_pos ⟨rfl, rfl⟩]
  have hcello : (p.set_oCore r c).get_cellCore r c = .O := by
    rw [get_cellCore_set_oCore p r c r c hro (by omega), if_pos ⟨rfl, rfl⟩]
  have h1 := hextx.2 r c (by rw [size_set_xCore]; exact hr)
    (by rw [size_set_xCore]; exact hc)
    (by rw [hcellx]; exact fun h => BinoxCell.noConfusion h)
  have h2 := hexto.2 r c (by rw [size_set_oCore]; exact hr)
    (by rw [size_set_oCore]; exact hc)
    (by rw [hcello]; exact fun h => BinoxCell.noConfusion h)
  rw [hcellx] at h1
  rw [hcello] at h2
  rw [h1] at h2
  cases h2

/-- Flipping the X at (0,0) of a full valid board to O breaks the checked
o-column count. -/
theorem flip_x_invalid (p : Binox) (hp : p.Inv) (hf : p.is_full = true)
    (hv : p.is_valid = true) (hcell : p.get_cellCore 0 0 = .X) :
    (p.set_oCore 0 0).is_valid = false := by
  have hn4 : 4 ≤ p.size := hp.lb
  have h0 : (0 : Nat) < p.size := by omega
  have hbal := (balanced_counts p hp hf hv 0 h0).2.2.2
  have hob := (cell_X_bits p 0 0 hcell).2
  rw [BinRow.getCore_eq] at hob
  have hocb : (getRow p.o_cols 0).data.testBit 0 = false := by
    rw [ocol_bit p hp 0 0 h0 h0]
    exact hob
  have hlen : 0 < p.o_cols.length := by rw [hp.oc.1]; omega
  have hrow : getRow (p.set_oCore 0 0).o_cols 0 = (getRow p.o_cols 0).set_oneCore 0 := by
    show getRow (modifyAt p.o_cols 0 fun row => row.set_oneCore 0) 0 = _
    exact getRow_modifyAt_self _ _ _ hlen
  have hcount : (getRow (p.set_oCore 0 0).o_cols 0).count = p.size / 2 + 1 := by
    rw [hrow, set_oneCore_count, hocb]
    simp [hbal]
  cases hval : (p.set_oCore 0 0).is_valid
  · rfl
  · exfalso
    obtain ⟨hall, -, -, -, -⟩ := (binox_is_valid_iff _).mp hval
    rw [all_append4, Bool.and_eq_true, Bool.and_eq_true, Bool.and_eq_true] at hall
    obtain ⟨-, hoc, -, -⟩ := hall
    have hinv2 : (p.set_oCore 0 0).Inv := inv_set_oCore p 0 0 hp h0 h0
    have hz : (0 : Nat) < (p.set_oCore 0 0).size := by rw [size_set_oCore]; omega
    have hlv := (all_rows_iff (p.set_oCore 0 0).o_cols (p.set_oCore 0 0).size
      hinv2.oc.1 _).mp hoc 0 hz
    have hcle := ((binrow_is_valid_iff _ (p.set_oCore 0 0).size
      (hinv2.oc.2 0 hz).1 hinv2.ub (hinv2.oc.2 0 hz).2.1).mp hlv).2.1
    rw [size_set_oCore] at hcle
    rw [hcount] at hcle
    have heven : p.size % 2 = 0 := hp.even
    omega

/-- Flipping the O at (0,0) of a full valid board to X breaks the checked
x-row count. -/
theorem flip_o_invalid (p : Binox) (hp : p.Inv) (hf : p.is_full = true)
    (hv : p.is_valid = true) (hcell : p.get_cellCore 0 0 = .O) :
    (p.set_xCore 0 0).is_valid = false := by
  have hn4 : 4 ≤ p.size := hp.lb
  have h0 : (0 : Nat) < p.size := by omega
  have hbal := (balanced_counts p hp hf hv 0 h0).1
  have hxb := (cell_O_bits p 0 0 hcell).1
  rw [BinRow.getCore_eq] at hxb
  have hlen : 0 < p.x_rows.length := by rw [hp.xr.1]; omega
  have hrow : getRow (p.set_xCore 0 0).x_rows 0 = (getRow p.x_rows 0).set_oneCore 0 := by
    show getRow (modifyAt p.x_rows 0 fun row => row.set_oneCore 0) 0 = _
    exact getRow_modifyAt_self _ _ _ hlen
  have hcount : (getRow (p.set_xCore 0 0).x_rows 0).count = p.size / 2 + 1 := by
    rw [hrow, set_oneCore_count, hxb]
    simp [hbal]
  cases hval : (p.set_xCore 0 0).is_valid
  · rfl
  · exfalso
    obtain ⟨hall, -, -, -, -⟩ := (binox_is_valid_iff _).mp hval
    rw [all_append4, Bool.and_eq_true, Bool.and_eq_true, Bool.and_eq_true] at hall
    obtain ⟨hxr, -, -, -⟩ := hall
    have hinv2 : (p.set_xCore 0 0).Inv := inv_set_xCore p 0 0 hp h0 h0
    have hz : (0 : Nat) < (p.set_xCore 0 0).size := by rw [size_set_xCore]; omega
    have hlv := (all_rows_iff (p.set_xCore 0 0).x_rows (p.set_xCore 0 0).size
      hinv2.xr.1 _).mp hxr 0 hz
    have hcle := ((binrow_is_valid_iff _ (p.set_xCore 0 0).size
      (hinv2.xr.2 0 hz).1 hinv2.ub (hinv2.xr.2 0 hz).2.1).mp hlv).2.1
    rw [size_set_xCore] at hcle
    rw [hcount] at hcle
    have heven : p.size % 2 = 0 := hp.even
    omega

/-- A board with no Empty cells is full. -/
theorem emptyCount_zero_full (b : Binox) (hb : b.Inv) (h : b.emptyCount = 0) :
    b.is_full = true := by
  cases hful : b.is_full
  · have := emptyCount_pos b hb hful
    omega
  · rfl

/-- One step of `solve` on an invalid board. -/
theorem solveFuel_invalid (f : Nat) (b : Binox) (m : Bool) (hv : b.is_valid = false) :
    Binox.solveFuel (f + 1) b m = some .Zero := by
  unfold Binox.solveFuel
  rw [hv]
  cases b.is_full <;> rfl

/-- One step of `solve` on a full valid board. -/
theorem solveFuel_full_valid (f : Nat) (b : Binox) (m : Bool) (hf : b.is_full = true)
    (hv : b.is_valid = true) : Binox.solveFuel (f + 1) b m = some (.One b) := by
  unfold Binox.solveFuel
  rw [hf, hv]

/-- One step of `solve` when the presolve sweep hits a contradiction. -/
theorem solveFuel_bad (f : Nat) (b : Binox) (m : Bool) (hf : b.is_full = false)
    (hv : b.is_valid = true) (b2 : Binox) (hpres : b.presolve = (.Bad, b2)) :
    Binox.solveFuel (f + 1) b m = some .Zero := by
  unfold Binox.solveFuel
  rw [hf, hv, hpres]

/-- One step of `solve` through a `Good` presolve: the branch on the first
Empty cell in alternated order. -/
theorem solveFuel_step (f : Nat) (b : Binox) (m : Bool) (hf : b.is_full = false)
    (hv : b.is_valid = true) (p : Binox) (hpres : b.presolve = (.Good, p)) :
    Binox.solveFuel (f + 1) b m
      = match Binox.solveFuel f (p.set_xCore p.firstEmptyAlt.1 p.firstEmptyAlt.2) m with
        | none => none
        | some x_solved =>
          match x_solved, m with
          | .Zero, true =>
            Binox.solveFuel f (p.set_oCore p.firstEmptyAlt.1 p.firstEmptyAlt.2) true
          | .Zero, false =>
            Binox.solveFuel f (p.set_oCore p.firstEmptyAlt.1 p.firstEmptyAlt.2) false
          | .One a, true =>
            match Binox.solveFuel f (p.set_oCore p.firstEmptyAlt.1 p.firstEmptyAlt.2) false with
            | none => none
            | some os => some ((BinoxSolution.One a).add os)
          | .One a, false => some (.One a)
          | .Multiple a b', true => some (.Multiple a b')
          | .Multiple a _, false => some (.One a) := by
  conv_lhs => unfold Binox.solveFuel
  rw [hf, hv, hpres]

/-- The classification invariant of the search, by induction on the number
of Empty cells. -/
theorem solveFuel_classify (N : Nat) : ∀ (b : Binox), b.Inv → b.emptyCount ≤ N →
    ∀ (mult : Bool) (fuel : Nat), N < fuel →
    ∃ s, Binox.solveFuel fuel b mult = some s ∧ Classify b mult s := by
  induction N with
  | zero =>
    intro b hb hec mult fuel hfuel
    obtain ⟨f, rfl⟩ : ∃ f, fuel = f + 1 := ⟨fuel - 1, by omega⟩
    have hfull : b.is_full = true := emptyCount_zero_full b hb (by omega)
    cases hvalid : b.is_valid
    · refine ⟨.Zero, solveFuel_invalid f b mult hvalid, ?_⟩
      cases mult <;>
        exact fun hex => Exists.elim hex fun cc hcc => by
          have hvv := valid_of_completion b cc hb hcc
          rw [hvv] at hvalid
          cases hvalid
    · refine ⟨.One b, solveFuel_full_valid f b mult hfull hvalid, ?_⟩
      cases mult
      · exact completion_self b hb hfull hvalid
      · exact ⟨completion_self b hb hfull hvalid,
          fun cc hcc => completion_of_full_unique b cc hb hfull hcc⟩
  | succ N ih =>
    intro b hb hec mult fuel hfuel
    obtain ⟨f, rfl⟩ : ∃ f, fuel = f + 1 := ⟨fuel - 1, by omega⟩
    cases hvalid : b.is_valid
    · refine ⟨.Zero, solveFuel_invalid f b mult hvalid, ?_⟩
      cases mult <;>
        exact fun hex => Exists.elim hex fun cc hcc => by
          have hvv := valid_of_completion b cc hb hcc
          rw [hvv] at hvalid
          cases hvalid
    · cases hfull : b.is_full
      · -- not full, valid: presolve and branch
        cases hpres : b.presolve with
        | mk res p =>
          cases res with
          | Bad =>
            refine ⟨.Zero, solveFuel_bad f b mult hfull hvalid p hpres, ?_⟩
            have hbad := (presolve_completions b hb).1 (by rw [hpres])
            cases mult <;>
              exact fun hex => Exists.elim hex fun cc hcc => hbad cc hcc
          | Good =>
            have hpinv : p.Inv := by
              have hi := inv_presolve b hb
              rwa [hpres] at hi
            have hcompiff : ∀ cc, IsCompletion b cc ↔ IsCompletion p cc := by
              have hgc := (presolve_completions b hb).2 (by rw [hpres])
              intro cc
              have h2 := hgc cc
              rwa [hpres] at h2
            have hpvalid : p.is_valid = true := by
              have hval := presolve_good_valid b hb hvalid (by rw [hpres])
              rwa [hpres] at hval
            have hpec : p.emptyCount ≤ b.emptyCount := by
              have hle := emptyCount_presolveAux_le (sweepOrder b.size) b hb.ub
              have h2 : (b.presolve).2.emptyCount ≤ b.emptyCount := hle
              rwa [hpres] at h2
            cases hpfull : p.is_full
            · -- branching case: p keeps an Empty cell
              obtain ⟨hr, hc, hemp⟩ := firstEmptyAlt_spec p hpinv hpfull
              have hstep := solveFuel_step f b mult hfull hvalid p hpres
              set r := p.firstEmptyAlt.1 with hrdef
              set c := p.firstEmptyAlt.2 with hcdef
              have hinvx : (p.set_xCore r c).Inv := inv_set_xCore p r c hpinv hr hc
              have hinvo : (p.set_oCore r c).Inv := inv_set_oCore p r c hpinv hr hc
              have hecx : (p.set_xCore r c).emptyCount ≤ N := by
                have hlt := emptyCount_set_xCore_lt p r c hpinv hr hc hemp
                omega
              have heco : (p.set_oCore r c).emptyCount ≤ N := by
                have hlt := emptyCount_set_oCore_lt p r c hpinv hr hc hemp
                omega
              obtain ⟨xs, hxs, hxcls⟩ := ih (p.set_xCore r c) hinvx hecx mult f (by omega)
              have hsplit : ∀ cc, IsCompletion b cc
                  ↔ (IsCompletion (p.set_xCore r c) cc
                      ∨ IsCompletion (p.set_oCore r c) cc) := by
                intro cc
                rw [hcompiff cc]
                exact completion_split p cc hpinv r c hr hc hemp
              have hxcell : ∀ cc, IsCompletion (p.set_xCore r c) cc
                  → cc.get_cellCore r c = .X := by
                intro cc hcc
                have hcellx : (p.set_xCore r c).get_cellCore r c = .X := by
                  rw [get_cellCore_set_xCore p r c r c (by rw [hpinv.xr.1]; exact hr)
                    (by have := hpinv.ub; omega), if_pos ⟨rfl, rfl⟩]
                have hpr := hcc.2.2.2.1.2 r c (by rw [size_set_xCore]; exact hr)
                  (by rw [size_set_xCore]; exact hc)
                  (by rw [hcellx]; exact fun h => BinoxCell.noConfusion h)
                rw [hcellx] at hpr
                exact hpr
              have hocell : ∀ cc, IsCompletion (p.set_oCore r c) cc
                  → cc.get_cellCore r c = .O := by
                intro cc hcc
                have hcello : (p.set_oCore r c).get_cellCore r c = .O := by
                  rw [get_cellCore_set_oCore p r c r c (by rw [hpinv.orr.1]; exact hr)
                    (by have := hpinv.ub; omega), if_pos ⟨rfl, rfl⟩]
                have hpr := hcc.2.2.2.1.2 r c (by rw [size_set_oCore]; exact hr)
                  (by rw [size_set_oCore]; exact hc)
                  (by rw [hcello]; exact fun h => BinoxCell.noConfusion h)
                rw [hcello] at hpr
                exact hpr
              rw [hstep, hxs]
              cases mult
              · -- first-solution mode
                cases xs with
                | Zero =>
                  obtain ⟨os, hos, hocls⟩ := ih (p.set_oCore r c) hinvo heco false f
                    (by omega)
                  rw [hos]
                  cases os with
                  | Zero =>
                    refine ⟨.Zero, rfl, ?_⟩
                    rintro ⟨cc, hcc⟩
                    rcases (hsplit cc).mp hcc with h | h
                    · exact hxcls ⟨cc, h⟩
                    · exact hocls ⟨cc, h⟩
                  | One a =>
                    refine ⟨.One a, rfl, ?_⟩
                    exact (hsplit a).mpr (Or.inr hocls)
                  | Multiple a a2 => exact hocls.elim
                | One a =>
                  refine ⟨.One a, rfl, ?_⟩
                  exact (hsplit a).mpr (Or.inl hxcls)
                | Multiple a a2 => exact hxcls.elim
              · -- count-both mode
                cases xs with
                | Zero =>
                  obtain ⟨os, hos, hocls⟩ := ih (p.set_oCore r c) hinvo heco true f
                    (by omega)
                  refine ⟨os, hos, ?_⟩
                  cases os with
                  | Zero =>
                    rintro ⟨cc, hcc⟩
                    rcases (hsplit cc).mp hcc with h | h
                    · exact hxcls ⟨cc, h⟩
                    · exact hocls ⟨cc, h⟩
                  | One a =>
                    refine ⟨(hsplit a).mpr (Or.inr hocls.1), ?_⟩
                    intro cc hcc
                    rcases (hsplit cc).mp hcc with h | h
                    · exact absurd ⟨cc, h⟩ hxcls
                    · exact hocls.2 cc h
                  | Multiple a a2 =>
                    obtain ⟨hne, h1, h2⟩ := hocls
                    exact ⟨hne, (hsplit a).mpr (Or.inr h1), (hsplit a2).mpr (Or.inr h2)⟩
                | One a =>
                  obtain ⟨os, hos, hocls⟩ := ih (p.set_oCore r c) hinvo heco false f
                    (by omega)
                  rw [hos]
                  cases os with
                  | Zero =>
                    refine ⟨.One a, rfl, ?_⟩
                    refine ⟨(hsplit a).mpr (Or.inl hxcls.1), ?_⟩
                    intro cc hcc
                    rcases (hsplit cc).mp hcc with h | h
                    · exact hxcls.2 cc h
                    · exact absurd ⟨cc, h⟩ hocls
                  | One a2 =>
                    refine ⟨.Multiple a a2, rfl, ?_, ?_, ?_⟩
                    · intro he
                      have h1 := hxcell a hxcls.1
                      have h2 := hocell a2 hocls
                      rw [he, h2] at h1
                      cases h1
                    · exact (hsplit a).mpr (Or.inl hxcls.1)
                    · exact (hsplit a2).mpr (Or.inr hocls)
                  | Multiple a2 a3 => exact hocls.elim
                | Multiple a a2 =>
                  refine ⟨.Multiple a a2, rfl, ?_⟩
                  obtain ⟨hne, h1, h2⟩ := hxcls
                  exact ⟨hne, (hsplit a).mpr (Or.inl h1), (hsplit a2).mpr (Or.inl h2)⟩
            · -- presolve filled the board: the only completion is p itself
              have hpcompl : ∀ cc, IsCompletion b cc ↔ cc = p := by
                intro cc
                rw [hcompiff cc]
                constructor
                · exact completion_of_full_unique p cc hpinv hpfull
                · intro hccp
                  rw [hccp]
                  exact completion_self p hpinv hpfull hpvalid
              have hrc0 : p.firstEmptyAlt = (0, 0) := firstEmptyAlt_full p hpinv hpfull
              have hstep := solveFuel_step f b mult hfull hvalid p hpres
              rw [hrc0] at hstep
              rw [show ((0, 0) : Nat × Nat).1 = 0 from rfl,
                show ((0, 0) : Nat × Nat).2 = 0 from rfl] at hstep
              obtain ⟨f2, rfl⟩ : ∃ f2, f = f2 + 1 := ⟨f - 1, by omega⟩
              have h0 : (0 : Nat) < p.size := by
                have := hpinv.lb
                omega
              rcases completion_cell_filled p p (completion_self p hpinv hpfull hpvalid)
                  0 0 h0 h0 with hcell | hcell
              · have hxid : p.set_xCore 0 0 = p :=
                  set_xCore_cell_noop p 0 0 hpinv h0 h0 hcell
                have hoinv : (p.set_oCore 0 0).is_valid = false :=
                  flip_x_invalid p hpinv hpfull hpvalid hcell
                have hxeval : Binox.solveFuel (f2 + 1) (p.set_xCore 0 0) mult
                    = some (.One p) := by
                  rw [hxid]
                  exact solveFuel_full_valid f2 p mult hpfull hpvalid
                rw [hstep, hxeval]
                cases mult
                · refine ⟨.One p, rfl, ?_⟩
                  exact (hpcompl p).mpr rfl
                · rw [solveFuel_invalid f2 _ false hoinv]
                  refine ⟨.One p, rfl, ?_⟩
                  exact ⟨(hpcompl p).mpr rfl, fun cc hcc => (hpcompl cc).mp hcc⟩
              · have hoid : p.set_oCore 0 0 = p :=
                  set_oCore_cell_noop p 0 0 hpinv h0 h0 hcell
                have hxinv : (p.set_xCore 0 0).is_valid = false :=
                  flip_o_invalid p hpinv hpfull hpvalid hcell
                have hoeval : ∀ m2, Binox.solveFuel (f2 + 1) (p.set_oCore 0 0) m2
                    = some (.One p) := by
                  intro m2
                  rw [hoid]
                  exact solveFuel_full_valid f2 p m2 hpfull hpvalid
                rw [hstep, solveFuel_invalid f2 _ mult hxinv]
                cases mult
                · refine ⟨.One p, hoeval false, ?_⟩
                  exact (hpcompl p).mpr rfl
                · refine ⟨.One p, hoeval true, ?_⟩
                  exact ⟨(hpcompl p).mpr rfl, fun cc hcc => (hpcompl cc).mp hcc⟩
      · -- full and valid
        refine ⟨.One b, solveFuel_full_valid f b mult hfull hvalid, ?_⟩
        cases mult
        · exact completion_self b hb hfull hvalid
        · exact ⟨completion_self b hb hfull hvalid,
            fun cc hcc => completion_of_full_unique b cc hb hfull hcc⟩

/-- The classification of `solve(b, true)` against the code's own
`is_valid` notion of completion; the spec-side statement is derived from
this one where the two notions agree (every size except 16). -/
theorem solve_classifies_code (b : Binox) (hb : b.Inv) :
    ∃ s, b.solve true = some s ∧ Classify b true s
      ∧ (s = .Zero ↔ ¬ ∃ cc, IsCompletion b cc)
      ∧ ((∃ a, s = .One a) ↔ ∃ cc, IsCompletion b cc ∧ ∀ d, IsCompletion b d → d = cc)
      ∧ ((∃ a a2, s = .Multiple a a2)
          ↔ ∃ c1 c2, c1 ≠ c2 ∧ IsCompletion b c1 ∧ IsCompletion b c2) := by
  obtain ⟨s, hs, hcls⟩ := solveFuel_classify b.emptyCount b hb (le_refl _) true
    (b.emptyCount + 1) (by omega)
  cases s with
  | Zero =>
    have hno : ¬ ∃ cc, IsCompletion b cc := hcls
    refine ⟨.Zero, hs, hcls, ⟨fun _ => hno, fun _ => rfl⟩, ?_, ?_⟩
    · constructor
      · rintro ⟨a, ha⟩
        exact BinoxSolution.noConfusion ha
      · rintro ⟨cc, hcc, -⟩
        exact absurd ⟨cc, hcc⟩ hno
    · constructor
      · rintro ⟨a, a2, ha⟩
        exact BinoxSolution.noConfusion ha
      · rintro ⟨c1, c2, -, h1, -⟩
        exact absurd ⟨c1, h1⟩ hno
  | One a =>
    obtain ⟨hcomp, huniq⟩ := hcls
    refine ⟨.One a, hs, ⟨hcomp, huniq⟩, ?_, ?_, ?_⟩
    · constructor
      · intro h
        exact BinoxSolution.noConfusion h
      · intro hno
        exact (hno ⟨a, hcomp⟩).elim
    · exact ⟨fun _ => ⟨a, hcomp, huniq⟩, fun _ => ⟨a, rfl⟩⟩
    · constructor
      · rintro ⟨a1, a2, h⟩
        exact BinoxSolution.noConfusion h
      · rintro ⟨c1, c2, hne, h1, h2⟩
        exact absurd ((huniq c1 h1).trans (huniq c2 h2).symm) hne
  | Multiple a a2 =>
    obtain ⟨hne, h1, h2⟩ := hcls
    refine ⟨.Multiple a a2, hs, ⟨hne, h1, h2⟩, ?_, ?_, ?_⟩
    · constructor
      · intro h
        exact BinoxSolution.noConfusion h
      · intro hno
        exact (hno ⟨a, h1⟩).elim
    · constructor
      · rintro ⟨a3, h⟩
        exact BinoxSolution.noConfusion h
      · rintro ⟨cc, hcc, huniq⟩
        exact absurd ((huniq a h1).trans (huniq a2 h2).symm) hne
    · exact ⟨fun _ => ⟨a, a2, hne, h1, h2⟩, fun _ => ⟨a, a2, rfl⟩⟩


/-- C9: on every board satisfying the `Binox` invariants the search
terminates: any fuel beyond the Empty-cell count (itself at most size²)
suffices, in particular the `emptyCount + 1` used by `solve`, and both
boards a recursive call can be made on (the X and O clones of the
presolved board) carry strictly fewer Empty cells than the caller's
board. -/
theorem C9_solve_terminates (b : Binox) (hb : b.Inv) :
    (∀ mult, (b.solve mult).isSome = true)
    ∧ b.emptyCount ≤ b.size * b.size
    ∧ (∀ mult fuel, b.emptyCount < fuel → (Binox.solveFuel fuel b mult).isSome = true)
    ∧ (∀ p, b.is_full = false → b.is_valid = true → b.presolve = (.Good, p) →
        (p.set_xCore p.firstEmptyAlt.1 p.firstEmptyAlt.2).emptyCount < b.emptyCount
        ∧ (p.set_oCore p.firstEmptyAlt.1 p.firstEmptyAlt.2).emptyCount < b.emptyCount) := by
  refine ⟨?_, emptyCount_le b, ?_, ?_⟩
  · intro mult
    obtain ⟨s, hs, -⟩ := solveFuel_classify b.emptyCount b hb (le_refl _) mult
      (b.emptyCount + 1) (by omega)
    unfold Binox.solve
    rw [hs]
    rfl
  · intro mult fuel hflt
    obtain ⟨s, hs, -⟩ := solveFuel_classify b.emptyCount b hb (le_refl _) mult fuel hflt
    rw [hs]
    rfl
  · intro p hnf hval hpres
    have hpinv : p.Inv := by
      have hi := inv_presolve b hb
      rwa [hpres] at hi
    have hpec : p.emptyCount ≤ b.emptyCount := by
      have hle := emptyCount_presolveAux_le (sweepOrder b.size) b hb.ub
      have h2 : (b.presolve).2.emptyCount ≤ b.emptyCount := hle
      rwa [hpres] at h2
    have hbpos : 1 ≤ b.emptyCount := emptyCount_pos b hb hnf
    cases hpfull : p.is_full
    · obtain ⟨hr, hc, hemp⟩ := firstEmptyAlt_spec p hpinv hpfull
      constructor
      · have := emptyCount_set_xCore_lt p _ _ hpinv hr hc hemp
        omega
      · have := emptyCount_set_oCore_lt p _ _ hpinv hr hc hemp
        omega
    · have hgen : ∀ q : Binox, q.size = p.size →
          (∀ r2 c2, r2 < p.size → c2 < p.size → q.get_cellCore r2 c2 ≠ .EMPTY) →
          q.emptyCount = 0 := by
        intro q hqs hq
        unfold Binox.emptyCount
        rw [List.length_eq_zero, List.filter_eq_nil_iff]
        intro a ha
        obtain ⟨h1, h2⟩ := mem_sweepOrder ha
        rw [hqs] at h1 h2
        intro hcon
        rw [beq_iff_eq] at hcon
        exact hq a.1 a.2 h1 h2 hcon
      have h0 : (0 : Nat) < p.size := by
        have := hpinv.lb
        omega
      have h16 : p.size ≤ 16 := hpinv.ub
      have hcellne := (is_full_iff p hpinv).mp hpfull
      rw [firstEmptyAlt_full p hpinv hpfull]
      rw [show ((0, 0) : Nat × Nat).1 = 0 from rfl, show ((0, 0) : Nat × Nat).2 = 0 from rfl]
      constructor
      · have hq : (p.set_xCore 0 0).emptyCount = 0 := by
          apply hgen _ (size_set_xCore p 0 0)
          intro r2 c2 hr2 hc2
          by_cases he : r2 = 0 ∧ c2 = 0
          · rw [get_cellCore_set_xCore p 0 0 r2 c2 (by rw [hpinv.xr.1]; omega)
              (by omega), if_pos he]
            exact fun h => BinoxCell.noConfusion h
          · rw [get_cellCore_set_xCore_ne p 0 0 r2 c2 he (by omega)]
            exact hcellne r2 c2 hr2 hc2
        omega
      · have hq : (p.set_oCore 0 0).emptyCount = 0 := by
          apply hgen _ (size_set_oCore p 0 0)
          intro r2 c2 hr2 hc2
          by_cases he : r2 = 0 ∧ c2 = 0
          · rw [get_cellCore_set_oCore p 0 0 r2 c2 (by rw [hpinv.orr.1]; omega)
              (by omega), if_pos he]
            exact fun h => BinoxCell.noConfusion h
          · rw [get_cellCore_set_oCore_ne p 0 0 r2 c2 he (by omega)]
            exact hcellne r2 c2 hr2 hc2
        omega

/-- C9 witness: the fresh 4×4 board. -/
theorem C9_solve_terminates_witness :
    (∀ mult, (base4.solve mult).isSome = true)
    ∧ base4.emptyCount ≤ base4.size * base4.size
    ∧ (∀ mult fuel, base4.emptyCount < fuel
        → (Binox.solveFuel fuel base4 mult).isSome = true)
    ∧ (∀ p, base4.is_full = false → base4.is_valid = true
        → base4.presolve = (.Good, p) →
        (p.set_xCore p.firstEmptyAlt.1 p.firstEmptyAlt.2).emptyCount < base4.emptyCount
        ∧ (p.set_oCore p.firstEmptyAlt.1 p.firstEmptyAlt.2).emptyCount
            < base4.emptyCount) :=
  C9_solve_terminates base4 (inv_new (s := 4) rfl)

/-! ### Claim C2, revisited: spec-side validity diverges at size 16 -/

theorem sqrt_256 : Nat.sqrt 256 = 16 := by
  rw [show (256 : Nat) = 16 * 16 by norm_num, Nat.sqrt_eq]

/-- `new_from_string` on a 256-character string builds a 16×16 board. -/
theorem new_from_string_sixteen (s : List Char) (h : Nat.sqrt s.length % 256 = 16) :
    Binox.new_from_string s = fromStringAux base16 16 s 0 0 := by
  have hnew : Binox.new 16 = .ok base16 := by rfl
  simp only [Binox.new_from_string]
  simp [h, hnew]

/-- The counterexample board is exactly what `new_from_string` decodes. -/
theorem C2board_decode : Binox.new_from_string C2string = C2board := by
  rw [new_from_string_sixteen C2string
    (by rw [show C2string.length = 256 from rfl, sqrt_256])]
  decide

/-- The counterexample board satisfies the `Binox` invariants. -/
theorem C2board_inv : C2board.Inv :=
  C2board_decode ▸ (new_from_string_inv C2string).1

/-- The counterexample board evaluates: full, code-valid, spec-invalid. -/
theorem C2board_evals :
    C2board.is_full = true ∧ C2board.is_valid = true
      ∧ C2board.specIsValid = false
      ∧ C2board.solve true = some (.One C2board) := by
  refine ⟨by decide, by decide, by decide, by decide⟩

/-- `Binox::specIsValid` split into its per-line scan (all four
collections) and the four duplicate scans. -/
theorem binox_specIsValid_iff (b : Binox) :
    b.specIsValid = true ↔
      ((b.x_rows ++ b.o_rows ++ b.x_cols ++ b.o_cols).all BinRow.is_valid = true
        ∧ dupHalf (sortRows b.x_rows) b.size = false
        ∧ dupHalf (sortRows b.o_rows) b.size = false
        ∧ dupHalf (sortRows b.x_cols) b.size = false
        ∧ dupHalf (sortRows b.o_cols) b.size = false) := by
  unfold Binox.specIsValid
  cases hall : (b.x_rows ++ b.o_rows ++ b.x_cols ++ b.o_cols).all BinRow.is_valid
  · simp
  · simp
    tauto

/-- Spec-side validity always implies the code's validity: the code's
checked collections are a subset of the spec's, the duplicate scans are
the same. -/
theorem spec_valid_imp_valid (q : Binox) (h : q.specIsValid = true) :
    q.is_valid = true := by
  obtain ⟨hall, h1, h2, h3, h4⟩ := (binox_specIsValid_iff q).mp h
  rw [all_append4, Bool.and_eq_true, Bool.and_eq_true, Bool.and_eq_true] at hall
  obtain ⟨hxr, hor, hxc, hoc⟩ := hall
  rw [binox_is_valid_iff]
  refine ⟨?_, h1, h2, h3, h4⟩
  rw [all_append4, Bool.and_eq_true, Bool.and_eq_true, Bool.and_eq_true]
  exact ⟨hxr, hoc, hxc, hoc⟩

/-- On a full board each o row is the in-width complement of the x row. -/
theorem orow_data_eq (q : Binox) (hq : q.Inv) (hf : q.is_full = true) (r : Nat)
    (hr : r < q.size) :
    (getRow q.o_rows r).data = (getRow q.x_rows r).data ^^^ (2 ^ q.size - 1) := by
  apply Nat.eq_of_testBit_eq
  intro i
  rw [Nat.testBit_xor, Nat.testBit_two_pow_sub_one]
  by_cases hi : i < q.size
  · have hne := (is_full_iff q hq).mp hf r i hr hi
    have hne2 : ¬((getRow q.x_rows r).data.testBit i = false
        ∧ (getRow q.o_rows r).data.testBit i = false) := by
      intro hpair
      exact hne ((empty_iff_bits q hq r i hr hi).mpr
        ⟨by rw [BinRow.getCore_eq]; exact hpair.1,
         by rw [BinRow.getCore_eq]; exact hpair.2⟩)
    have hdisj := hq.i1 r i hr hi
    cases hxv : (getRow q.x_rows r).data.testBit i
    · cases hov : (getRow q.o_rows r).data.testBit i
      · exact absurd ⟨hxv, hov⟩ hne2
      · simp [hi]
    · cases hov : (getRow q.o_rows r).data.testBit i
      · simp [hi]
      · exact absurd ⟨by rw [BinRow.getCore_eq]; exact hxv,
          by rw [BinRow.getCore_eq]; exact hov⟩ hdisj
  · rw [testBit_false_of_lt_two_pow (hq.orr.2 r hr).2.1 (by omega),
      testBit_false_of_lt_two_pow (hq.xr.2 r hr).2.1 (by omega)]
    simp [hi]

/-- Below size 16 (where the complement mask is intact), a full board that
passes the code's `is_valid` also passes the spec's validity: the
complement checks of the x rows cover the unchecked o rows. -/
theorem full_code_valid_imp_spec (q : Binox) (hq : q.Inv) (hlt : q.size < 16)
    (hf : q.is_full = true) (hv : q.is_valid = true) : q.specIsValid = true := by
  have hbal := balanced_counts q hq hf hv
  obtain ⟨hall, h1, h2, h3, h4⟩ := (binox_is_valid_iff q).mp hv
  rw [all_append4, Bool.and_eq_true, Bool.and_eq_true, Bool.and_eq_true] at hall
  obtain ⟨hxr, hoc, hxc, -⟩ := hall
  rw [binox_specIsValid_iff]
  refine ⟨?_, h1, h2, h3, h4⟩
  rw [all_append4, Bool.and_eq_true, Bool.and_eq_true, Bool.and_eq_true]
  refine ⟨hxr, ?_, hxc, hoc⟩
  rw [all_rows_iff q.o_rows q.size hq.orr.1]
  intro r hr
  have hn16 : q.size ≤ 16 := hq.ub
  have hmod : q.size % 16 = q.size := Nat.mod_eq_of_lt hlt
  have hxline := (all_rows_iff q.x_rows q.size hq.xr.1 _).mp hxr r hr
  have hxdec := (binrow_is_valid_iff _ q.size (hq.xr.2 r hr).1 hn16
    (hq.xr.2 r hr).2.1).mp hxline
  have hxhalf : (getRow q.x_rows r).count = q.size / 2 := (hbal r hr).1
  have hohalf : (getRow q.o_rows r).count = q.size / 2 := (hbal r hr).2.1
  have hdata : (getRow q.o_rows r).data
      = (getRow q.x_rows r).data ^^^ (2 ^ q.size - 1) := orow_data_eq q hq hf r hr
  rw [binrow_is_valid_iff _ q.size (hq.orr.2 r hr).1 hn16 (hq.orr.2 r hr).2.1]
  refine ⟨?_, le_of_eq hohalf, ?_⟩
  · have hxcomp := hxdec.2.2 hxhalf
    rw [hmod, one_shiftLeft_eq] at hxcomp
    rw [hdata]
    exact hxcomp
  · intro _
    rw [hmod, one_shiftLeft_eq, hdata]
    have hxx : (getRow q.x_rows r).data ^^^ (2 ^ q.size - 1) ^^^ (2 ^ q.size - 1)
        = (getRow q.x_rows r).data := by
      rw [Nat.xor_assoc, Nat.xor_self, Nat.xor_zero]
    rw [hxx]
    exact hxdec.1

/-- Away from size 16 the code-side and spec-side completion notions
coincide. -/
theorem spec_completion_iff (b cc : Binox) (hb : b.Inv) (hne : b.size ≠ 16) :
    IsCompletion b cc ↔ IsSpecCompletion b cc := by
  have hlt : b.size < 16 := by
    have := hb.ub
    omega
  constructor
  · rintro ⟨hcc, hsz, hdef, hext, hfull, hv⟩
    exact ⟨hcc, hsz, hdef, hext, hfull,
      full_code_valid_imp_spec cc hcc (by omega) hfull hv⟩
  · rintro ⟨hcc, hsz, hdef, hext, hfull, hv⟩
    exact ⟨hcc, hsz, hdef, hext, hfull, spec_valid_imp_valid cc hv⟩

/-- A spec-side completion of a full board is that board. -/
theorem spec_completion_of_full_unique (p cc : Binox) (hp : p.Inv)
    (hf : p.is_full = true) (hcomp : IsSpecCompletion p cc) : cc = p := by
  obtain ⟨hcc, hsz, hdef, hext, hfull, hv⟩ := hcomp
  apply cells_determine cc p hcc hp hsz
  · intro r c hr hc
    have hnemp := (is_full_iff p hp).mp hf r c (by omega) (by omega)
    exact hext.2 r c (by omega) (by omega) hnemp
  · intro r c hr hc
    exact hdef r c (by omega) (by omega)

/-- C2 (counterexample): a concrete full 16×16 board satisfying the
`Binox` invariants on which `solve(b, true)` reports the unique
completion `One b`, although `b` fails the spec's validity (its o row 0
holds four consecutive O's, unchecked because the o-rows line scan is
missing and the size-16 shift wrap empties the complement mask) — so no
spec-valid completion exists at all, refuting the claim's
'`None` exactly when no full valid completion exists'. -/
theorem C2_counterexample :
    C2board.Inv ∧ C2board.is_full = true ∧ C2board.is_valid = true
    ∧ C2board.specIsValid = false
    ∧ C2board.solve true = some (.One C2board)
    ∧ ¬ ∃ cc, IsSpecCompletion C2board cc := by
  obtain ⟨hfull, hval, hspec, hsolve⟩ := C2board_evals
  refine ⟨C2board_inv, hfull, hval, hspec, hsolve, ?_⟩
  rintro ⟨cc, hcc⟩
  have hccspec := hcc.2.2.2.2.2
  have heq := spec_completion_of_full_unique C2board cc C2board_inv hfull hcc
  rw [heq] at hccspec
  rw [hccspec] at hspec
  cases hspec

/-- C2 (amended): for every board satisfying the `Binox` invariants whose
size is not 16, `solve(b, true)` returns a value that is `Zero` exactly
when no spec-valid completion exists, `One a` exactly when precisely one
exists (and `a` is it), and `Multiple a a2` exactly when at least two
exist (and `a`, `a2` are two distinct ones); at size 16 the `1u16 << 16`
wrap disables the complement check and the classification only holds for
the code's own weaker `is_valid` (see the counterexample). -/
theorem C2_amended_solve_classifies (b : Binox) (hb : b.Inv) (hsz : b.size ≠ 16) :
    ∃ s, b.solve true = some s ∧ SpecClassify b true s
      ∧ (s = .Zero ↔ ¬ ∃ cc, IsSpecCompletion b cc)
      ∧ ((∃ a, s = .One a)
          ↔ ∃ cc, IsSpecCompletion b cc ∧ ∀ d, IsSpecCompletion b d → d = cc)
      ∧ ((∃ a a2, s = .Multiple a a2)
          ↔ ∃ c1 c2, c1 ≠ c2 ∧ IsSpecCompletion b c1 ∧ IsSpecCompletion b c2) := by
  have hiff : ∀ cc, IsCompletion b cc ↔ IsSpecCompletion b cc :=
    fun cc => spec_completion_iff b cc hb hsz
  obtain ⟨s, hs, hcls, hz, ho, hm⟩ := solve_classifies_code b hb
  refine ⟨s, hs, ?_, ?_, ?_, ?_⟩
  · cases s with
    | Zero =>
      intro hex
      obtain ⟨cc, hcc⟩ := hex
      exact hcls ⟨cc, (hiff cc).mpr hcc⟩
    | One a =>
      exact ⟨(hiff a).mp hcls.1, fun cc hcc => hcls.2 cc ((hiff cc).mpr hcc)⟩
    | Multiple a a2 =>
      exact ⟨hcls.1, (hiff a).mp hcls.2.1, (hiff a2).mp hcls.2.2⟩
  · rw [hz]
    exact not_congr (exists_congr hiff)
  · rw [ho]
    exact exists_congr fun cc =>
      and_congr (hiff cc) (forall_congr' fun d => imp_congr (hiff d) Iff.rfl)
  · rw [hm]
    exact exists_congr fun c1 => exists_congr fun c2 =>
      and_congr Iff.rfl (and_congr (hiff c1) (hiff c2))

/-- C2 (amended) witness: the fresh 4×4 board. -/
theorem C2_amended_solve_classifies_witness :
    ∃ s, base4.solve true = some s ∧ SpecClassify base4 true s
      ∧ (s = .Zero ↔ ¬ ∃ cc, IsSpecCompletion base4 cc)
      ∧ ((∃ a, s = .One a)
          ↔ ∃ cc, IsSpecCompletion base4 cc ∧ ∀ d, IsSpecCompletion base4 d → d = cc)
      ∧ ((∃ a a2, s = .Multiple a a2)
          ↔ ∃ c1 c2, c1 ≠ c2 ∧ IsSpecCompletion base4 c1 ∧ IsSpecCompletion base4 c2) :=
  C2_amended_solve_classifies base4 (inv_new (s := 4) rfl) (by decide)
